import Mathlib

/-!
# Region range lock and range timestamp map

A shallow embedding of `pkg/regionspan/region_range_lock.go`.

* Keys are Go byte slices compared with `bytes.Compare`, i.e. lists of bytes in
  lexicographic order.
* `uint64` values (timestamps, region ids, versions) are natural numbers; the code only
  compares them, the constant `math.MaxUint64` is `MaxUint64`.
* The ordered trees of `github.com/google/btree` are lists kept in ascending key order;
  the tree operations used by the code are given in the namespace `BTree`.
* `*rangeLockEntry` values are addresses into an explicit heap, because the code
  compares entries by pointer and mutates `waiters` through the pointer.
* The mutex makes `tryLockRange` and `UnlockRange` atomic: each is one state transformer.
* A `log.Panic` or `panic` is the result `none`.
* A channel is a natural number, its identity. `tryLockRange` makes its channels with
  capacity one and `UnlockRange` sends once on each waiter of the entry it removes, so a
  send is the emission of a signal: `UnlockRange` returns the channels it has signalled.
* Logging is left out.
-/

namespace RegionSpan

/-- A key is a byte slice; `bytes.Compare` is the lexicographic order on it. -/
abbrev Key := List (Fin 256)

/-- The constant `math.MaxUint64`. -/
def MaxUint64 : Nat := 2 ^ 64 - 1

/-! ## Ordered tree (`btree.BTreeG`) as an ascending list -/

namespace BTree

variable {α : Type}

/-- `Get`: the item of the tree whose key equals `k`, if any. -/
def Get (key : α → Key) (t : List α) (k : Key) : Option α :=
  t.find? (fun i => decide (key i = k))

/-- `DescendLessOrEqual`: the items with key `≤ pivot`, in descending order (the order in
which the iterator visits them). -/
def DescendLessOrEqual (key : α → Key) (t : List α) (pivot : Key) : List α :=
  (t.filter (fun i => decide (key i ≤ pivot))).reverse

/-- `AscendRange`: the items with key in `[greaterOrEqual, lessThan)`, ascending. -/
def AscendRange (key : α → Key) (t : List α) (greaterOrEqual lessThan : Key) : List α :=
  t.filter (fun i => decide (greaterOrEqual ≤ key i ∧ key i < lessThan))

/-- `ReplaceOrInsert`: put `e` at its place in key order, replacing an item of equal key. -/
def ReplaceOrInsert (key : α → Key) : List α → α → List α
  | [], e => [e]
  | x :: xs, e =>
    if key e < key x then e :: x :: xs
    else if key x < key e then x :: ReplaceOrInsert key xs e
    else e :: xs

/-- `Delete`: remove the item whose key is `k`; returns the removed item (if one was found)
and the remaining tree. -/
def Delete (key : α → Key) : List α → Key → Option α × List α
  | [], _ => (none, [])
  | x :: xs, k =>
    if key x = k then (some x, xs)
    else ((Delete key xs k).1, x :: (Delete key xs k).2)

/-- The shape invariant of a tree: keys strictly ascending. -/
def Ordered (key : α → Key) (t : List α) : Prop :=
  t.Pairwise (fun a b => key a < key b)

end BTree

/-! ## RangeTsMap -/

/-- The struct `rangeTsEntry`. -/
structure rangeTsEntry where
  startKey : Key
  ts : Nat
deriving DecidableEq, Repr

/-- The struct `RangeTsMap`: a tree of `rangeTsEntry` ordered by `rangeTsEntryLess`. -/
structure RangeTsMap where
  m : List rangeTsEntry
deriving DecidableEq, Repr

/-- The ts of the first item the `DescendLessOrEqual` iterator visits from `pivot`
(the callback stores `i.ts` and stops), or `dflt` when it visits none. -/
def firstTsLessOrEqual (t : List rangeTsEntry) (pivot : Key) (dflt : Nat) : Nat :=
  match (BTree.DescendLessOrEqual rangeTsEntry.startKey t pivot).head? with
  | some i => i.ts
  | none => dflt

/-- `RangeTsMap.Set`. -/
def RangeTsMap.Set (m : RangeTsMap) (startKey endKey : Key) (ts : Nat) : RangeTsMap :=
  let t1 :=
    match BTree.Get rangeTsEntry.startKey m.m endKey with
    | some _ => m.m
    | none =>
      let tailTs := firstTsLessOrEqual m.m endKey MaxUint64
      BTree.ReplaceOrInsert rangeTsEntry.startKey m.m ⟨endKey, tailTs⟩
  let entriesToDelete := BTree.AscendRange rangeTsEntry.startKey t1 startKey endKey
  let t2 := entriesToDelete.foldl
    (fun t e => (BTree.Delete rangeTsEntry.startKey t e.startKey).2) t1
  ⟨BTree.ReplaceOrInsert rangeTsEntry.startKey t2 ⟨startKey, ts⟩⟩

/-- `NewRangeTsMap`. -/
def NewRangeTsMap (startKey endKey : Key) (startTs : Nat) : RangeTsMap :=
  RangeTsMap.Set ⟨[]⟩ startKey endKey startTs

/-- `RangeTsMap.GetMin`. -/
def RangeTsMap.GetMin (m : RangeTsMap) (startKey endKey : Key) : Nat :=
  let ts := firstTsLessOrEqual m.m startKey MaxUint64
  (BTree.AscendRange rangeTsEntry.startKey m.m startKey endKey).foldl
    (fun ts i => if ts > i.ts then i.ts else ts) ts

/-! ## RegionRangeLock -/

/-- The struct `rangeLockEntry`; a waiter is the identity of a channel. -/
structure rangeLockEntry where
  startKey : Key
  endKey : Key
  regionID : Nat
  version : Nat
  waiters : List Nat
deriving DecidableEq, Repr, Inhabited

/-- The struct `ComparableSpan` of the package: a half-open key range. -/
structure ComparableSpan where
  Start : Key
  End : Key
deriving DecidableEq, Repr

/-- The constant `LockRangeStatusSuccess`. -/
def LockRangeStatusSuccess : Nat := 0

/-- The constant `LockRangeStatusWait`. -/
def LockRangeStatusWait : Nat := 1

/-- The constant `LockRangeStatusStale`. -/
def LockRangeStatusStale : Nat := 2

/-- The constant `LockRangeStatusCancel`. -/
def LockRangeStatusCancel : Nat := 3

/-- The struct `LockRangeResult` without its closure field `WaitFn`. -/
structure LockRangeResult where
  Status : Nat
  CheckpointTs : Nat
  RetryRanges : List ComparableSpan
deriving DecidableEq, Repr

/-! A Go `map[uint64]*rangeLockEntry` as an association list. -/

/-- The lookup `m[k]` with its `ok` flag. -/
def mapGet (m : List (Nat × Nat)) (k : Nat) : Option Nat :=
  (m.find? (fun b => decide (b.1 = k))).map Prod.snd

/-- The builtin `delete(m, k)`. -/
def mapDelete (m : List (Nat × Nat)) (k : Nat) : List (Nat × Nat) :=
  m.filter (fun b => decide (b.1 ≠ k))

/-- The assignment `m[k] = v`. -/
def mapSet (m : List (Nat × Nat)) (k v : Nat) : List (Nat × Nat) :=
  (k, v) :: mapDelete m k

/-- The struct `RegionRangeLock`. `rangeLock` holds entry addresses ordered by
`rangeLockEntryLess`, `regionIDLock` maps a region id to an entry address, `heap` gives
the entry stored at an address, and `chanCount` counts the channels made so far (the next
`make(chan)` gets this identity). The fields `changefeedLogInfo`, `id` (logging) and `mu`
are left out. -/
structure RegionRangeLock where
  rangeCheckpointTs : RangeTsMap
  rangeLock : List Nat
  regionIDLock : List (Nat × Nat)
  heap : Nat → rangeLockEntry
  chanCount : Nat

/-- The key of a tree item: `rangeLockEntryLess` compares the `startKey` of the pointees. -/
def entryKey (heap : Nat → rangeLockEntry) (p : Nat) : Key := (heap p).startKey

/-- The address given to `&rangeLockEntry{...}`: one that no live object has, that is, one
referenced neither from the tree nor from the region id map. -/
def allocEntry (l : RegionRangeLock) : Nat :=
  (l.rangeLock ++ l.regionIDLock.map Prod.snd).foldr max 0 + 1

/-- `NewRegionRangeLock`. -/
def NewRegionRangeLock (startKey endKey : Key) (startTs : Nat) : RegionRangeLock :=
  { rangeCheckpointTs := NewRangeTsMap startKey endKey startTs
    rangeLock := []
    regionIDLock := []
    heap := fun _ => default
    chanCount := 0 }

/-- `RegionRangeLock.getOverlappedEntries`. -/
def RegionRangeLock.getOverlappedEntries (l : RegionRangeLock) (startKey endKey : Key)
    (regionID : Nat) : List Nat :=
  let fromDescend :=
    match (BTree.DescendLessOrEqual (entryKey l.heap) l.rangeLock startKey).head? with
    | some entry =>
      if (l.heap entry).startKey < startKey ∧ startKey < (l.heap entry).endKey
      then [entry] else []
    | none => []
  let overlappingRanges :=
    fromDescend ++ BTree.AscendRange (entryKey l.heap) l.rangeLock startKey endKey
  let regionIDFound := overlappingRanges.any (fun e => decide ((l.heap e).regionID = regionID))
  if !regionIDFound then
    match mapGet l.regionIDLock regionID with
    | some entry => overlappingRanges ++ [entry]
    | none => overlappingRanges
  else overlappingRanges

/-- One round of the retry-range loop of `tryLockRange`: the state is
`(retryRanges, currentRangeStartKey)`. -/
def retryStep (startKey endKey : Key) (acc : List ComparableSpan × Key)
    (r : rangeLockEntry) : List ComparableSpan × Key :=
  if r.endKey ≤ startKey ∨ endKey ≤ r.startKey then acc
  else
    (if acc.2 < r.startKey then acc.1 ++ [⟨acc.2, r.startKey⟩] else acc.1, r.endKey)

/-- The retry ranges `tryLockRange` computes from the overlapping entries. -/
def retryRanges (startKey endKey : Key) (overlapping : List rangeLockEntry) :
    List ComparableSpan :=
  let acc := overlapping.foldl (retryStep startKey endKey) ([], startKey)
  if acc.2 < endKey then acc.1 ++ [⟨acc.2, endKey⟩] else acc.1

/-- One round of the wait loop of `tryLockRange`: make a channel, append it to
`signalChs` and to the waiters of `r`. The state is `(signalChs, heap, chanCount)`. -/
def waitStep (acc : List Nat × (Nat → rangeLockEntry) × Nat) (r : Nat) :
    List Nat × (Nat → rangeLockEntry) × Nat :=
  let ch := acc.2.2
  (acc.1 ++ [ch],
   Function.update acc.2.1 r { acc.2.1 r with waiters := (acc.2.1 r).waiters ++ [ch] },
   ch + 1)

/-- `RegionRangeLock.tryLockRange`: the result, the signal channels and the state after. -/
def RegionRangeLock.tryLockRange (l : RegionRangeLock) (startKey endKey : Key)
    (regionID version : Nat) : LockRangeResult × List Nat × RegionRangeLock :=
  let overlappingEntries := l.getOverlappedEntries startKey endKey regionID
  if overlappingEntries.length = 0 then
    let checkpointTs := l.rangeCheckpointTs.GetMin startKey endKey
    let newEntry := allocEntry l
    let heap1 := Function.update l.heap newEntry
      { startKey := startKey, endKey := endKey, regionID := regionID, version := version,
        waiters := [] }
    (⟨LockRangeStatusSuccess, checkpointTs, []⟩, [],
     { l with
       heap := heap1
       rangeLock := BTree.ReplaceOrInsert (entryKey heap1) l.rangeLock newEntry
       regionIDLock := mapSet l.regionIDLock regionID newEntry })
  else
    let isStale := overlappingEntries.any (fun r => decide ((l.heap r).version ≥ version))
    if isStale then
      (⟨LockRangeStatusStale, 0, retryRanges startKey endKey (overlappingEntries.map l.heap)⟩,
       [], l)
    else
      let acc := overlappingEntries.foldl waitStep ([], l.heap, l.chanCount)
      (⟨LockRangeStatusWait, 0, []⟩, acc.1, { l with heap := acc.2.1, chanCount := acc.2.2 })

/-- `RegionRangeLock.UnlockRange`: `none` when it panics, otherwise the state after and the
channels it has sent a signal on, in order. -/
def RegionRangeLock.UnlockRange (l : RegionRangeLock) (startKey endKey : Key)
    (regionID version : Nat) (checkpointTs : Nat) : Option (RegionRangeLock × List Nat) :=
  match BTree.Get (entryKey l.heap) l.rangeLock startKey with
  | none => none
  | some entry =>
    if (l.heap entry).regionID ≠ regionID then none
    else if mapGet l.regionIDLock regionID ≠ some entry then none
    else
      let regionIDLock1 := mapDelete l.regionIDLock regionID
      if (l.heap entry).version ≠ version ∨ (l.heap entry).endKey ≠ endKey then none
      else
        let signalled := (l.heap entry).waiters
        match BTree.Delete (entryKey l.heap) l.rangeLock (entryKey l.heap entry) with
        | (none, _) => none
        | (some _, rangeLock1) =>
          some ({ l with
                  regionIDLock := regionIDLock1
                  rangeLock := rangeLock1
                  rangeCheckpointTs := l.rangeCheckpointTs.Set startKey endKey checkpointTs },
                signalled)

/-! ## Vocabulary of the statements

The definitions below are not in the source: they name what the statements talk about
(the value in effect at a key, the reachable states, the invariant) and parts of the
source functions that the proofs treat separately. -/

/-- The value in effect at key `k`: the ts of the entry with the largest start key `≤ k`,
or `math.MaxUint64` when there is none. -/
def RangeTsMap.valueAt (m : RangeTsMap) (k : Key) : Nat :=
  firstTsLessOrEqual m.m k MaxUint64

/-- The tree of the map is well formed. -/
def RangeTsMap.Ordered (m : RangeTsMap) : Prop := BTree.Ordered rangeTsEntry.startKey m.m

/-- The entry `x` is the one in effect at `k`: it has the greatest start key `≤ k`. -/
def InEffect (t : List rangeTsEntry) (k : Key) (x : rangeTsEntry) : Prop :=
  x ∈ t ∧ x.startKey ≤ k ∧ ∀ y ∈ t, y.startKey ≤ k → y.startKey ≤ x.startKey

/-- The tree after the first step of `Set` (making sure an entry starts at `endKey`). -/
def splitAt (t : List rangeTsEntry) (endKey : Key) : List rangeTsEntry :=
  match BTree.Get rangeTsEntry.startKey t endKey with
  | some _ => t
  | none =>
    BTree.ReplaceOrInsert rangeTsEntry.startKey t ⟨endKey, firstTsLessOrEqual t endKey MaxUint64⟩

/-- One call `Set(startKey, endKey, ts)`. -/
structure SetCall where
  startKey : Key
  endKey : Key
  ts : Nat
deriving DecidableEq, Repr

/-- The map after a sequence of `Set` calls, applied in order. -/
def applySets (m : RangeTsMap) (calls : List SetCall) : RangeTsMap :=
  calls.foldl (fun m c => m.Set c.startKey c.endKey c.ts) m

/-- The value the claim assigns to key `k` after `calls` on a map that started at `t0`: the
ts of the last call whose range `[startKey, endKey)` holds `k`, or `t0` when no call does. -/
def lastCovering (t0 : Nat) (calls : List SetCall) (k : Key) : Nat :=
  match calls.reverse.find? (fun c => decide (c.startKey ≤ k ∧ k < c.endKey)) with
  | some c => c.ts
  | none => t0

/-- The states reached from `NewRegionRangeLock` by acquires on non-empty ranges and by
releases that complete. -/
inductive Reachable : RegionRangeLock → Prop
  | init (startKey endKey : Key) (startTs : Nat) :
      Reachable (NewRegionRangeLock startKey endKey startTs)
  | acquire (l : RegionRangeLock) (startKey endKey : Key) (regionID version : Nat) :
      Reachable l → startKey < endKey →
      Reachable (l.tryLockRange startKey endKey regionID version).2.2
  | release (l l1 : RegionRangeLock) (startKey endKey : Key) (regionID version ts : Nat)
      (signalled : List Nat) :
      Reachable l → l.UnlockRange startKey endKey regionID version ts = some (l1, signalled) →
      Reachable l1

/-- Key `k` lies in the half-open interval `[startKey, endKey)` of the entry. -/
def rangeLockEntry.covers (e : rangeLockEntry) (k : Key) : Prop :=
  e.startKey ≤ k ∧ k < e.endKey

/-- The intervals of two entries share a key. -/
def Intersects (a b : rangeLockEntry) : Prop :=
  ∃ k, a.covers k ∧ b.covers k

/-- The first part of `getOverlappedEntries`: what the `DescendLessOrEqual` callback
appends. -/
def descendPart (l : RegionRangeLock) (startKey : Key) : List Nat :=
  match (BTree.DescendLessOrEqual (entryKey l.heap) l.rangeLock startKey).head? with
  | some entry =>
    if (l.heap entry).startKey < startKey ∧ startKey < (l.heap entry).endKey
    then [entry] else []
  | none => []

/-- The list `overlappingRanges` of `getOverlappedEntries` after its two tree scans. -/
def scanPart (l : RegionRangeLock) (startKey endKey : Key) : List Nat :=
  descendPart l startKey ++ BTree.AscendRange (entryKey l.heap) l.rangeLock startKey endKey

/-- Two heaps agree on every field of every entry except `waiters`. -/
def SameFields (h h1 : Nat → rangeLockEntry) : Prop :=
  ∀ q, (h1 q).startKey = (h q).startKey ∧ (h1 q).endKey = (h q).endKey ∧
    (h1 q).regionID = (h q).regionID ∧ (h1 q).version = (h q).version

/-- Invariant of the reachable states: the tree is ordered by start key, every entry is a
non-empty interval, entries are separated in tree order, the region id map holds exactly
the tree entries under their own region id, and the checkpoint map is ordered. -/
structure Inv (l : RegionRangeLock) : Prop where
  ordered : BTree.Ordered (entryKey l.heap) l.rangeLock
  nonempty : ∀ p ∈ l.rangeLock, (l.heap p).startKey < (l.heap p).endKey
  disjoint : l.rangeLock.Pairwise (fun p q => (l.heap p).endKey ≤ (l.heap q).startKey)
  index : ∀ r p, mapGet l.regionIDLock r = some p ↔ p ∈ l.rangeLock ∧ (l.heap p).regionID = r
  tsOrdered : l.rangeCheckpointTs.Ordered

/-- The gaps that a list of entries, taken in order, leaves in `[cur, endKey)`. -/
def gapsFrom (endKey : Key) : Key → List rangeLockEntry → List ComparableSpan
  | cur, [] => if cur < endKey then [⟨cur, endKey⟩] else []
  | cur, x :: es =>
    (if cur < x.startKey then [⟨cur, x.startKey⟩] else []) ++ gapsFrom endKey x.endKey es

/-- The coverage invariant of a map over `[gs, ge)`: the tree is ordered, one entry starts
at `gs`, and every start key lies in `[gs, ge]`. -/
def Covers (gs ge : Key) (m : RangeTsMap) : Prop :=
  m.Ordered ∧ (∃ x ∈ m.m, x.startKey = gs) ∧
    ∀ x ∈ m.m, gs ≤ x.startKey ∧ x.startKey ≤ ge

/-! ## LockRange and WaitFn

`LockRange` calls `tryLockRange` and, when the status is Wait, sets the field `WaitFn` of
the result to a closure over the signal channels. `WaitFn` runs while other goroutines use
the lock, so its execution is given one step at a time over a world made of the lock, the
channel buffers and the context, with the schedule (what the other goroutines do and which
case a `select` takes) as an explicit list of events. -/

/-- `RegionRangeLock.LockRange`: the result, the channels captured by the closure `WaitFn`
(`none` when the field `WaitFn` is not set), and the state after. -/
def RegionRangeLock.LockRange (l : RegionRangeLock) (startKey endKey : Key)
    (regionID version : Nat) : LockRangeResult × Option (List Nat) × RegionRangeLock :=
  let res := l.tryLockRange startKey endKey regionID version
  if res.1.Status ≠ LockRangeStatusWait then (res.1, none, res.2.2)
  else (res.1, some res.2.1, res.2.2)

/-- What `WaitFn` shares with the other goroutines: the lock, the number of values waiting
in each channel, and whether `ctx.Done()` is closed. -/
structure World where
  lock : RegionRangeLock
  buffered : Nat → Nat
  ctxDone : Bool

/-- Where `WaitFn` stands: at the `select` for the first channel of `pending` (the rest of
`signalChs1` in the inner loop), with `pending = []` at the call of `tryLockRange`; or
returned. -/
inductive WaitFnLoc where
  | selecting (pending : List Nat)
  | returned (res : LockRangeResult)
deriving DecidableEq, Repr

/-- What `WaitFn` has done: received from a channel, returned on `ctx.Done()`, or called
`tryLockRange` on the lock state `l` of that moment. -/
inductive WaitFnAction where
  | received (ch : Nat)
  | cancelled
  | tried (l : RegionRangeLock)

/-- A configuration of one running `WaitFn`: the world, its location and its actions so
far. -/
structure Config where
  world : World
  loc : WaitFnLoc
  log : List WaitFnAction

/-- One scheduling event: the context is cancelled, another goroutine calls `tryLockRange`
or `UnlockRange`, or `WaitFn` takes the `ctx.Done()` case of its `select`, takes the channel
case of its `select`, or calls `tryLockRange`. -/
inductive Event where
  | ctxCancel
  | otherTryLock (startKey endKey : Key) (regionID version : Nat)
  | otherUnlock (startKey endKey : Key) (regionID version checkpointTs : Nat)
  | selectDone
  | selectRecv
  | callTryLock
deriving DecidableEq, Repr

/-- The sends `ch <- nil` of `UnlockRange`: one more value in each signalled channel. -/
def sendAll (buffered : Nat → Nat) (chs : List Nat) : Nat → Nat :=
  chs.foldl (fun b ch => Function.update b ch (b ch + 1)) buffered

/-- One step of the execution of the `WaitFn` made by
`LockRange(ctx, startKey, endKey, regionID, version)`; `none` when the event cannot happen
in this configuration (a `select` case that is not ready, a step of a `WaitFn` that has
returned) or when `UnlockRange` panics. -/
def WaitFn.step (startKey endKey : Key) (regionID version : Nat) (c : Config) :
    Event → Option Config
  | .ctxCancel => some { c with world := { c.world with ctxDone := true } }
  | .otherTryLock s e r v =>
    some { c with world := { c.world with lock := (c.world.lock.tryLockRange s e r v).2.2 } }
  | .otherUnlock s e r v ts =>
    match c.world.lock.UnlockRange s e r v ts with
    | none => none
    | some (l1, signalled) =>
      some { c with
        world := { c.world with lock := l1, buffered := sendAll c.world.buffered signalled } }
  | .selectDone =>
    match c.loc with
    | .selecting (_ :: _) =>
      if c.world.ctxDone = true then
        some { c with
          loc := .returned ⟨LockRangeStatusCancel, 0, []⟩
          log := c.log ++ [.cancelled] }
      else none
    | _ => none
  | .selectRecv =>
    match c.loc with
    | .selecting (ch :: rest) =>
      if 0 < c.world.buffered ch then
        some { world := { c.world with
                 buffered := Function.update c.world.buffered ch (c.world.buffered ch - 1) }
               loc := .selecting rest
               log := c.log ++ [.received ch] }
      else none
    | _ => none
  | .callTryLock =>
    match c.loc with
    | .selecting [] =>
      let res := c.world.lock.tryLockRange startKey endKey regionID version
      some { world := { c.world with lock := res.2.2 }
             loc := if res.1.Status ≠ LockRangeStatusWait then .returned res.1
                    else .selecting res.2.1
             log := c.log ++ [.tried c.world.lock] }
    | _ => none

/-- The execution of `WaitFn` along a schedule. -/
def WaitFn.run (startKey endKey : Key) (regionID version : Nat) :
    Config → List Event → Option Config
  | c, [] => some c
  | c, ev :: evs =>
    match WaitFn.step startKey endKey regionID version c ev with
    | none => none
    | some c1 => WaitFn.run startKey endKey regionID version c1 evs

/-- The configuration in which the `WaitFn` returned by `LockRange` on lock state `l`
starts, in a world with the given channel buffers and context; `none` when `LockRange`
returns no `WaitFn`. -/
def WaitFn.start (l : RegionRangeLock) (startKey endKey : Key) (regionID version : Nat)
    (buffered : Nat → Nat) (ctxDone : Bool) : Option Config :=
  match (l.LockRange startKey endKey regionID version).2.1 with
  | none => none
  | some signalChs =>
    some { world := { lock := (l.LockRange startKey endKey regionID version).2.2
                      buffered := buffered
                      ctxDone := ctxDone }
           loc := .selecting signalChs
           log := [] }

/-- The shape of the actions of a `WaitFn` that starts with the wait set `chs` and returns
`res`: it receives from the channels of the wait set in order and either returns on
`ctx.Done()` before having received from all of them, or calls `tryLockRange` after the
last one, returning its result when the status is not Wait and going on with the new
channels when it is. -/
inductive WaitFnTrace (startKey endKey : Key) (regionID version : Nat) :
    List Nat → List WaitFnAction → LockRangeResult → Prop
  | cancel (pre : List Nat) (ch : Nat) (post : List Nat) :
      WaitFnTrace startKey endKey regionID version (pre ++ ch :: post)
        (pre.map .received ++ [.cancelled]) ⟨LockRangeStatusCancel, 0, []⟩
  | done (chs : List Nat) (l : RegionRangeLock) :
      (l.tryLockRange startKey endKey regionID version).1.Status ≠ LockRangeStatusWait →
      WaitFnTrace startKey endKey regionID version chs
        (chs.map .received ++ [.tried l])
        (l.tryLockRange startKey endKey regionID version).1
  | again (chs : List Nat) (l : RegionRangeLock) (rest : List WaitFnAction)
      (res : LockRangeResult) :
      (l.tryLockRange startKey endKey regionID version).1.Status = LockRangeStatusWait →
      WaitFnTrace startKey endKey regionID version
        (l.tryLockRange startKey endKey regionID version).2.1 rest res →
      WaitFnTrace startKey endKey regionID version chs
        (chs.map .received ++ .tried l :: rest) res

/-- The channels that the wait loop of `tryLockRange`, run over the conflict list `C` with
`n` channels made before, appends to the waiters of the entry at address `q`: one for each
place of `q` in `C`. -/
def handlesFor (q : Nat) : List Nat → Nat → List Nat
  | [], _ => []
  | p :: C, n => if p = q then n :: handlesFor q C (n + 1) else handlesFor q C (n + 1)

/-- The states reached from `NewRegionRangeLock` by acquires on non-empty ranges and by
releases that complete, together with the channels on which a signal has been sent so
far, in order. -/
inductive ReachableSig : RegionRangeLock → List Nat → Prop
  | init (startKey endKey : Key) (startTs : Nat) :
      ReachableSig (NewRegionRangeLock startKey endKey startTs) []
  | acquire (l : RegionRangeLock) (sent : List Nat) (startKey endKey : Key)
      (regionID version : Nat) :
      ReachableSig l sent → startKey < endKey →
      ReachableSig (l.tryLockRange startKey endKey regionID version).2.2 sent
  | release (l l1 : RegionRangeLock) (sent : List Nat) (startKey endKey : Key)
      (regionID version ts : Nat) (signalled : List Nat) :
      ReachableSig l sent →
      l.UnlockRange startKey endKey regionID version ts = some (l1, signalled) →
      ReachableSig l1 (sent ++ signalled)

/-- Invariant of the waiters: every channel registered on an entry of the tree has been
made, is registered once and on that entry only, and no signal has been sent on it yet;
no channel has been signalled twice. -/
structure WaitersInv (l : RegionRangeLock) (sent : List Nat) : Prop where
  made : ∀ p ∈ l.rangeLock, ∀ h ∈ (l.heap p).waiters, h < l.chanCount
  once : ∀ p ∈ l.rangeLock, (l.heap p).waiters.Nodup
  own : ∀ p ∈ l.rangeLock, ∀ q ∈ l.rangeLock, ∀ h,
    h ∈ (l.heap p).waiters → h ∈ (l.heap q).waiters → p = q
  sentOnce : sent.Nodup
  sentMade : ∀ h ∈ sent, h < l.chanCount
  sentGone : ∀ h ∈ sent, ∀ p ∈ l.rangeLock, h ∉ (l.heap p).waiters

/-- The states reached from `NewRegionRangeLock` by any `tryLockRange` calls and by releases
that complete. `tryLockRange` compares `startKey` with `endKey` nowhere, so a call on an
empty or inverted range also runs to its end and is one of these steps. -/
inductive ReachableAny : RegionRangeLock → Prop
  | init (startKey endKey : Key) (startTs : Nat) :
      ReachableAny (NewRegionRangeLock startKey endKey startTs)
  | acquire (l : RegionRangeLock) (startKey endKey : Key) (regionID version : Nat) :
      ReachableAny l →
      ReachableAny (l.tryLockRange startKey endKey regionID version).2.2
  | release (l l1 : RegionRangeLock) (startKey endKey : Key) (regionID version ts : Nat)
      (signalled : List Nat) :
      ReachableAny l → l.UnlockRange startKey endKey regionID version ts = some (l1, signalled) →
      ReachableAny l1

/-! ## Example states -/

/-- A fresh lock over the key space `[0x00, 0x09)` with start ts 7. -/
def exLock0 : RegionRangeLock := NewRegionRangeLock [0] [9] 7

/-- The state after region 1 has acquired `[0x01, 0x05)` at version 5. -/
def exLock1 : RegionRangeLock := (exLock0.tryLockRange [1] [5] 1 5).2.2

/-- The state after region 2 has also acquired `[0x05, 0x08)` at version 6. -/
def exLock2 : RegionRangeLock := (exLock1.tryLockRange [5] [8] 2 6).2.2

/-- The state after region 1 has acquired the empty range `[0x05, 0x05)` on a fresh lock. -/
def exLockEmpty : RegionRangeLock := (exLock0.tryLockRange [5] [5] 1 1).2.2

/-- The state after `UnlockRange(0x01, 0x05, 1, 5, 100)` in `exLock2`. -/
def exLock2Released : RegionRangeLock :=
  ((exLock2.UnlockRange [1] [5] 1 5 100).getD (exLock2, [])).1

/-- The start of the `WaitFn` of `LockRange(ctx, 0x02, 0x03, 2, 6)` called in `exLock1`:
the request waits for the entry of region 1 on channel 0; no channel holds a value and the
context is not cancelled. -/
def exWaitStart : Config :=
  { world := { lock := (exLock1.tryLockRange [2] [3] 2 6).2.2
               buffered := fun _ => 0
               ctxDone := false }
    loc := .selecting [0]
    log := [] }

/-- A schedule: region 1 releases `[0x01, 0x05)` with checkpoint ts 100, then `WaitFn`
receives the signal and calls `tryLockRange`. -/
def exWaitSchedule : List Event :=
  [.otherUnlock [1] [5] 1 5 100, .selectRecv, .callTryLock]

/-- The configuration after `exWaitSchedule`. -/
def exWaitEnd : Config :=
  (WaitFn.run [2] [3] 2 6 exWaitStart exWaitSchedule).getD exWaitStart

/-- The same start as `exWaitStart`, with the context already cancelled. -/
def exCancelStart : Config :=
  { world := { lock := (exLock1.tryLockRange [2] [3] 2 6).2.2
               buffered := fun _ => 0
               ctxDone := true }
    loc := .selecting [0]
    log := [] }

/-- The state after `tryLockRange(0x02, 0x03, 2, 6)` returned Wait in `exLock1`: channel 0
is registered on the entry of region 1. -/
def exLockWaited : RegionRangeLock := (exLock1.tryLockRange [2] [3] 2 6).2.2

/-- The state after `UnlockRange(0x01, 0x05, 1, 5, 100)` in `exLockWaited`. -/
def exLockWaitedReleased : RegionRangeLock :=
  ((exLockWaited.UnlockRange [1] [5] 1 5 100).getD (exLockWaited, [])).1

/-- The state after region 3 has also acquired the empty range `[0x07, 0x07)` at version 1
in `exLock1`: the tree holds entry 1, `[0x01, 0x05)` of region 1 at version 5, and entry 2,
`[0x07, 0x07)` of region 3 at version 1. -/
def exLockPoint : RegionRangeLock := (exLock1.tryLockRange [7] [7] 3 1).2.2

/-! ## Facts about the ordered tree -/

namespace BTree

variable {α : Type} {key : α → Key}

theorem Get_some {t : List α} {k : Key} {x : α} (h : Get key t k = some x) :
    x ∈ t ∧ key x = k := by
  unfold Get at h
  exact ⟨List.mem_of_find?_eq_some h, by simpa using List.find?_some h⟩

theorem Get_none {t : List α} {k : Key} : Get key t k = none ↔ ∀ x ∈ t, key x ≠ k := by
  unfold Get
  simp [List.find?_eq_none]

theorem Ordered.key_inj {t : List α} (h : Ordered key t) {x y : α} (hx : x ∈ t) (hy : y ∈ t)
    (hk : key x = key y) : x = y := by
  induction t with
  | nil => simp at hx
  | cons a t ih =>
    obtain ⟨ha, ht⟩ := List.pairwise_cons.mp h
    rcases List.mem_cons.mp hx with rfl | hx1 <;> rcases List.mem_cons.mp hy with rfl | hy1
    · rfl
    · exact absurd hk (ne_of_lt (ha _ hy1))
    · exact absurd hk.symm (ne_of_lt (ha _ hx1))
    · exact ih ht hx1 hy1

theorem Get_of_mem {t : List α} (h : Ordered key t) {x : α} (hx : x ∈ t) :
    Get key t (key x) = some x := by
  cases hg : Get key t (key x) with
  | none => exact absurd rfl (Get_none.mp hg x hx)
  | some y =>
    obtain ⟨hy, hk⟩ := Get_some hg
    rw [h.key_inj hy hx hk]

theorem ReplaceOrInsert_eq {t : List α} (h : Ordered key t) (e : α) :
    ReplaceOrInsert key t e =
      t.filter (fun i => decide (key i < key e)) ++
        e :: t.filter (fun i => decide (key e < key i)) := by
  induction t with
  | nil => simp [ReplaceOrInsert]
  | cons x xs ih =>
    obtain ⟨hx, hxs⟩ := List.pairwise_cons.mp h
    unfold ReplaceOrInsert
    by_cases h1 : key e < key x
    · have hlt : ∀ a ∈ xs, key e < key a := fun a ha => lt_trans h1 (hx a ha)
      have e1 : (x :: xs).filter (fun i => decide (key i < key e)) = [] := by
        rw [List.filter_eq_nil_iff]
        intro a ha
        rcases List.mem_cons.mp ha with rfl | ha1
        · simpa using le_of_lt h1
        · simpa using le_of_lt (hlt a ha1)
      have e2 : (x :: xs).filter (fun i => decide (key e < key i)) = x :: xs := by
        rw [List.filter_eq_self]
        intro a ha
        rcases List.mem_cons.mp ha with rfl | ha1
        · simpa using h1
        · simpa using hlt a ha1
      rw [if_pos h1, e1, e2]; rfl
    · rw [if_neg h1]
      by_cases h2 : key x < key e
      · rw [if_pos h2, ih hxs]
        simp [List.filter_cons, h2, h1]
      · rw [if_neg h2]
        have heq : key x = key e := le_antisymm (not_lt.mp h1) (not_lt.mp h2)
        have hlt : ∀ a ∈ xs, key e < key a := fun a ha => heq ▸ hx a ha
        have e1 : (x :: xs).filter (fun i => decide (key i < key e)) = [] := by
          rw [List.filter_eq_nil_iff]
          intro a ha
          rcases List.mem_cons.mp ha with rfl | ha1
          · simpa using h2
          · simpa using le_of_lt (hlt a ha1)
        have e2 : (x :: xs).filter (fun i => decide (key e < key i)) = xs := by
          rw [List.filter_cons, if_neg (by simpa using h1), List.filter_eq_self]
          intro a ha
          simpa using hlt a ha
        rw [e1, e2]; rfl

theorem mem_ReplaceOrInsert {t : List α} (h : Ordered key t) (e x : α) :
    x ∈ ReplaceOrInsert key t e ↔ x = e ∨ (x ∈ t ∧ key x ≠ key e) := by
  rw [ReplaceOrInsert_eq h]
  simp only [List.mem_append, List.mem_cons, List.mem_filter, decide_eq_true_eq]
  constructor
  · rintro (⟨hx, hlt⟩ | rfl | ⟨hx, hlt⟩)
    · exact Or.inr ⟨hx, ne_of_lt hlt⟩
    · exact Or.inl rfl
    · exact Or.inr ⟨hx, (ne_of_lt hlt).symm⟩
  · rintro (rfl | ⟨hx, hne⟩)
    · exact Or.inr (Or.inl rfl)
    · rcases lt_or_gt_of_ne hne with hlt | hgt
      · exact Or.inl ⟨hx, hlt⟩
      · exact Or.inr (Or.inr ⟨hx, hgt⟩)

theorem self_mem_ReplaceOrInsert (t : List α) (e : α) : e ∈ ReplaceOrInsert key t e := by
  induction t with
  | nil => simp [ReplaceOrInsert]
  | cons x xs ih =>
    unfold ReplaceOrInsert
    split_ifs <;> simp [ih]

theorem Ordered_ReplaceOrInsert {t : List α} (h : Ordered key t) (e : α) :
    Ordered key (ReplaceOrInsert key t e) := by
  rw [ReplaceOrInsert_eq h]
  unfold Ordered
  rw [List.pairwise_append]
  refine ⟨h.filter _, ?_, ?_⟩
  · rw [List.pairwise_cons]
    refine ⟨?_, h.filter _⟩
    intro a ha
    simpa using (List.mem_filter.mp ha).2
  · intro a ha b hb
    have h1 : key a < key e := by simpa using (List.mem_filter.mp ha).2
    rcases List.mem_cons.mp hb with rfl | hb1
    · exact h1
    · exact lt_trans h1 (by simpa using (List.mem_filter.mp hb1).2)

theorem Delete_fst (t : List α) (k : Key) : (Delete key t k).1 = Get key t k := by
  induction t with
  | nil => rfl
  | cons x xs ih =>
    unfold Delete Get
    by_cases h : key x = k
    · simp [h]
    · simp only [if_neg h, List.find?_cons, decide_eq_false h]
      exact ih

theorem Delete_snd_sublist (t : List α) (k : Key) : (Delete key t k).2.Sublist t := by
  induction t with
  | nil => simp [Delete]
  | cons x xs ih =>
    unfold Delete
    by_cases h : key x = k
    · simp [h]
    · simp only [if_neg h]
      exact ih.cons₂ x

theorem Delete_snd_eq {t : List α} (h : Ordered key t) (k : Key) :
    (Delete key t k).2 = t.filter (fun i => decide (key i ≠ k)) := by
  induction t with
  | nil => simp [Delete]
  | cons x xs ih =>
    obtain ⟨hx, hxs⟩ := List.pairwise_cons.mp h
    unfold Delete
    by_cases h1 : key x = k
    · rw [if_pos h1, List.filter_cons, if_neg (by simpa using h1)]
      symm
      rw [List.filter_eq_self]
      intro a ha
      have := hx a ha
      rw [h1] at this
      simpa using (ne_of_lt this).symm
    · rw [if_neg h1, List.filter_cons, if_pos (by simpa using h1), ih hxs]

theorem mem_AscendRange {t : List α} {lo hi : Key} {x : α} :
    x ∈ AscendRange key t lo hi ↔ x ∈ t ∧ lo ≤ key x ∧ key x < hi := by
  unfold AscendRange
  simp [List.mem_filter]

theorem Ordered.getLast_of_max {t : List α} (h : Ordered key t) {x : α} (hx : x ∈ t)
    (hmax : ∀ y ∈ t, key y ≤ key x) : t.getLast? = some x := by
  induction t with
  | nil => simp at hx
  | cons a t ih =>
    obtain ⟨ha, ht⟩ := List.pairwise_cons.mp h
    cases t with
    | nil => simpa using (List.mem_singleton.mp hx).symm
    | cons b t =>
      rw [List.getLast?_cons_cons]
      rcases List.mem_cons.mp hx with rfl | hx1
      · exact absurd (hmax b (by simp)) (not_le.mpr (ha b (by simp)))
      · exact ih ht hx1 (fun y hy => hmax y (List.mem_cons_of_mem _ hy))

/-- On an ordered tree the first item visited by `DescendLessOrEqual` is the item with the
greatest key `≤ pivot`. -/
theorem first_DescendLessOrEqual {t : List α} (h : Ordered key t) {pivot : Key} {x : α}
    (hx : x ∈ t) (hle : key x ≤ pivot) (hmax : ∀ y ∈ t, key y ≤ pivot → key y ≤ key x) :
    (DescendLessOrEqual key t pivot).head? = some x := by
  unfold DescendLessOrEqual
  rw [List.head?_reverse]
  apply Ordered.getLast_of_max (h.filter _)
  · simp [List.mem_filter, hx, hle]
  · intro y hy
    have := List.mem_filter.mp hy
    exact hmax y this.1 (by simpa using this.2)

theorem first_DescendLessOrEqual_none {t : List α} {pivot : Key} :
    (DescendLessOrEqual key t pivot).head? = none ↔ ∀ y ∈ t, pivot < key y := by
  unfold DescendLessOrEqual
  rw [List.head?_reverse, List.getLast?_eq_none_iff, List.filter_eq_nil_iff]
  simp

theorem first_DescendLessOrEqual_some {t : List α} (h : Ordered key t) {pivot : Key} {x : α}
    (hx : (DescendLessOrEqual key t pivot).head? = some x) :
    x ∈ t ∧ key x ≤ pivot ∧ ∀ y ∈ t, key y ≤ pivot → key y ≤ key x := by
  unfold DescendLessOrEqual at hx
  rw [List.head?_reverse, List.getLast?_eq_some_iff] at hx
  obtain ⟨ys, hys⟩ := hx
  have hmem : x ∈ t.filter (fun i => decide (key i ≤ pivot)) := by rw [hys]; simp
  have hord : Ordered key (ys ++ [x]) := hys ▸ h.filter _
  obtain ⟨hxt, hxp⟩ := List.mem_filter.mp hmem
  refine ⟨hxt, by simpa using hxp, ?_⟩
  intro y hy hyp
  have hy1 : y ∈ ys ++ [x] := by
    rw [← hys]; exact List.mem_filter.mpr ⟨hy, by simpa using hyp⟩
  rcases List.mem_append.mp hy1 with hy2 | hy2
  · exact le_of_lt ((List.pairwise_append.mp hord).2.2 y hy2 x (by simp))
  · rw [List.mem_singleton.mp hy2]

theorem foldl_Delete_eq {t : List α} (h : Ordered key t) (ds : List α) :
    ds.foldl (fun t e => (Delete key t (key e)).2) t =
      t.filter (fun i => decide (∀ d ∈ ds, key i ≠ key d)) := by
  induction ds generalizing t with
  | nil => simp
  | cons d ds ih =>
    rw [List.foldl_cons, Delete_snd_eq h, ih (h.filter _), List.filter_filter]
    apply List.filter_congr
    intro x _
    simp only [List.mem_cons, forall_eq_or_imp, Bool.decide_and, Bool.and_comm]

theorem Ordered.nodup {t : List α} (h : Ordered key t) : t.Nodup :=
  List.Pairwise.imp (fun {a b} (hab : key a < key b) (e : a = b) =>
    absurd hab (e ▸ lt_irrefl (key a))) h

/-- Two ordered trees with the same items are the same list. -/
theorem Ordered.ext {t1 t2 : List α} (h1 : Ordered key t1) (h2 : Ordered key t2)
    (h : ∀ x, x ∈ t1 ↔ x ∈ t2) : t1 = t2 := by
  haveI : IsAntisymm α (fun a b => key a < key b) :=
    ⟨fun a b hab hba => absurd hab (lt_asymm hba)⟩
  exact List.eq_of_perm_of_sorted ((List.perm_ext_iff_of_nodup h1.nodup h2.nodup).mpr h) h1 h2

theorem Ordered.congr {key2 : α → Key} {t : List α} (h : Ordered key t)
    (hk : ∀ x ∈ t, key2 x = key x) : Ordered key2 t :=
  List.Pairwise.imp_of_mem (fun {a b} ha hb hab => by rw [hk a ha, hk b hb]; exact hab) h

end BTree

/-! ## Facts about RangeTsMap -/

theorem firstTs_of_inEffect {t : List rangeTsEntry} (h : BTree.Ordered rangeTsEntry.startKey t)
    {k : Key} {x : rangeTsEntry} (hx : InEffect t k x) (d : Nat) :
    firstTsLessOrEqual t k d = x.ts := by
  unfold firstTsLessOrEqual
  rw [BTree.first_DescendLessOrEqual h hx.1 hx.2.1 hx.2.2]

theorem firstTs_of_none {t : List rangeTsEntry} {k : Key}
    (hx : ∀ y ∈ t, k < y.startKey) (d : Nat) : firstTsLessOrEqual t k d = d := by
  unfold firstTsLessOrEqual
  rw [BTree.first_DescendLessOrEqual_none.mpr hx]

theorem firstTs_cases {t : List rangeTsEntry} (h : BTree.Ordered rangeTsEntry.startKey t)
    (k : Key) (d : Nat) :
    (∃ x, InEffect t k x ∧ firstTsLessOrEqual t k d = x.ts) ∨
      ((∀ y ∈ t, k < y.startKey) ∧ firstTsLessOrEqual t k d = d) := by
  cases hh : (BTree.DescendLessOrEqual rangeTsEntry.startKey t k).head? with
  | none =>
    right
    have := BTree.first_DescendLessOrEqual_none.mp hh
    exact ⟨this, firstTs_of_none this d⟩
  | some x =>
    left
    have hx : InEffect t k x := BTree.first_DescendLessOrEqual_some h hh
    exact ⟨x, hx, firstTs_of_inEffect h hx d⟩

theorem splitAt_ordered {t : List rangeTsEntry} (h : BTree.Ordered rangeTsEntry.startKey t)
    (e : Key) : BTree.Ordered rangeTsEntry.startKey (splitAt t e) := by
  unfold splitAt
  split
  · exact h
  · exact BTree.Ordered_ReplaceOrInsert h _

theorem splitAt_has {t : List rangeTsEntry} (e : Key) :
    ∃ x ∈ splitAt t e, x.startKey = e := by
  unfold splitAt
  split
  · rename_i x hx
    exact ⟨x, BTree.Get_some hx⟩
  · exact ⟨_, BTree.self_mem_ReplaceOrInsert _ _, rfl⟩

theorem splitAt_firstTs {t : List rangeTsEntry} (h : BTree.Ordered rangeTsEntry.startKey t)
    (e k : Key) :
    firstTsLessOrEqual (splitAt t e) k MaxUint64 = firstTsLessOrEqual t k MaxUint64 := by
  have hord := splitAt_ordered h e
  unfold splitAt at hord ⊢
  split at hord
  · rfl
  · rename_i hnone
    have hne : ∀ y ∈ t, y.startKey ≠ e := BTree.Get_none.mp hnone
    have hmem := fun x => BTree.mem_ReplaceOrInsert h
      (⟨e, firstTsLessOrEqual t e MaxUint64⟩ : rangeTsEntry) x
    simp only at hmem
    rcases firstTs_cases h k MaxUint64 with ⟨x, hx, hv⟩ | ⟨hall, hv⟩
    · rw [hv]
      by_cases hc : e ≤ k ∧ x.startKey < e
      · have he : firstTsLessOrEqual t e MaxUint64 = x.ts := by
          apply firstTs_of_inEffect h
          exact ⟨hx.1, le_of_lt hc.2, fun y hy hye => hx.2.2 y hy (le_trans hye hc.1)⟩
        rw [← he]
        apply firstTs_of_inEffect hord (x := ⟨e, firstTsLessOrEqual t e MaxUint64⟩)
        refine ⟨BTree.self_mem_ReplaceOrInsert _ _, hc.1, ?_⟩
        intro y hy hyk
        rcases (hmem y).mp hy with rfl | ⟨hy1, _⟩
        · exact le_refl _
        · exact le_trans (hx.2.2 y hy1 hyk) (le_of_lt hc.2)
      · apply firstTs_of_inEffect hord
        refine ⟨(hmem x).mpr (Or.inr ⟨hx.1, hne x hx.1⟩), hx.2.1, ?_⟩
        intro y hy hyk
        rcases (hmem y).mp hy with rfl | ⟨hy1, _⟩
        · simp only at hyk ⊢
          by_contra hlt
          exact hc ⟨hyk, lt_of_le_of_ne (le_of_not_le hlt) (hne x hx.1)⟩
        · exact hx.2.2 y hy1 hyk
    · rw [hv]
      by_cases hc : e ≤ k
      · have he : firstTsLessOrEqual t e MaxUint64 = MaxUint64 :=
          firstTs_of_none (fun y hy => lt_of_le_of_lt hc (hall y hy)) _
        rw [he] at hord hmem ⊢
        have := firstTs_of_inEffect hord (x := ⟨e, MaxUint64⟩) (k := k) ?_ MaxUint64
        · exact this
        · refine ⟨BTree.self_mem_ReplaceOrInsert _ _, hc, ?_⟩
          intro y hy hyk
          rcases (hmem y).mp hy with rfl | ⟨hy1, _⟩
          · exact le_refl _
          · exact absurd hyk (not_le.mpr (hall y hy1))
      · apply firstTs_of_none
        intro y hy
        rcases (hmem y).mp hy with rfl | ⟨hy1, _⟩
        · exact not_le.mp hc
        · exact hall y hy1

theorem Set_m_eq (m : RangeTsMap) (hm : m.Ordered) (s e : Key) (ts : Nat) :
    (m.Set s e ts).m =
      BTree.ReplaceOrInsert rangeTsEntry.startKey
        ((splitAt m.m e).filter (fun i => decide (¬ (s ≤ i.startKey ∧ i.startKey < e))))
        ⟨s, ts⟩ := by
  have hord := splitAt_ordered hm e
  have hfold := BTree.foldl_Delete_eq hord
    (BTree.AscendRange rangeTsEntry.startKey (splitAt m.m e) s e)
  show BTree.ReplaceOrInsert rangeTsEntry.startKey
      (List.foldl (fun t e => (BTree.Delete rangeTsEntry.startKey t e.startKey).2)
        (splitAt m.m e) (BTree.AscendRange rangeTsEntry.startKey (splitAt m.m e) s e)) ⟨s, ts⟩ = _
  rw [hfold]
  congr 1
  apply List.filter_congr
  intro x hx
  rw [decide_eq_decide]
  constructor
  · intro hall hr
    exact hall x (BTree.mem_AscendRange.mpr ⟨hx, hr⟩) rfl
  · intro hr d hd heq
    have := (BTree.mem_AscendRange.mp hd).2
    rw [← heq] at this
    exact hr this

theorem Set_ordered (m : RangeTsMap) (hm : m.Ordered) (s e : Key) (ts : Nat) :
    (m.Set s e ts).Ordered := by
  unfold RangeTsMap.Ordered
  rw [Set_m_eq m hm]
  exact BTree.Ordered_ReplaceOrInsert ((splitAt_ordered hm e).filter _) _

theorem mem_Set (m : RangeTsMap) (hm : m.Ordered) (s e : Key) (ts : Nat) (hse : s < e)
    (x : rangeTsEntry) :
    x ∈ (m.Set s e ts).m ↔
      x = ⟨s, ts⟩ ∨ (x ∈ splitAt m.m e ∧ (x.startKey < s ∨ e ≤ x.startKey)) := by
  rw [Set_m_eq m hm, BTree.mem_ReplaceOrInsert ((splitAt_ordered hm e).filter _)]
  simp only [List.mem_filter, decide_eq_true_eq, not_and, not_lt]
  constructor
  · rintro (h | ⟨⟨hx, hr⟩, hne⟩)
    · exact Or.inl h
    · refine Or.inr ⟨hx, ?_⟩
      by_cases h1 : s ≤ x.startKey
      · exact Or.inr (hr h1)
      · exact Or.inl (not_le.mp h1)
  · rintro (h | ⟨hx, hr⟩)
    · exact Or.inl h
    · refine Or.inr ⟨⟨hx, ?_⟩, ?_⟩
      · intro h1
        rcases hr with h2 | h2
        · exact absurd h1 (not_le.mpr h2)
        · exact h2
      · rcases hr with h2 | h2
        · exact ne_of_lt h2
        · exact (ne_of_lt (lt_of_lt_of_le hse h2)).symm

/-- Effect of `Set` on the value in effect, for a well-formed tree and a non-empty range. -/
theorem Set_valueAt (m : RangeTsMap) (hm : m.Ordered) (s e : Key) (ts : Nat) (hse : s < e)
    (k : Key) :
    (m.Set s e ts).valueAt k = if s ≤ k ∧ k < e then ts else m.valueAt k := by
  have hord1 := splitAt_ordered hm e
  have hord3 := Set_ordered m hm s e ts
  have hmem := mem_Set m hm s e ts hse
  have hv1 := splitAt_firstTs hm e k
  unfold RangeTsMap.valueAt
  rw [← hv1]
  by_cases hr : s ≤ k ∧ k < e
  · rw [if_pos hr]
    apply firstTs_of_inEffect hord3 (x := ⟨s, ts⟩)
    refine ⟨(hmem _).mpr (Or.inl rfl), hr.1, ?_⟩
    intro y hy hyk
    rcases (hmem y).mp hy with rfl | ⟨_, h2 | h2⟩
    · exact le_refl _
    · exact le_of_lt h2
    · exact absurd (lt_of_le_of_lt (le_trans h2 hyk) hr.2) (lt_irrefl _)
  · rw [if_neg hr]
    rcases firstTs_cases hord1 k MaxUint64 with ⟨x, hx, hv⟩ | ⟨hall, hv⟩
    · rw [hv]
      by_cases hks : k < s
      · apply firstTs_of_inEffect hord3
        refine ⟨(hmem x).mpr (Or.inr ⟨hx.1, Or.inl (lt_of_le_of_lt hx.2.1 hks)⟩), hx.2.1, ?_⟩
        intro y hy hyk
        rcases (hmem y).mp hy with rfl | ⟨hy1, _⟩
        · exact absurd hyk (not_le.mpr hks)
        · exact hx.2.2 y hy1 hyk
      · have hek : e ≤ k := by
          by_contra hc
          exact hr ⟨not_lt.mp hks, not_le.mp hc⟩
        obtain ⟨z, hz, hze⟩ := splitAt_has (t := m.m) e
        have hex : e ≤ x.startKey := hze ▸ hx.2.2 z hz (hze ▸ hek)
        apply firstTs_of_inEffect hord3
        refine ⟨(hmem x).mpr (Or.inr ⟨hx.1, Or.inr hex⟩), hx.2.1, ?_⟩
        intro y hy hyk
        rcases (hmem y).mp hy with rfl | ⟨hy1, _⟩
        · exact le_of_lt (lt_of_lt_of_le hse hex)
        · exact hx.2.2 y hy1 hyk
    · rw [hv]
      obtain ⟨z, hz, hze⟩ := splitAt_has (t := m.m) e
      have hke : k < e := hze ▸ hall z hz
      have hks : k < s := by
        by_contra hc
        exact hr ⟨not_lt.mp hc, hke⟩
      apply firstTs_of_none
      intro y hy
      rcases (hmem y).mp hy with rfl | ⟨hy1, _⟩
      · exact hks
      · exact hall y hy1

theorem foldl_min_spec (xs : List rangeTsEntry) (init : Nat) :
    let r := xs.foldl (fun ts i => if ts > i.ts then i.ts else ts) init
    r ≤ init ∧ (∀ i ∈ xs, r ≤ i.ts) ∧ (r = init ∨ ∃ i ∈ xs, r = i.ts) := by
  induction xs generalizing init with
  | nil => simp
  | cons x xs ih =>
    simp only [List.foldl_cons]
    by_cases h : init > x.ts
    · rw [if_pos h]
      obtain ⟨h1, h2, h3⟩ := ih x.ts
      refine ⟨le_trans h1 (le_of_lt h), ?_, ?_⟩
      · intro i hi
        rcases List.mem_cons.mp hi with rfl | hi1
        · exact h1
        · exact h2 i hi1
      · rcases h3 with h3 | ⟨i, hi, h3⟩
        · exact Or.inr ⟨x, by simp, h3⟩
        · exact Or.inr ⟨i, by simp [hi], h3⟩
    · rw [if_neg h]
      obtain ⟨h1, h2, h3⟩ := ih init
      refine ⟨h1, ?_, ?_⟩
      · intro i hi
        rcases List.mem_cons.mp hi with rfl | hi1
        · exact le_trans h1 (not_lt.mp h)
        · exact h2 i hi1
      · rcases h3 with h3 | ⟨i, hi, h3⟩
        · exact Or.inl h3
        · exact Or.inr ⟨i, by simp [hi], h3⟩

/-- On a well-formed tree `GetMin a b` with `a < b` is the least value in effect on `[a, b)`. -/
theorem GetMin_valueAt (m : RangeTsMap) (hm : m.Ordered) (a b : Key) (hab : a < b) :
    (∃ k, a ≤ k ∧ k < b ∧ m.GetMin a b = m.valueAt k) ∧
      ∀ k, a ≤ k → k < b → m.GetMin a b ≤ m.valueAt k := by
  obtain ⟨h1, h2, h3⟩ := foldl_min_spec
    (BTree.AscendRange rangeTsEntry.startKey m.m a b) (firstTsLessOrEqual m.m a MaxUint64)
  constructor
  · rcases h3 with h3 | ⟨i, hi, h3⟩
    · exact ⟨a, le_refl _, hab, h3⟩
    · obtain ⟨him, hia, hib⟩ := BTree.mem_AscendRange.mp hi
      refine ⟨i.startKey, hia, hib, ?_⟩
      have : m.valueAt i.startKey = i.ts :=
        firstTs_of_inEffect hm ⟨him, le_refl _, fun y _ hy => hy⟩ _
      rw [this]
      exact h3
  · intro k hak hkb
    rcases firstTs_cases hm k MaxUint64 with ⟨x, hx, hv⟩ | ⟨hall, hv⟩
    · unfold RangeTsMap.valueAt
      rw [hv]
      by_cases hxa : a ≤ x.startKey
      · exact h2 x (BTree.mem_AscendRange.mpr ⟨hx.1, hxa, lt_of_le_of_lt hx.2.1 hkb⟩)
      · have : firstTsLessOrEqual m.m a MaxUint64 = x.ts :=
          firstTs_of_inEffect hm
            ⟨hx.1, le_of_lt (not_le.mp hxa), fun y hy hya => hx.2.2 y hy (le_trans hya hak)⟩ _
        rw [← this]
        exact h1
    · unfold RangeTsMap.valueAt
      rw [hv]
      have : firstTsLessOrEqual m.m a MaxUint64 = MaxUint64 :=
        firstTs_of_none (fun y hy => lt_of_le_of_lt hak (hall y hy)) _
      rw [← this]
      exact h1

theorem applySets_ordered (m : RangeTsMap) (hm : m.Ordered) (calls : List SetCall) :
    (applySets m calls).Ordered := by
  induction calls generalizing m with
  | nil => exact hm
  | cons c cs ih => exact ih _ (Set_ordered m hm _ _ _)

theorem applySets_append (m : RangeTsMap) (cs : List SetCall) (c : SetCall) :
    applySets m (cs ++ [c]) = (applySets m cs).Set c.startKey c.endKey c.ts := by
  simp [applySets, List.foldl_append]

theorem lastCovering_append (t0 : Nat) (cs : List SetCall) (c : SetCall) (k : Key) :
    lastCovering t0 (cs ++ [c]) k =
      if c.startKey ≤ k ∧ k < c.endKey then c.ts else lastCovering t0 cs k := by
  unfold lastCovering
  rw [List.reverse_append, List.reverse_singleton, List.singleton_append, List.find?_cons]
  by_cases h : c.startKey ≤ k ∧ k < c.endKey
  · simp [h]
  · simp [h]

theorem NewRangeTsMap_ordered (gs ge : Key) (t0 : Nat) : (NewRangeTsMap gs ge t0).Ordered :=
  Set_ordered ⟨[]⟩ List.Pairwise.nil gs ge t0

theorem NewRangeTsMap_valueAt (gs ge : Key) (t0 : Nat) (hg : gs < ge) (k : Key)
    (h1 : gs ≤ k) (h2 : k < ge) : (NewRangeTsMap gs ge t0).valueAt k = t0 := by
  unfold NewRangeTsMap
  rw [Set_valueAt ⟨[]⟩ List.Pairwise.nil gs ge t0 hg, if_pos ⟨h1, h2⟩]

theorem applySets_valueAt (gs ge : Key) (t0 : Nat) (hg : gs < ge) (calls : List SetCall)
    (hc : ∀ c ∈ calls, c.startKey < c.endKey) (k : Key) (h1 : gs ≤ k) (h2 : k < ge) :
    (applySets (NewRangeTsMap gs ge t0) calls).valueAt k = lastCovering t0 calls k := by
  induction calls using List.reverseRecOn with
  | nil => simpa [applySets, lastCovering] using NewRangeTsMap_valueAt gs ge t0 hg k h1 h2
  | append_singleton cs c ih =>
    have hcs : ∀ c ∈ cs, c.startKey < c.endKey := fun d hd => hc d (by simp [hd])
    rw [applySets_append, lastCovering_append,
      Set_valueAt _ (applySets_ordered _ (NewRangeTsMap_ordered gs ge t0) cs) _ _ _
        (hc c (by simp)), ih hcs]

/-! ## Facts about the conflict scan -/

theorem getOverlappedEntries_eq (l : RegionRangeLock) (s e : Key) (r : Nat) :
    l.getOverlappedEntries s e r =
      if (scanPart l s e).any (fun p => decide ((l.heap p).regionID = r)) then scanPart l s e
      else match mapGet l.regionIDLock r with
        | some entry => scanPart l s e ++ [entry]
        | none => scanPart l s e := by
  show (if (!(scanPart l s e).any (fun p => decide ((l.heap p).regionID = r))) = true then
      (match mapGet l.regionIDLock r with
        | some entry => scanPart l s e ++ [entry]
        | none => scanPart l s e)
      else scanPart l s e) = _
  cases (scanPart l s e).any (fun p => decide ((l.heap p).regionID = r)) <;> rfl

/-- Two tree entries in key order are separated: the first ends before the second starts. -/
theorem Inv.sep {l : RegionRangeLock} (h : Inv l) {p q : Nat} (hp : p ∈ l.rangeLock)
    (hq : q ∈ l.rangeLock) (hpq : (l.heap p).startKey < (l.heap q).startKey) :
    (l.heap p).endKey ≤ (l.heap q).startKey := by
  have hsym : Symmetric (fun p q : Nat =>
      ((l.heap p).startKey < (l.heap q).startKey → (l.heap p).endKey ≤ (l.heap q).startKey) ∧
      ((l.heap q).startKey < (l.heap p).startKey → (l.heap q).endKey ≤ (l.heap p).startKey)) :=
    fun _ _ hab => ⟨hab.2, hab.1⟩
  have hpw := (h.ordered.and h.disjoint).imp
    (S := fun p q : Nat =>
      ((l.heap p).startKey < (l.heap q).startKey → (l.heap p).endKey ≤ (l.heap q).startKey) ∧
      ((l.heap q).startKey < (l.heap p).startKey → (l.heap q).endKey ≤ (l.heap p).startKey))
    (fun {a b} hab => ⟨fun _ => hab.2, fun hba => absurd hba (lt_asymm hab.1)⟩)
  exact (hpw.forall_of_forall hsym
    (fun x _ => ⟨fun hx => absurd hx (lt_irrefl _), fun hx => absurd hx (lt_irrefl _)⟩) hp hq).1 hpq

/-- In a state with ordered, non-empty, pairwise separated entries, the predecessor test and
the range scan together find exactly the entries whose interval meets `[s, e)`. -/
theorem scanPart_eq {l : RegionRangeLock} (h : Inv l) {s e : Key} (hse : s < e) :
    scanPart l s e = l.rangeLock.filter
      (fun p => decide ((l.heap p).startKey < e ∧ s < (l.heap p).endKey)) := by
  have hmemD : ∀ q, q ∈ descendPart l s ↔
      q ∈ l.rangeLock ∧ (l.heap q).startKey < s ∧ s < (l.heap q).endKey := by
    intro q
    unfold descendPart
    constructor
    · intro hq
      split at hq
      · rename_i x hx
        have hx1 := BTree.first_DescendLessOrEqual_some h.ordered hx
        split_ifs at hq with hc
        · rw [List.mem_singleton.mp hq]
          exact ⟨hx1.1, hc⟩
        · simp at hq
      · simp at hq
    · rintro ⟨hq, hq1, hq2⟩
      have : (BTree.DescendLessOrEqual (entryKey l.heap) l.rangeLock s).head? = some q := by
        apply BTree.first_DescendLessOrEqual h.ordered hq (le_of_lt hq1)
        intro y hy hys
        by_contra hc
        have := h.sep hq hy (not_le.mp hc)
        exact absurd (lt_of_lt_of_le hq2 (le_trans this hys)) (lt_irrefl _)
      rw [this]
      simp only
      rw [if_pos ⟨hq1, hq2⟩]
      simp
  apply @BTree.Ordered.ext Nat (entryKey l.heap)
  · unfold scanPart BTree.Ordered
    rw [List.pairwise_append]
    refine ⟨?_, h.ordered.filter _, ?_⟩
    · unfold descendPart
      split
      · split_ifs <;> simp
      · simp
    · intro a ha b hb
      exact lt_of_lt_of_le ((hmemD a).mp ha).2.1 (BTree.mem_AscendRange.mp hb).2.1
  · exact h.ordered.filter _
  · intro q
    unfold scanPart
    rw [List.mem_append, hmemD, BTree.mem_AscendRange, List.mem_filter, decide_eq_true_eq]
    unfold entryKey
    constructor
    · rintro (⟨hq, h1, h2⟩ | ⟨hq, h1, h2⟩)
      · exact ⟨hq, lt_trans h1 hse, h2⟩
      · exact ⟨hq, h2, lt_of_le_of_lt h1 (h.nonempty q hq)⟩
    · rintro ⟨hq, h1, h2⟩
      by_cases hc : s ≤ (l.heap q).startKey
      · exact Or.inr ⟨hq, hc, h1⟩
      · exact Or.inl ⟨hq, not_le.mp hc, h2⟩

/-! ## Facts about the region id map, allocation and the wait loop -/

theorem mapGet_mapDelete (m : List (Nat × Nat)) (k k1 : Nat) :
    mapGet (mapDelete m k) k1 = if k1 = k then none else mapGet m k1 := by
  unfold mapGet mapDelete
  induction m with
  | nil => simp
  | cons b m ih =>
    by_cases hb : b.1 = k
    · rw [List.filter_cons, if_neg (by simpa using hb), ih]
      by_cases hk : k1 = k
      · simp [hk]
      · have : ¬ b.1 = k1 := fun h => hk (h ▸ hb)
        simp [hk, List.find?_cons, this]
    · rw [List.filter_cons, if_pos (by simpa using hb)]
      by_cases hk : k1 = k
      · subst hk
        simp only [List.find?_cons, decide_eq_false hb]
        simp
      · by_cases hb1 : b.1 = k1
        · simp [List.find?_cons, hb1, hk]
        · simp only [List.find?_cons, decide_eq_false hb1]
          rw [ih]

theorem mapGet_mapSet (m : List (Nat × Nat)) (k v k1 : Nat) :
    mapGet (mapSet m k v) k1 = if k1 = k then some v else mapGet m k1 := by
  by_cases hk : k1 = k
  · subst hk
    simp [mapSet, mapGet, List.find?_cons]
  · have hk2 : ¬ k = k1 := fun h => hk h.symm
    have := mapGet_mapDelete m k k1
    rw [if_neg hk] at this
    rw [if_neg hk, ← this]
    simp [mapSet, mapGet, List.find?_cons, hk2]

theorem le_foldr_max (xs : List Nat) : ∀ x ∈ xs, x ≤ xs.foldr max 0 := by
  induction xs with
  | nil => simp
  | cons a xs ih =>
    intro x hx
    rcases List.mem_cons.mp hx with rfl | hx1
    · exact le_max_left _ _
    · exact le_trans (ih x hx1) (le_max_right _ _)

theorem allocEntry_not_mem (l : RegionRangeLock) : allocEntry l ∉ l.rangeLock := by
  intro h
  have := le_foldr_max (l.rangeLock ++ l.regionIDLock.map Prod.snd) _
    (List.mem_append_left _ h)
  unfold allocEntry at this
  omega

theorem allocEntry_not_indexed (l : RegionRangeLock) (r : Nat) :
    mapGet l.regionIDLock r ≠ some (allocEntry l) := by
  intro h
  unfold mapGet at h
  obtain ⟨b, hb, hb2⟩ := Option.map_eq_some'.mp h
  have hmem : b.2 ∈ l.regionIDLock.map Prod.snd :=
    List.mem_map.mpr ⟨b, List.mem_of_find?_eq_some hb, rfl⟩
  have := le_foldr_max (l.rangeLock ++ l.regionIDLock.map Prod.snd) _
    (List.mem_append_right _ hmem)
  rw [hb2] at this
  unfold allocEntry at this
  omega

theorem SameFields.refl (h : Nat → rangeLockEntry) : SameFields h h :=
  fun _ => ⟨rfl, rfl, rfl, rfl⟩

theorem SameFields.trans {h1 h2 h3 : Nat → rangeLockEntry} (a : SameFields h1 h2)
    (b : SameFields h2 h3) : SameFields h1 h3 := fun q =>
  ⟨(b q).1.trans (a q).1, (b q).2.1.trans (a q).2.1, (b q).2.2.1.trans (a q).2.2.1,
    (b q).2.2.2.trans (a q).2.2.2⟩

theorem waitStep_sameFields (acc : List Nat × (Nat → rangeLockEntry) × Nat) (r : Nat) :
    SameFields acc.2.1 (waitStep acc r).2.1 := by
  intro q
  unfold waitStep
  by_cases hq : q = r
  · subst hq
    simp [Function.update_same]
  · simp [Function.update_noteq hq]

theorem foldl_waitStep_sameFields (rs : List Nat)
    (acc : List Nat × (Nat → rangeLockEntry) × Nat) :
    SameFields acc.2.1 (rs.foldl waitStep acc).2.1 := by
  induction rs generalizing acc with
  | nil => exact SameFields.refl _
  | cons r rs ih => exact (waitStep_sameFields acc r).trans (ih _)

/-- The three outcomes of `tryLockRange`, by the conflict list. -/
theorem tryLockRange_cases (l : RegionRangeLock) (s e : Key) (r v : Nat) :
    (l.getOverlappedEntries s e r = [] ∧
      l.tryLockRange s e r v =
        (⟨LockRangeStatusSuccess, l.rangeCheckpointTs.GetMin s e, []⟩, [],
          { l with
            heap := Function.update l.heap (allocEntry l) ⟨s, e, r, v, []⟩
            rangeLock := BTree.ReplaceOrInsert
              (entryKey (Function.update l.heap (allocEntry l) ⟨s, e, r, v, []⟩))
              l.rangeLock (allocEntry l)
            regionIDLock := mapSet l.regionIDLock r (allocEntry l) })) ∨
    (l.getOverlappedEntries s e r ≠ [] ∧
      (∃ p ∈ l.getOverlappedEntries s e r, (l.heap p).version ≥ v) ∧
      l.tryLockRange s e r v =
        (⟨LockRangeStatusStale, 0,
            retryRanges s e ((l.getOverlappedEntries s e r).map l.heap)⟩, [], l)) ∨
    (l.getOverlappedEntries s e r ≠ [] ∧
      (∀ p ∈ l.getOverlappedEntries s e r, (l.heap p).version < v) ∧
      l.tryLockRange s e r v =
        (⟨LockRangeStatusWait, 0, []⟩,
          ((l.getOverlappedEntries s e r).foldl waitStep ([], l.heap, l.chanCount)).1,
          { l with
            heap := ((l.getOverlappedEntries s e r).foldl waitStep
              ([], l.heap, l.chanCount)).2.1
            chanCount := ((l.getOverlappedEntries s e r).foldl waitStep
              ([], l.heap, l.chanCount)).2.2 })) := by
  unfold RegionRangeLock.tryLockRange
  simp only []
  by_cases h0 : (l.getOverlappedEntries s e r).length = 0
  · left
    rw [if_pos h0]
    exact ⟨List.length_eq_zero.mp h0, rfl⟩
  · right
    rw [if_neg h0]
    have hne : l.getOverlappedEntries s e r ≠ [] := fun h => h0 (by rw [h]; rfl)
    by_cases hst : (l.getOverlappedEntries s e r).any
        (fun p => decide ((l.heap p).version ≥ v)) = true
    · left
      rw [if_pos hst]
      refine ⟨hne, ?_, rfl⟩
      simpa using hst
    · right
      rw [if_neg hst]
      refine ⟨hne, ?_, rfl⟩
      simpa using hst

/-- What a completed `UnlockRange` has found and done. -/
theorem UnlockRange_some {l l1 : RegionRangeLock} {s e : Key} {r v ts : Nat}
    {signalled : List Nat} (h : l.UnlockRange s e r v ts = some (l1, signalled)) :
    ∃ p, BTree.Get (entryKey l.heap) l.rangeLock s = some p ∧ (l.heap p).regionID = r ∧
      mapGet l.regionIDLock r = some p ∧ (l.heap p).version = v ∧ (l.heap p).endKey = e ∧
      signalled = (l.heap p).waiters ∧
      l1 = { l with
        regionIDLock := mapDelete l.regionIDLock r
        rangeLock := (BTree.Delete (entryKey l.heap) l.rangeLock (entryKey l.heap p)).2
        rangeCheckpointTs := l.rangeCheckpointTs.Set s e ts } := by
  unfold RegionRangeLock.UnlockRange at h
  split at h
  · exact absurd h (by simp)
  · rename_i p hp
    refine ⟨p, hp, ?_⟩
    by_cases h1 : (l.heap p).regionID ≠ r
    · rw [if_pos h1] at h; exact absurd h (by simp)
    · rw [if_neg h1] at h
      by_cases h2 : mapGet l.regionIDLock r ≠ some p
      · rw [if_pos h2] at h; exact absurd h (by simp)
      · rw [if_neg h2] at h
        simp only [] at h
        by_cases h3 : (l.heap p).version ≠ v ∨ (l.heap p).endKey ≠ e
        · rw [if_pos h3] at h; exact absurd h (by simp)
        · rw [if_neg h3] at h
          split at h
          · exact absurd h (by simp)
          · rename_i x t1 hd
            have h4 := Option.some.inj h
            have ht1 : (BTree.Delete (entryKey l.heap) l.rangeLock (entryKey l.heap p)).2 = t1 := by
              rw [hd]
            rw [ht1]
            refine ⟨not_not.mp h1, not_not.mp h2, ?_, ?_, ?_, ?_⟩
            · by_contra hc; exact h3 (Or.inl hc)
            · by_contra hc; exact h3 (Or.inr hc)
            · exact (congrArg Prod.snd h4).symm
            · exact (congrArg Prod.fst h4).symm

theorem Inv_of_sameFields {l : RegionRangeLock} (h : Inv l) {h1 : Nat → rangeLockEntry}
    (hs : SameFields l.heap h1) (c : Nat) : Inv { l with heap := h1, chanCount := c } where
  ordered := h.ordered.congr (fun x _ => (hs x).1)
  nonempty := fun p hp => by
    show (h1 p).startKey < (h1 p).endKey
    rw [(hs p).1, (hs p).2.1]; exact h.nonempty p hp
  disjoint := h.disjoint.imp (fun {a b} hab => by
    show (h1 a).endKey ≤ (h1 b).startKey
    rw [(hs a).2.1, (hs b).1]; exact hab)
  index := fun r p => by
    show mapGet l.regionIDLock r = some p ↔ p ∈ l.rangeLock ∧ (h1 p).regionID = r
    rw [(hs p).2.2.1]; exact h.index r p
  tsOrdered := h.tsOrdered

theorem Inv_NewRegionRangeLock (gs ge : Key) (t0 : Nat) : Inv (NewRegionRangeLock gs ge t0) where
  ordered := List.Pairwise.nil
  nonempty := fun p hp => by simp [NewRegionRangeLock] at hp
  disjoint := List.Pairwise.nil
  index := fun r p => by simp [NewRegionRangeLock, mapGet]
  tsOrdered := NewRangeTsMap_ordered gs ge t0

theorem Inv_UnlockRange {l l1 : RegionRangeLock} (h : Inv l) {s e : Key} {r v ts : Nat}
    {signalled : List Nat} (hu : l.UnlockRange s e r v ts = some (l1, signalled)) : Inv l1 := by
  obtain ⟨p, hget, hr, hidx, _, _, _, rfl⟩ := UnlockRange_some hu
  obtain ⟨hp, hkey⟩ := BTree.Get_some hget
  have hsub := @BTree.Delete_snd_sublist Nat (entryKey l.heap) l.rangeLock (entryKey l.heap p)
  have hmem : ∀ q, q ∈ (BTree.Delete (entryKey l.heap) l.rangeLock (entryKey l.heap p)).2 ↔
      q ∈ l.rangeLock ∧ q ≠ p := by
    intro q
    rw [BTree.Delete_snd_eq h.ordered, List.mem_filter, decide_eq_true_eq]
    constructor
    · rintro ⟨hq, hne⟩
      exact ⟨hq, fun hc => hne (by rw [hc])⟩
    · rintro ⟨hq, hne⟩
      exact ⟨hq, fun hc => hne (h.ordered.key_inj hq hp hc)⟩
  refine ⟨h.ordered.sublist hsub, fun q hq => h.nonempty q (hsub.subset hq),
    h.disjoint.sublist hsub, ?_, Set_ordered _ h.tsOrdered _ _ _⟩
  intro r1 q
  show mapGet (mapDelete l.regionIDLock r) r1 = some q ↔ _
  rw [mapGet_mapDelete, hmem]
  by_cases hr1 : r1 = r
  · subst hr1
    rw [if_pos rfl]
    constructor
    · intro hc; exact absurd hc (by simp)
    · rintro ⟨⟨hq, hne⟩, hqr⟩
      have := (h.index r1 q).mpr ⟨hq, hqr⟩
      rw [hidx] at this
      exact absurd (Option.some.inj this).symm hne
  · rw [if_neg hr1, h.index r1 q]
    constructor
    · rintro ⟨hq, hqr⟩
      exact ⟨⟨hq, fun hc => hr1 (by rw [← hqr, hc, hr])⟩, hqr⟩
    · rintro ⟨⟨hq, _⟩, hqr⟩
      exact ⟨hq, hqr⟩

/-- An empty conflict list means that nothing in the tree meets `[s, e)` and that the region
holds no entry. -/
theorem conflictFree_of_nil {l : RegionRangeLock} (h : Inv l) {s e : Key} (hse : s < e)
    {r : Nat} (hnil : l.getOverlappedEntries s e r = []) :
    (∀ q ∈ l.rangeLock, (l.heap q).endKey ≤ s ∨ e ≤ (l.heap q).startKey) ∧
      (∀ q ∈ l.rangeLock, (l.heap q).regionID ≠ r) := by
  rw [getOverlappedEntries_eq] at hnil
  have hscan : scanPart l s e = [] ∧ mapGet l.regionIDLock r = none := by
    split_ifs at hnil with hany
    · rw [hnil] at hany; simp at hany
    · split at hnil
      · simp at hnil
      · rename_i hnone; exact ⟨hnil, hnone⟩
  constructor
  · intro q hq
    have := hscan.1
    rw [scanPart_eq h hse, List.filter_eq_nil_iff] at this
    have hq1 := this q hq
    simp only [decide_eq_true_eq, not_and, not_lt] at hq1
    by_cases hc : (l.heap q).startKey < e
    · exact Or.inl (hq1 hc)
    · exact Or.inr (not_lt.mp hc)
  · intro q hq hqr
    have := (h.index r q).mpr ⟨hq, hqr⟩
    rw [hscan.2] at this
    exact absurd this (by simp)

theorem Inv_tryLockRange {l : RegionRangeLock} (h : Inv l) {s e : Key} (hse : s < e)
    (r v : Nat) : Inv (l.tryLockRange s e r v).2.2 := by
  rcases tryLockRange_cases l s e r v with ⟨hnil, heq⟩ | ⟨_, _, heq⟩ | ⟨_, _, heq⟩
  · rw [heq]
    obtain ⟨hfree, hreg⟩ := conflictFree_of_nil h hse hnil
    have hfresh := allocEntry_not_mem l
    have hold : ∀ q ∈ l.rangeLock,
        Function.update l.heap (allocEntry l) ⟨s, e, r, v, []⟩ q = l.heap q :=
      fun q hq => Function.update_noteq (fun hc => hfresh (by rw [← hc]; exact hq)) _ _
    have hnew : Function.update l.heap (allocEntry l) ⟨s, e, r, v, []⟩ (allocEntry l) =
        ⟨s, e, r, v, []⟩ := Function.update_same _ _ _
    have hord1 : BTree.Ordered
        (entryKey (Function.update l.heap (allocEntry l) ⟨s, e, r, v, []⟩)) l.rangeLock :=
      h.ordered.congr (fun x hx => by unfold entryKey; rw [hold x hx])
    have hmem : ∀ q, q ∈ BTree.ReplaceOrInsert
        (entryKey (Function.update l.heap (allocEntry l) ⟨s, e, r, v, []⟩))
        l.rangeLock (allocEntry l) ↔ q = allocEntry l ∨ q ∈ l.rangeLock := by
      intro q
      rw [BTree.mem_ReplaceOrInsert hord1]
      constructor
      · rintro (hq | ⟨hq, _⟩)
        · exact Or.inl hq
        · exact Or.inr hq
      · rintro (hq | hq)
        · exact Or.inl hq
        · refine Or.inr ⟨hq, ?_⟩
          unfold entryKey
          rw [hold q hq, hnew]
          intro hc
          have hc1 : (l.heap q).startKey = s := hc
          have hne := h.nonempty q hq
          rw [hc1] at hne
          rcases hfree q hq with h1 | h1
          · exact absurd (lt_of_le_of_lt h1 hne) (lt_irrefl _)
          · rw [hc1] at h1
            exact absurd (lt_of_lt_of_le hse h1) (lt_irrefl _)
    have hord2 := BTree.Ordered_ReplaceOrInsert hord1 (allocEntry l)
    refine ⟨hord2, ?_, ?_, ?_, h.tsOrdered⟩
    · intro q hq
      show (Function.update l.heap (allocEntry l) ⟨s, e, r, v, []⟩ q).startKey <
        (Function.update l.heap (allocEntry l) ⟨s, e, r, v, []⟩ q).endKey
      rcases (hmem q).mp hq with rfl | hq1
      · rw [hnew]; exact hse
      · rw [hold q hq1]; exact h.nonempty q hq1
    · refine List.Pairwise.imp_of_mem ?_ hord2
      intro a b ha hb hab
      show (Function.update l.heap (allocEntry l) ⟨s, e, r, v, []⟩ a).endKey ≤
        (Function.update l.heap (allocEntry l) ⟨s, e, r, v, []⟩ b).startKey
      unfold entryKey at hab
      rcases (hmem a).mp ha with rfl | ha1 <;> rcases (hmem b).mp hb with rfl | hb1
      · exact absurd hab (lt_irrefl _)
      · rw [hnew, hold b hb1] at hab ⊢
        rcases hfree b hb1 with h1 | h1
        · exact absurd (lt_trans (lt_of_lt_of_le (h.nonempty b hb1) h1) hab) (lt_irrefl _)
        · exact h1
      · rw [hnew, hold a ha1] at hab ⊢
        rcases hfree a ha1 with h1 | h1
        · exact h1
        · exact absurd (lt_trans (lt_of_lt_of_le hse h1) hab) (lt_irrefl _)
      · rw [hold a ha1, hold b hb1] at hab ⊢
        exact h.sep ha1 hb1 hab
    · intro r1 q
      show mapGet (mapSet l.regionIDLock r (allocEntry l)) r1 = some q ↔
        q ∈ BTree.ReplaceOrInsert
          (entryKey (Function.update l.heap (allocEntry l) ⟨s, e, r, v, []⟩))
          l.rangeLock (allocEntry l) ∧
        (Function.update l.heap (allocEntry l) ⟨s, e, r, v, []⟩ q).regionID = r1
      rw [mapGet_mapSet, hmem]
      by_cases hr1 : r1 = r
      · subst hr1
        rw [if_pos rfl]
        constructor
        · intro hq
          rw [← Option.some.inj hq, hnew]
          exact ⟨Or.inl rfl, rfl⟩
        · rintro ⟨hq | hq, hqr⟩
          · rw [hq]
          · rw [hold q hq] at hqr
            exact absurd hqr (hreg q hq)
      · rw [if_neg hr1, h.index r1 q]
        constructor
        · rintro ⟨hq, hqr⟩
          exact ⟨Or.inr hq, by rw [hold q hq]; exact hqr⟩
        · rintro ⟨hq | hq, hqr⟩
          · rw [hq, hnew] at hqr
            exact absurd hqr.symm hr1
          · rw [hold q hq] at hqr
            exact ⟨hq, hqr⟩
  · rw [heq]; exact h
  · rw [heq]
    exact Inv_of_sameFields h (foldl_waitStep_sameFields _ _) _

theorem Inv_of_reachable {l : RegionRangeLock} (h : Reachable l) : Inv l := by
  induction h with
  | init gs ge t0 => exact Inv_NewRegionRangeLock gs ge t0
  | acquire l s e r v _ hse ih => exact Inv_tryLockRange ih hse r v
  | release l l1 s e r v ts sig _ hu ih => exact Inv_UnlockRange ih hu

/-! ## Facts about the retry ranges -/

theorem gapsFrom_nil (e cur : Key) :
    gapsFrom e cur [] = if cur < e then [⟨cur, e⟩] else [] := rfl

theorem gapsFrom_cons (e cur : Key) (x : rangeLockEntry) (es : List rangeLockEntry) :
    gapsFrom e cur (x :: es) =
      (if cur < x.startKey then [⟨cur, x.startKey⟩] else []) ++ gapsFrom e x.endKey es := rfl

theorem foldl_retryStep_gaps (s e : Key) (es : List rangeLockEntry)
    (hns : ∀ x ∈ es, ¬ (x.endKey ≤ s ∨ e ≤ x.startKey)) (acc : List ComparableSpan)
    (cur : Key) :
    (if (es.foldl (retryStep s e) (acc, cur)).2 < e
      then (es.foldl (retryStep s e) (acc, cur)).1 ++
        [⟨(es.foldl (retryStep s e) (acc, cur)).2, e⟩]
      else (es.foldl (retryStep s e) (acc, cur)).1) = acc ++ gapsFrom e cur es := by
  induction es generalizing acc cur with
  | nil =>
    simp only [List.foldl_nil, gapsFrom_nil]
    split_ifs <;> simp
  | cons x es ih =>
    have hx : retryStep s e (acc, cur) x =
        (if cur < x.startKey then acc ++ [⟨cur, x.startKey⟩] else acc, x.endKey) := by
      unfold retryStep
      rw [if_neg (hns x (by simp))]
    rw [List.foldl_cons, hx, ih (fun y hy => hns y (by simp [hy]))]
    rw [gapsFrom_cons]
    split_ifs <;> simp

theorem foldl_retryStep_skip (s e : Key) (es : List rangeLockEntry) (x : rangeLockEntry)
    (hx : x.endKey ≤ s ∨ e ≤ x.startKey) (acc : List ComparableSpan × Key) :
    (es ++ [x]).foldl (retryStep s e) acc = es.foldl (retryStep s e) acc := by
  rw [List.foldl_append, List.foldl_cons, List.foldl_nil]
  unfold retryStep
  rw [if_pos hx]

theorem gapsFrom_start_ge (e : Key) (es : List rangeLockEntry)
    (hne : ∀ x ∈ es, x.startKey < x.endKey)
    (hsep : es.Pairwise (fun a b => a.endKey ≤ b.startKey)) (cur : Key)
    (hcur : ∀ x ∈ es, cur ≤ x.endKey) :
    ∀ sp ∈ gapsFrom e cur es, cur ≤ sp.Start := by
  induction es generalizing cur with
  | nil =>
    intro sp hsp
    rw [gapsFrom_nil] at hsp
    split_ifs at hsp
    · rw [List.mem_singleton.mp hsp]
    · simp at hsp
  | cons x es ih =>
    obtain ⟨hx, hes⟩ := List.pairwise_cons.mp hsep
    intro sp hsp
    rw [gapsFrom_cons] at hsp
    rcases List.mem_append.mp hsp with h1 | h1
    · split_ifs at h1
      · rw [List.mem_singleton.mp h1]
      · simp at h1
    · have := ih (fun y hy => hne y (by simp [hy])) hes x.endKey
        (fun y hy => le_trans (hx y hy) (le_of_lt (hne y (by simp [hy])))) sp h1
      exact le_trans (hcur x (by simp)) this

theorem gapsFrom_nonempty (e : Key) (es : List rangeLockEntry) (cur : Key) :
    ∀ sp ∈ gapsFrom e cur es, sp.Start < sp.End := by
  induction es generalizing cur with
  | nil =>
    intro sp hsp
    rw [gapsFrom_nil] at hsp
    split_ifs at hsp with h
    · rw [List.mem_singleton.mp hsp]; exact h
    · simp at hsp
  | cons x es ih =>
    intro sp hsp
    rw [gapsFrom_cons] at hsp
    rcases List.mem_append.mp hsp with h1 | h1
    · split_ifs at h1 with h
      · rw [List.mem_singleton.mp h1]; exact h
      · simp at h1
    · exact ih _ sp h1

theorem gapsFrom_sorted (e : Key) (es : List rangeLockEntry)
    (hne : ∀ x ∈ es, x.startKey < x.endKey)
    (hsep : es.Pairwise (fun a b => a.endKey ≤ b.startKey)) (cur : Key) :
    (gapsFrom e cur es).Pairwise (fun a b => a.End ≤ b.Start) := by
  induction es generalizing cur with
  | nil =>
    rw [gapsFrom_nil]
    split_ifs <;> simp
  | cons x es ih =>
    obtain ⟨hx, hes⟩ := List.pairwise_cons.mp hsep
    rw [gapsFrom_cons]
    rw [List.pairwise_append]
    refine ⟨by split_ifs <;> simp, ih (fun y hy => hne y (by simp [hy])) hes _, ?_⟩
    intro a ha b hb
    have hb1 := gapsFrom_start_ge e es (fun y hy => hne y (by simp [hy])) hes x.endKey
      (fun y hy => le_trans (hx y hy) (le_of_lt (hne y (by simp [hy])))) b hb
    split_ifs at ha
    · rw [List.mem_singleton.mp ha]
      exact le_trans (le_of_lt (hne x (by simp))) hb1
    · simp at ha

theorem gapsFrom_mem (e : Key) (es : List rangeLockEntry)
    (hne : ∀ x ∈ es, x.startKey < x.endKey)
    (hsep : es.Pairwise (fun a b => a.endKey ≤ b.startKey))
    (hlt : ∀ x ∈ es, x.startKey < e) (cur : Key) (hcur : ∀ x ∈ es, cur ≤ x.endKey) (k : Key) :
    (∃ sp ∈ gapsFrom e cur es, sp.Start ≤ k ∧ k < sp.End) ↔
      cur ≤ k ∧ k < e ∧ ∀ x ∈ es, ¬ x.covers k := by
  induction es generalizing cur with
  | nil =>
    rw [gapsFrom_nil]
    constructor
    · rintro ⟨sp, hsp, h1, h2⟩
      split_ifs at hsp
      · rw [List.mem_singleton.mp hsp] at h1 h2
        exact ⟨h1, h2, by simp⟩
      · simp at hsp
    · rintro ⟨h1, h2, _⟩
      rw [if_pos (lt_of_le_of_lt h1 h2)]
      exact ⟨⟨cur, e⟩, by simp, h1, h2⟩
  | cons x es ih =>
    obtain ⟨hx, hes⟩ := List.pairwise_cons.mp hsep
    have hxne := hne x (by simp)
    have ih1 := ih (fun y hy => hne y (by simp [hy])) hes (fun y hy => hlt y (by simp [hy]))
      x.endKey (fun y hy => le_trans (hx y hy) (le_of_lt (hne y (by simp [hy]))))
    rw [gapsFrom_cons]
    constructor
    · rintro ⟨sp, hsp, h1, h2⟩
      rcases List.mem_append.mp hsp with h3 | h3
      · split_ifs at h3
        · rw [List.mem_singleton.mp h3] at h1 h2
          simp only at h1 h2
          refine ⟨h1, lt_trans h2 (hlt x (by simp)), ?_⟩
          intro y hy hc
          rcases List.mem_cons.mp hy with rfl | hy1
          · exact absurd (lt_of_le_of_lt hc.1 h2) (lt_irrefl _)
          · exact absurd (lt_of_le_of_lt (le_trans (le_trans (le_of_lt hxne) (hx y hy1)) hc.1) h2)
              (lt_irrefl _)
        · simp at h3
      · obtain ⟨h4, h5, h6⟩ := ih1.mp ⟨sp, h3, h1, h2⟩
        refine ⟨le_trans (hcur x (by simp)) h4, h5, ?_⟩
        intro y hy hc
        rcases List.mem_cons.mp hy with rfl | hy1
        · exact absurd (lt_of_le_of_lt h4 hc.2) (lt_irrefl _)
        · exact h6 y hy1 hc
    · rintro ⟨h1, h2, h3⟩
      by_cases hk : k < x.startKey
      · refine ⟨⟨cur, x.startKey⟩, ?_, h1, hk⟩
        rw [if_pos (lt_of_le_of_lt h1 hk)]
        simp
      · have hk2 : x.endKey ≤ k := by
          by_contra hc
          exact h3 x (by simp) ⟨not_lt.mp hk, not_le.mp hc⟩
        obtain ⟨sp, hsp, h4⟩ := ih1.mpr ⟨hk2, h2, fun y hy => h3 y (by simp [hy])⟩
        exact ⟨sp, List.mem_append_right _ hsp, h4⟩

/-- Shape of the conflict list in a state that satisfies the invariant: the entries meeting
`[s, e)` in key order, possibly followed by one entry that does not meet `[s, e)`. -/
theorem getOverlappedEntries_shape {l : RegionRangeLock} (h : Inv l) {s e : Key} (hse : s < e)
    (r : Nat) :
    l.getOverlappedEntries s e r = l.rangeLock.filter
        (fun p => decide ((l.heap p).startKey < e ∧ s < (l.heap p).endKey)) ∨
    ∃ x, l.getOverlappedEntries s e r = l.rangeLock.filter
        (fun p => decide ((l.heap p).startKey < e ∧ s < (l.heap p).endKey)) ++ [x] ∧
      x ∈ l.rangeLock ∧ (l.heap x).regionID = r ∧
      ((l.heap x).endKey ≤ s ∨ e ≤ (l.heap x).startKey) := by
  rw [getOverlappedEntries_eq]
  split_ifs with hany
  · exact Or.inl (scanPart_eq h hse)
  · split
    · rename_i x hx
      right
      obtain ⟨hxt, hxr⟩ := (h.index r x).mp hx
      refine ⟨x, by rw [scanPart_eq h hse], hxt, hxr, ?_⟩
      have hxs : x ∉ scanPart l s e := by
        intro hc
        apply hany
        rw [List.any_eq_true]
        exact ⟨x, hc, by simpa using hxr⟩
      rw [scanPart_eq h hse, List.mem_filter] at hxs
      simp only [decide_eq_true_eq, not_and, not_lt] at hxs
      by_cases hc : (l.heap x).startKey < e
      · exact Or.inl (hxs hxt hc)
      · exact Or.inr (not_lt.mp hc)
    · exact Or.inl (scanPart_eq h hse)

theorem retryRanges_eq_gaps {l : RegionRangeLock} (h : Inv l) {s e : Key} (hse : s < e)
    (r : Nat) :
    retryRanges s e ((l.getOverlappedEntries s e r).map l.heap) =
      gapsFrom e s ((l.rangeLock.filter
        (fun p => decide ((l.heap p).startKey < e ∧ s < (l.heap p).endKey))).map l.heap) := by
  have hns : ∀ x ∈ (l.rangeLock.filter
      (fun p => decide ((l.heap p).startKey < e ∧ s < (l.heap p).endKey))).map l.heap,
      ¬ (x.endKey ≤ s ∨ e ≤ x.startKey) := by
    intro x hx
    obtain ⟨p, hp, rfl⟩ := List.mem_map.mp hx
    have := (List.mem_filter.mp hp).2
    simp only [decide_eq_true_eq] at this
    rintro (hc | hc)
    · exact absurd (lt_of_lt_of_le this.2 hc) (lt_irrefl _)
    · exact absurd (lt_of_lt_of_le this.1 hc) (lt_irrefl _)
  have hg := foldl_retryStep_gaps s e _ hns [] s
  rw [List.nil_append] at hg
  unfold retryRanges
  simp only []
  rcases getOverlappedEntries_shape h hse r with heq | ⟨x, heq, _, _, hx⟩
  · rw [heq]; exact hg
  · rw [heq, List.map_append, List.map_singleton, foldl_retryStep_skip s e _ _ hx]
    exact hg

theorem countP_le_one_of_unique {α : Type} (P : α → Bool) (xs : List α) (hn : xs.Nodup)
    (hu : ∀ a ∈ xs, ∀ b ∈ xs, P a = true → P b = true → a = b) : xs.countP P ≤ 1 := by
  induction xs with
  | nil => simp
  | cons x xs ih =>
    obtain ⟨hx, hxs⟩ := List.nodup_cons.mp hn
    have ih1 := ih hxs (fun a ha b hb => hu a (by simp [ha]) b (by simp [hb]))
    by_cases hp : P x = true
    · have : xs.countP P = 0 := by
        rw [List.countP_eq_zero]
        intro a ha hpa
        exact hx ((hu x (by simp) a (by simp [ha]) hp hpa) ▸ ha)
      rw [List.countP_cons_of_pos _ _ hp, this]
    · rw [List.countP_cons_of_neg _ _ hp]
      exact ih1

theorem exLock0_reachable : Reachable exLock0 := Reachable.init _ _ _

theorem exLock1_reachable : Reachable exLock1 :=
  Reachable.acquire _ _ _ _ _ exLock0_reachable (by decide)

theorem exLock2_reachable : Reachable exLock2 :=
  Reachable.acquire _ _ _ _ _ exLock1_reachable (by decide)

theorem exLockPoint_reachableAny : ReachableAny exLockPoint :=
  ReachableAny.acquire _ _ _ _ _
    (ReachableAny.acquire _ _ _ _ _ (ReachableAny.init [0] [9] 7))

/-- The call `tryLockRange(0x07, 0x07, 3, 1)` in `exLock1` returns Success, and the tree
of `exLockPoint` holds entry 1 and the empty entry 2. -/
theorem exLockPoint_granted :
    (exLock1.tryLockRange [7] [7] 3 1).1.Status = LockRangeStatusSuccess ∧
    exLockPoint.rangeLock = [1, 2] ∧
    (exLockPoint.heap 1).startKey = [1] ∧ (exLockPoint.heap 1).endKey = [5] ∧
    (exLockPoint.heap 1).regionID = 1 ∧ (exLockPoint.heap 1).version = 5 ∧
    (exLockPoint.heap 2).startKey = [7] ∧ (exLockPoint.heap 2).endKey = [7] ∧
    (exLockPoint.heap 2).regionID = 3 ∧ (exLockPoint.heap 2).version = 1 := by
  decide

/-- No entry of `exLockPoint` has a key in common with `[0x06, 0x08)`. -/
theorem exLockPoint_free (p : Nat) (hp : p ∈ exLockPoint.rangeLock) :
    ¬ ∃ k : Key, (exLockPoint.heap p).covers k ∧ [6] ≤ k ∧ k < [8] := by
  obtain ⟨_, htree, _, h1e, _, _, h2s, h2e, _, _⟩ := exLockPoint_granted
  rw [htree] at hp
  rintro ⟨k, hc, h6, _⟩
  rcases List.mem_cons.mp hp with rfl | hp2
  · have h65 : ([6] : Key) < [5] := lt_of_le_of_lt h6 (h1e ▸ hc.2)
    exact absurd h65 (by decide)
  · have hp3 : p = 2 := by simpa using hp2
    subst hp3
    have h77 : ([7] : Key) < [7] := lt_of_le_of_lt (h2s ▸ hc.1) (h2e ▸ hc.2)
    exact absurd h77 (by decide)

/-! ## The claims -/

/-- Claim C1. No-overlap invariant: in every state reached from `NewRegionRangeLock` by
`tryLockRange` calls on non-empty ranges and by `UnlockRange` calls that complete (a release
of a held claim is one of these), no two entries of `rangeLock` have half-open intervals
`[startKey, endKey)` that share a key. -/
theorem no_overlap_of_reachable (l : RegionRangeLock) (h : Reachable l) :
    l.rangeLock.Pairwise (fun p q => ¬ Intersects (l.heap p) (l.heap q)) := by
  refine (Inv_of_reachable h).disjoint.imp ?_
  rintro a b hab ⟨k, ha, hb⟩
  exact absurd (lt_of_le_of_lt (le_trans hab hb.1) ha.2) (lt_irrefl _)

theorem no_overlap_of_reachable_witness :
    Reachable exLock2 ∧ exLock2.rangeLock = [1, 2] ∧
      exLock2.rangeLock.Pairwise (fun p q => ¬ Intersects (exLock2.heap p) (exLock2.heap q)) :=
  ⟨exLock2_reachable, by decide, no_overlap_of_reachable exLock2 exLock2_reachable⟩

/-- Claim C2. The outcome of `tryLockRange` is decided by the list `C` returned by
`getOverlappedEntries`: Success iff `C` is empty, Stale iff `C` is non-empty and some entry
of `C` has version `≥` the requested one, Wait iff `C` is non-empty and every entry of `C`
has a smaller version; a conflicting entry of equal version gives Stale. -/
theorem tryLockRange_outcome (l : RegionRangeLock) (s e : Key) (r v : Nat) :
    ((l.tryLockRange s e r v).1.Status = LockRangeStatusSuccess ↔
        l.getOverlappedEntries s e r = []) ∧
    ((l.tryLockRange s e r v).1.Status = LockRangeStatusStale ↔
        l.getOverlappedEntries s e r ≠ [] ∧
          ∃ p ∈ l.getOverlappedEntries s e r, (l.heap p).version ≥ v) ∧
    ((l.tryLockRange s e r v).1.Status = LockRangeStatusWait ↔
        l.getOverlappedEntries s e r ≠ [] ∧
          ∀ p ∈ l.getOverlappedEntries s e r, (l.heap p).version < v) ∧
    (∀ p ∈ l.getOverlappedEntries s e r, (l.heap p).version = v →
        (l.tryLockRange s e r v).1.Status = LockRangeStatusStale) := by
  rcases tryLockRange_cases l s e r v with ⟨hnil, heq⟩ | ⟨hne, hst, heq⟩ | ⟨hne, hw, heq⟩
  · rw [heq, hnil]
    simp [LockRangeStatusSuccess, LockRangeStatusStale, LockRangeStatusWait]
  · rw [heq]
    refine ⟨?_, ?_, ?_, ?_⟩
    · simp [LockRangeStatusSuccess, LockRangeStatusStale, hne]
    · simp only [true_iff]; exact ⟨hne, hst⟩
    · obtain ⟨p, hp, hpv⟩ := hst
      simp only [LockRangeStatusStale, LockRangeStatusWait]
      constructor
      · intro hc; exact absurd hc (by decide)
      · rintro ⟨_, hall⟩
        exact absurd (hall p hp) (not_lt.mpr hpv)
    · intro _ _ _; rfl
  · rw [heq]
    refine ⟨?_, ?_, ?_, ?_⟩
    · simp [LockRangeStatusSuccess, LockRangeStatusWait, hne]
    · simp only [LockRangeStatusStale, LockRangeStatusWait]
      constructor
      · intro hc; exact absurd hc (by decide)
      · rintro ⟨_, p, hp, hpv⟩
        exact absurd (hw p hp) (not_lt.mpr hpv)
    · simp only [true_iff]; exact ⟨hne, hw⟩
    · intro p hp hpv
      exact absurd (hw p hp) (by rw [hpv]; exact lt_irrefl _)

/-- Claim C3. Stale decomposition: in a reachable state, when `tryLockRange` on a non-empty
range `[s, e)` returns Stale, every retry span is non-empty, the spans are in ascending
order and pairwise separated (each ends no later than the next starts), and a key lies in
some retry span iff it lies in `[s, e)` and in the interval of no entry of `rangeLock`. -/
theorem stale_retry_ranges (l : RegionRangeLock) (h : Reachable l) (s e : Key) (r v : Nat)
    (hse : s < e) (hst : (l.tryLockRange s e r v).1.Status = LockRangeStatusStale) :
    (∀ sp ∈ (l.tryLockRange s e r v).1.RetryRanges, sp.Start < sp.End) ∧
    (l.tryLockRange s e r v).1.RetryRanges.Pairwise (fun a b => a.Start < b.Start) ∧
    (l.tryLockRange s e r v).1.RetryRanges.Pairwise (fun a b => a.End ≤ b.Start) ∧
    ∀ k, (∃ sp ∈ (l.tryLockRange s e r v).1.RetryRanges, sp.Start ≤ k ∧ k < sp.End) ↔
      (s ≤ k ∧ k < e ∧ ∀ p ∈ l.rangeLock, ¬ (l.heap p).covers k) := by
  have hinv := Inv_of_reachable h
  have hR : (l.tryLockRange s e r v).1.RetryRanges =
      gapsFrom e s ((l.rangeLock.filter
        (fun p => decide ((l.heap p).startKey < e ∧ s < (l.heap p).endKey))).map l.heap) := by
    rcases tryLockRange_cases l s e r v with ⟨_, heq⟩ | ⟨_, _, heq⟩ | ⟨_, _, heq⟩
    · rw [heq] at hst
      simp [LockRangeStatusSuccess, LockRangeStatusStale] at hst
    · rw [heq]; exact retryRanges_eq_gaps hinv hse r
    · rw [heq] at hst
      simp [LockRangeStatusWait, LockRangeStatusStale] at hst
  have hmemI : ∀ x ∈ (l.rangeLock.filter
      (fun p => decide ((l.heap p).startKey < e ∧ s < (l.heap p).endKey))).map l.heap,
      ∃ p ∈ l.rangeLock, l.heap p = x ∧ (l.heap p).startKey < e ∧ s < (l.heap p).endKey := by
    intro x hx
    obtain ⟨p, hp, hpx⟩ := List.mem_map.mp hx
    obtain ⟨hpt, hpI⟩ := List.mem_filter.mp hp
    exact ⟨p, hpt, hpx, by simpa using hpI⟩
  have hne : ∀ x ∈ (l.rangeLock.filter
      (fun p => decide ((l.heap p).startKey < e ∧ s < (l.heap p).endKey))).map l.heap,
      x.startKey < x.endKey := by
    intro x hx
    obtain ⟨p, hp, rfl, _⟩ := hmemI x hx
    exact hinv.nonempty p hp
  have hsep : ((l.rangeLock.filter
      (fun p => decide ((l.heap p).startKey < e ∧ s < (l.heap p).endKey))).map l.heap).Pairwise
      (fun a b => a.endKey ≤ b.startKey) := by
    rw [List.pairwise_map]
    exact hinv.disjoint.filter _
  have hnonempty := gapsFrom_nonempty e ((l.rangeLock.filter
      (fun p => decide ((l.heap p).startKey < e ∧ s < (l.heap p).endKey))).map l.heap) s
  have hsorted := gapsFrom_sorted e _ hne hsep s
  rw [hR]
  refine ⟨hnonempty, ?_, hsorted, ?_⟩
  · refine List.Pairwise.imp_of_mem ?_ hsorted
    intro a b ha _ hab
    exact lt_of_lt_of_le (hnonempty a ha) hab
  · intro k
    rw [gapsFrom_mem e _ hne hsep
      (fun x hx => by obtain ⟨p, _, rfl, h1, _⟩ := hmemI x hx; exact h1) s
      (fun x hx => by obtain ⟨p, _, rfl, _, h2⟩ := hmemI x hx; exact le_of_lt h2) k]
    constructor
    · rintro ⟨h1, h2, h3⟩
      refine ⟨h1, h2, ?_⟩
      intro p hp hc
      apply h3 (l.heap p) _ hc
      refine List.mem_map.mpr ⟨p, List.mem_filter.mpr ⟨hp, ?_⟩, rfl⟩
      simpa using ⟨lt_of_le_of_lt hc.1 h2, lt_of_le_of_lt h1 hc.2⟩
    · rintro ⟨h1, h2, h3⟩
      refine ⟨h1, h2, ?_⟩
      intro x hx
      obtain ⟨p, hp, rfl, _⟩ := hmemI x hx
      exact h3 p hp

theorem stale_retry_ranges_witness :
    (exLock1.tryLockRange [2] [7] 2 3).1.RetryRanges = [⟨[5], [7]⟩] ∧
    ((∀ sp ∈ (exLock1.tryLockRange [2] [7] 2 3).1.RetryRanges, sp.Start < sp.End) ∧
    (exLock1.tryLockRange [2] [7] 2 3).1.RetryRanges.Pairwise (fun a b => a.Start < b.Start) ∧
    (exLock1.tryLockRange [2] [7] 2 3).1.RetryRanges.Pairwise (fun a b => a.End ≤ b.Start) ∧
    ∀ k, (∃ sp ∈ (exLock1.tryLockRange [2] [7] 2 3).1.RetryRanges, sp.Start ≤ k ∧ k < sp.End) ↔
      (([2] : Key) ≤ k ∧ k < [7] ∧ ∀ p ∈ exLock1.rangeLock, ¬ (exLock1.heap p).covers k)) :=
  ⟨by decide,
    stale_retry_ranges exLock1 exLock1_reachable [2] [7] 2 3 (by decide) (by decide)⟩

/-- Claim C4. Success postcondition: when `tryLockRange` returns Success (for any request,
non-empty range or not), the returned `CheckpointTs` is `GetMin(start, end)` of the
checkpoint map of the lock, and afterwards `rangeLock` holds an entry with exactly the
requested start key, end key, region id and version and no waiters, and
`regionIDLock[regionID]` is that entry. -/
theorem tryLockRange_success_post (l : RegionRangeLock) (s e : Key) (r v : Nat)
    (hst : (l.tryLockRange s e r v).1.Status = LockRangeStatusSuccess) :
    (l.tryLockRange s e r v).1.CheckpointTs = l.rangeCheckpointTs.GetMin s e ∧
    ∃ p ∈ (l.tryLockRange s e r v).2.2.rangeLock,
      (l.tryLockRange s e r v).2.2.heap p = ⟨s, e, r, v, []⟩ ∧
      mapGet (l.tryLockRange s e r v).2.2.regionIDLock r = some p := by
  rcases tryLockRange_cases l s e r v with ⟨_, heq⟩ | ⟨_, _, heq⟩ | ⟨_, _, heq⟩
  · rw [heq]
    refine ⟨rfl, allocEntry l, BTree.self_mem_ReplaceOrInsert _ _, Function.update_same _ _ _, ?_⟩
    show mapGet (mapSet l.regionIDLock r (allocEntry l)) r = some (allocEntry l)
    rw [mapGet_mapSet, if_pos rfl]
  · rw [heq] at hst
    simp [LockRangeStatusSuccess, LockRangeStatusStale] at hst
  · rw [heq] at hst
    simp [LockRangeStatusSuccess, LockRangeStatusWait] at hst

theorem tryLockRange_success_post_witness :
    (exLock1.tryLockRange [5] [8] 2 6).1.CheckpointTs = 7 ∧
    ((exLock1.tryLockRange [5] [8] 2 6).1.CheckpointTs =
        exLock1.rangeCheckpointTs.GetMin [5] [8] ∧
      ∃ p ∈ (exLock1.tryLockRange [5] [8] 2 6).2.2.rangeLock,
        (exLock1.tryLockRange [5] [8] 2 6).2.2.heap p = ⟨[5], [8], 2, 6, []⟩ ∧
        mapGet (exLock1.tryLockRange [5] [8] 2 6).2.2.regionIDLock 2 = some p) :=
  ⟨by decide, tryLockRange_success_post exLock1 [5] [8] 2 6 (by decide)⟩

/-- Claim C5. Min-query correctness: on the map made by `NewRangeTsMap(gs, ge, t0)` with
`gs < ge` followed by `Set` calls on non-empty ranges, `GetMin(a, b)` with
`gs ≤ a < b ≤ ge` is the minimum over the keys `k` of `[a, b)` of the ts of the last call
whose range holds `k` (or `t0` when none does): it is attained at some key of `[a, b)` and
is a lower bound at every key of `[a, b)`. The bounds `gs ≤ s_i` and `e_i ≤ ge` on the
calls are not needed. -/
theorem GetMin_min_of_latest (gs ge : Key) (t0 : Nat) (calls : List SetCall) (a b : Key)
    (hg : gs < ge) (hc : ∀ c ∈ calls, c.startKey < c.endKey)
    (ha : gs ≤ a) (hab : a < b) (hb : b ≤ ge) :
    (∃ k, a ≤ k ∧ k < b ∧
      (applySets (NewRangeTsMap gs ge t0) calls).GetMin a b = lastCovering t0 calls k) ∧
    ∀ k, a ≤ k → k < b →
      (applySets (NewRangeTsMap gs ge t0) calls).GetMin a b ≤ lastCovering t0 calls k := by
  have hord := applySets_ordered _ (NewRangeTsMap_ordered gs ge t0) calls
  have hval : ∀ k, a ≤ k → k < b →
      (applySets (NewRangeTsMap gs ge t0) calls).valueAt k = lastCovering t0 calls k :=
    fun k h1 h2 => applySets_valueAt gs ge t0 hg calls hc k (le_trans ha h1)
      (lt_of_lt_of_le h2 hb)
  obtain ⟨⟨k, h1, h2, h3⟩, h4⟩ := GetMin_valueAt _ hord a b hab
  refine ⟨⟨k, h1, h2, by rw [h3, hval k h1 h2]⟩, ?_⟩
  intro k1 hk1 hk2
  rw [← hval k1 hk1 hk2]
  exact h4 k1 hk1 hk2

theorem GetMin_min_of_latest_witness :
    (applySets (NewRangeTsMap [0] [9] 7) [⟨[2], [4], 5⟩, ⟨[3], [6], 8⟩]).GetMin [1] [4] = 5 ∧
    ((∃ k : Key, [1] ≤ k ∧ k < [4] ∧
      (applySets (NewRangeTsMap [0] [9] 7) [⟨[2], [4], 5⟩, ⟨[3], [6], 8⟩]).GetMin [1] [4] =
        lastCovering 7 [⟨[2], [4], 5⟩, ⟨[3], [6], 8⟩] k) ∧
    ∀ k : Key, [1] ≤ k → k < [4] →
      (applySets (NewRangeTsMap [0] [9] 7) [⟨[2], [4], 5⟩, ⟨[3], [6], 8⟩]).GetMin [1] [4] ≤
        lastCovering 7 [⟨[2], [4], 5⟩, ⟨[3], [6], 8⟩] k) :=
  ⟨by decide,
    GetMin_min_of_latest [0] [9] 7 [⟨[2], [4], 5⟩, ⟨[3], [6], 8⟩] [1] [4] (by decide)
      (by decide) (by decide) (by decide) (by decide)⟩

/-- Claim C6. `Set` overwrites exactly the half-open range: for every map whose tree is
ordered and every `start < end`, after `Set(start, end, ts)` the value in effect (the ts of
the entry with the largest start key `≤ k`, or `2^64-1` if there is none) is `ts` at every
key of `[start, end)` and is what it was before the call at every other key. -/
theorem Set_overwrites_range (m : RangeTsMap) (hm : m.Ordered) (s e : Key) (ts : Nat)
    (hse : s < e) :
    (∀ k, s ≤ k → k < e → (m.Set s e ts).valueAt k = ts) ∧
    (∀ k, ¬ (s ≤ k ∧ k < e) → (m.Set s e ts).valueAt k = m.valueAt k) := by
  constructor
  · intro k h1 h2
    rw [Set_valueAt m hm s e ts hse, if_pos ⟨h1, h2⟩]
  · intro k hk
    rw [Set_valueAt m hm s e ts hse, if_neg hk]

theorem Set_overwrites_range_witness :
    ((NewRangeTsMap [0] [9] 7).Set [2] [4] 5).valueAt [3] = 5 ∧
    ((∀ k : Key, [2] ≤ k → k < [4] → ((NewRangeTsMap [0] [9] 7).Set [2] [4] 5).valueAt k = 5) ∧
    (∀ k : Key, ¬ ([2] ≤ k ∧ k < [4]) →
      ((NewRangeTsMap [0] [9] 7).Set [2] [4] 5).valueAt k = (NewRangeTsMap [0] [9] 7).valueAt k)) :=
  ⟨by decide,
    Set_overwrites_range (NewRangeTsMap [0] [9] 7) (NewRangeTsMap_ordered _ _ _) [2] [4] 5
      (by decide)⟩

/-- Claim C7, as stated, fails: after region 1 has acquired the empty range `[0x05, 0x05)`
on a fresh lock over `[0x00, 0x09)` with ts 7, `UnlockRange(0x05, 0x05, 1, 1, 3)` completes
and the value in effect at key `0x06`, which is outside `[0x05, 0x05)`, changes from 7
to 3. -/
theorem UnlockRange_empty_range_changes_outside :
    ∃ l1 signalled, exLockEmpty.UnlockRange [5] [5] 1 1 3 = some (l1, signalled) ∧
      ¬ (([5] : Key) ≤ [6] ∧ ([6] : Key) < [5]) ∧
      exLockEmpty.rangeCheckpointTs.valueAt [6] = 7 ∧
      l1.rangeCheckpointTs.valueAt [6] = 3 := by
  have h : (exLockEmpty.UnlockRange [5] [5] 1 1 3).isSome = true := by decide
  obtain ⟨x, hx⟩ := Option.isSome_iff_exists.mp h
  refine ⟨x.1, x.2, hx, by decide, by decide, ?_⟩
  have h2 : (exLockEmpty.UnlockRange [5] [5] 1 1 3).map
      (fun y => y.1.rangeCheckpointTs.valueAt [6]) = some 3 := by decide
  rw [hx] at h2
  exact Option.some.inj h2

/-- Claim C7, amended. For every `UnlockRange(start, end, regionID, version, checkpointTs)`
with `start < end` that completes, on a lock whose checkpoint map has an ordered tree, the
value in effect afterwards is `checkpointTs` at every key of `[start, end)` (whatever the
value before) and is unchanged at every key outside `[start, end)`. -/
theorem UnlockRange_commits_checkpoint (l l1 : RegionRangeLock) (s e : Key) (r v ts : Nat)
    (signalled : List Nat) (hm : l.rangeCheckpointTs.Ordered) (hse : s < e)
    (hu : l.UnlockRange s e r v ts = some (l1, signalled)) :
    (∀ k, s ≤ k → k < e → l1.rangeCheckpointTs.valueAt k = ts) ∧
    (∀ k, ¬ (s ≤ k ∧ k < e) →
      l1.rangeCheckpointTs.valueAt k = l.rangeCheckpointTs.valueAt k) := by
  obtain ⟨p, _, _, _, _, _, _, rfl⟩ := UnlockRange_some hu
  constructor
  · intro k h1 h2
    show (l.rangeCheckpointTs.Set s e ts).valueAt k = ts
    rw [Set_valueAt _ hm s e ts hse, if_pos ⟨h1, h2⟩]
  · intro k hk
    show (l.rangeCheckpointTs.Set s e ts).valueAt k = _
    rw [Set_valueAt _ hm s e ts hse, if_neg hk]

theorem exLock2_release_eq :
    exLock2.UnlockRange [1] [5] 1 5 100 = some (exLock2Released, []) := rfl

theorem UnlockRange_commits_checkpoint_witness :
    exLock2Released.rangeCheckpointTs.valueAt [3] = 100 ∧
    ((∀ k : Key, [1] ≤ k → k < [5] → exLock2Released.rangeCheckpointTs.valueAt k = 100) ∧
    (∀ k : Key, ¬ ([1] ≤ k ∧ k < [5]) →
      exLock2Released.rangeCheckpointTs.valueAt k = exLock2.rangeCheckpointTs.valueAt k)) :=
  ⟨by decide,
    UnlockRange_commits_checkpoint exLock2 exLock2Released [1] [5] 1 5 100 []
      (Inv_of_reachable exLock2_reachable).tsOrdered (by decide) exLock2_release_eq⟩

/-- Claim C8. `UnlockRange(start, end, regionID, version, ts)` panics if and only if
`rangeLock` has no entry whose start key is `start`, or that entry has another region id, or
`regionIDLock[regionID]` is not that same entry, or that entry has another version, or that
entry has another end key; in every other case it completes (the branch
`panic("unreachable")` is never taken). -/
theorem UnlockRange_panics_iff (l : RegionRangeLock) (s e : Key) (r v ts : Nat) :
    l.UnlockRange s e r v ts = none ↔
      (BTree.Get (entryKey l.heap) l.rangeLock s = none ∨
        ∃ p, BTree.Get (entryKey l.heap) l.rangeLock s = some p ∧
          ((l.heap p).regionID ≠ r ∨ mapGet l.regionIDLock r ≠ some p ∨
            (l.heap p).version ≠ v ∨ (l.heap p).endKey ≠ e)) := by
  unfold RegionRangeLock.UnlockRange
  cases hget : BTree.Get (entryKey l.heap) l.rangeLock s with
  | none => simp
  | some p =>
    have hdel : (BTree.Delete (entryKey l.heap) l.rangeLock (entryKey l.heap p)).1 = some p := by
      rw [BTree.Delete_fst, (BTree.Get_some hget).2, hget]
    simp only [false_or, Option.some.injEq, exists_eq_left']
    by_cases h1 : (l.heap p).regionID ≠ r
    · rw [if_pos h1]; simp [h1]
    · rw [if_neg h1]
      by_cases h2 : mapGet l.regionIDLock r ≠ some p
      · rw [if_pos h2]; simp [h2]
      · rw [if_neg h2]
        by_cases h3 : (l.heap p).version ≠ v ∨ (l.heap p).endKey ≠ e
        · rw [if_pos h3]
          simp only [true_iff]
          exact Or.inr (Or.inr (Or.inr h3))
        · rw [if_neg h3]
          split
          · rename_i hd
            rw [hd] at hdel
            exact absurd hdel (by simp)
          · simp only [false_iff, reduceCtorEq]
            rintro (hc | hc | hc | hc)
            · exact hc
            · exact h1 hc
            · exact h2 hc
            · exact h3 hc

/-- Claim C9. After an `UnlockRange(start, end, regionID, ...)` that completes, on a lock
whose tree is ordered: `rangeLock` has no entry with start key `start`, `regionIDLock` has
no key `regionID`, every entry with another start key is in `rangeLock` after the call iff
it was before (in the same order), no entry is modified, and every other key of
`regionIDLock` is bound as before. -/
theorem UnlockRange_removes_claim (l l1 : RegionRangeLock) (s e : Key) (r v ts : Nat)
    (signalled : List Nat) (ho : BTree.Ordered (entryKey l.heap) l.rangeLock)
    (hu : l.UnlockRange s e r v ts = some (l1, signalled)) :
    (∀ q ∈ l1.rangeLock, (l1.heap q).startKey ≠ s) ∧
    mapGet l1.regionIDLock r = none ∧
    (∀ q, (l.heap q).startKey ≠ s → (q ∈ l1.rangeLock ↔ q ∈ l.rangeLock)) ∧
    l1.rangeLock.Sublist l.rangeLock ∧
    l1.heap = l.heap ∧
    (∀ r1, r1 ≠ r → mapGet l1.regionIDLock r1 = mapGet l.regionIDLock r1) := by
  obtain ⟨p, hget, _, _, _, _, _, rfl⟩ := UnlockRange_some hu
  obtain ⟨_, hkey⟩ := BTree.Get_some hget
  have hmem : ∀ q, q ∈ (BTree.Delete (entryKey l.heap) l.rangeLock (entryKey l.heap p)).2 ↔
      q ∈ l.rangeLock ∧ (l.heap q).startKey ≠ s := by
    intro q
    rw [BTree.Delete_snd_eq ho, List.mem_filter, decide_eq_true_eq, hkey]
    rfl
  refine ⟨fun q hq => ((hmem q).mp hq).2, ?_, ?_, BTree.Delete_snd_sublist _ _, rfl, ?_⟩
  · show mapGet (mapDelete l.regionIDLock r) r = none
    rw [mapGet_mapDelete, if_pos rfl]
  · intro q hq
    exact ⟨fun h => ((hmem q).mp h).1, fun h => (hmem q).mpr ⟨h, hq⟩⟩
  · intro r1 hr1
    show mapGet (mapDelete l.regionIDLock r) r1 = _
    rw [mapGet_mapDelete, if_neg hr1]

theorem UnlockRange_removes_claim_witness :
    exLock2.rangeLock = [1, 2] ∧ exLock2Released.rangeLock = [2] ∧
    ((∀ q ∈ exLock2Released.rangeLock, (exLock2Released.heap q).startKey ≠ [1]) ∧
    mapGet exLock2Released.regionIDLock 1 = none ∧
    (∀ q, (exLock2.heap q).startKey ≠ [1] →
      (q ∈ exLock2Released.rangeLock ↔ q ∈ exLock2.rangeLock)) ∧
    exLock2Released.rangeLock.Sublist exLock2.rangeLock ∧
    exLock2Released.heap = exLock2.heap ∧
    (∀ r1, r1 ≠ 1 → mapGet exLock2Released.regionIDLock r1 = mapGet exLock2.regionIDLock r1)) :=
  ⟨by decide, by decide,
    UnlockRange_removes_claim exLock2 exLock2Released [1] [5] 1 5 100 []
      (Inv_of_reachable exLock2_reachable).ordered exLock2_release_eq⟩

/-- Claim C10. Single owner per shard: in every state reached from `NewRegionRangeLock` by
`tryLockRange` calls on non-empty ranges and by `UnlockRange` calls that complete, for every
region id at most one entry of `rangeLock` carries that region id. -/
theorem single_owner_per_region (l : RegionRangeLock) (h : Reachable l) (r : Nat) :
    l.rangeLock.countP (fun p => decide ((l.heap p).regionID = r)) ≤ 1 := by
  have hinv := Inv_of_reachable h
  apply countP_le_one_of_unique _ _ hinv.ordered.nodup
  intro a ha b hb har hbr
  have h1 := (hinv.index r a).mpr ⟨ha, by simpa using har⟩
  have h2 := (hinv.index r b).mpr ⟨hb, by simpa using hbr⟩
  rw [h1] at h2
  exact Option.some.inj h2

theorem single_owner_per_region_witness :
    exLock2.rangeLock.countP (fun p => decide ((exLock2.heap p).regionID = 2)) = 1 ∧
    exLock2.rangeLock.countP (fun p => decide ((exLock2.heap p).regionID = 2)) ≤ 1 :=
  ⟨by decide, single_owner_per_region exLock2 exLock2_reachable 2⟩

/-! ## Coverage of the timestamp map -/

theorem mem_splitAt {t : List rangeTsEntry} (h : BTree.Ordered rangeTsEntry.startKey t)
    (e : Key) (x : rangeTsEntry) :
    (x ∈ splitAt t e → x ∈ t ∨ x.startKey = e) ∧ (x ∈ t → x ∈ splitAt t e) := by
  unfold splitAt
  split
  · exact ⟨Or.inl, id⟩
  · rename_i hnone
    rw [BTree.mem_ReplaceOrInsert h]
    constructor
    · rintro (hx | ⟨hx, _⟩)
      · exact Or.inr (by rw [hx])
      · exact Or.inl hx
    · intro hx
      exact Or.inr ⟨hx, BTree.Get_none.mp hnone x hx⟩

theorem Covers_Set {gs ge : Key} {m : RangeTsMap} (hm : m.Ordered)
    (hb : ∀ x ∈ m.m, gs ≤ x.startKey ∧ x.startKey ≤ ge)
    {s e : Key} (ts : Nat) (hgs : gs ≤ s) (hse : s < e) (heg : e ≤ ge)
    (h0 : s = gs ∨ ∃ x ∈ m.m, x.startKey = gs) : Covers gs ge (m.Set s e ts) := by
  have hmem := mem_Set m hm s e ts hse
  refine ⟨Set_ordered m hm s e ts, ?_, ?_⟩
  · by_cases hs : s = gs
    · exact ⟨⟨s, ts⟩, (hmem _).mpr (Or.inl rfl), hs⟩
    · rcases h0 with h0 | ⟨x, hx, hxg⟩
      · exact absurd h0 hs
      · refine ⟨x, (hmem x).mpr (Or.inr ⟨(mem_splitAt hm e x).2 hx, Or.inl ?_⟩), hxg⟩
        rw [hxg]
        exact lt_of_le_of_ne hgs (fun hc => hs hc.symm)
  · intro x hx
    rcases (hmem x).mp hx with rfl | ⟨hx1, _⟩
    · exact ⟨hgs, le_trans (le_of_lt hse) heg⟩
    · rcases (mem_splitAt hm e x).1 hx1 with hx2 | hx2
      · exact hb x hx2
      · rw [hx2]
        exact ⟨le_trans hgs (le_of_lt hse), heg⟩

theorem Covers_NewRangeTsMap (gs ge : Key) (t0 : Nat) (hg : gs < ge) :
    Covers gs ge (NewRangeTsMap gs ge t0) :=
  Covers_Set (m := ⟨[]⟩) List.Pairwise.nil (fun x hx => by simp at hx) t0 (le_refl _) hg
    (le_refl _) (Or.inl rfl)

theorem Covers_applySets (gs ge : Key) (m : RangeTsMap) (hm : Covers gs ge m)
    (calls : List SetCall)
    (hc : ∀ c ∈ calls, gs ≤ c.startKey ∧ c.startKey < c.endKey ∧ c.endKey ≤ ge) :
    Covers gs ge (applySets m calls) := by
  induction calls generalizing m with
  | nil => exact hm
  | cons c cs ih =>
    obtain ⟨h1, h2, h3⟩ := hc c (by simp)
    exact ih _ (Covers_Set hm.1 hm.2.2 c.ts h1 h2 h3 (Or.inr hm.2.1))
      (fun d hd => hc d (by simp [hd]))

theorem Covers.inEffect_unique {gs ge : Key} {m : RangeTsMap} (hm : Covers gs ge m) (k : Key)
    (hk : gs ≤ k) : ∃! x, InEffect m.m k x := by
  obtain ⟨x0, hx0, hx0g⟩ := hm.2.1
  cases hh : (BTree.DescendLessOrEqual rangeTsEntry.startKey m.m k).head? with
  | none =>
    have := BTree.first_DescendLessOrEqual_none.mp hh x0 hx0
    rw [hx0g] at this
    exact absurd (lt_of_le_of_lt hk this) (lt_irrefl _)
  | some x =>
    have hx : InEffect m.m k x := BTree.first_DescendLessOrEqual_some hm.1 hh
    refine ⟨x, hx, ?_⟩
    intro y hy
    exact BTree.Ordered.key_inj hm.1 hy.1 hx.1
      (le_antisymm (hx.2.2 y hy.1 hy.2.1) (hy.2.2 x hx.1 hx.2.1))

/-- Claim C11. Index consistency: in every state reached from `NewRegionRangeLock` by
`tryLockRange` calls on non-empty ranges and by `UnlockRange` calls that complete,
`regionIDLock` maps a region id `r` to an entry `p` if and only if `p` is an entry of
`rangeLock` whose region id is `r`. -/
theorem index_consistent (l : RegionRangeLock) (h : Reachable l) (r p : Nat) :
    mapGet l.regionIDLock r = some p ↔ p ∈ l.rangeLock ∧ (l.heap p).regionID = r :=
  (Inv_of_reachable h).index r p

theorem index_consistent_witness :
    mapGet exLock2.regionIDLock 2 = some 2 ∧ 2 ∈ exLock2.rangeLock ∧
    (mapGet exLock2.regionIDLock 2 = some 2 ↔
      2 ∈ exLock2.rangeLock ∧ (exLock2.heap 2).regionID = 2) :=
  ⟨by decide, by decide, index_consistent exLock2 exLock2_reachable 2 2⟩

/-- Claim C12. Coverage invariant of the timestamp map: after `NewRangeTsMap(gs, ge, t0)`
with `gs < ge` and any sequence of `Set(s, e, ts)` calls with `gs ≤ s < e ≤ ge`, the start
keys of the entries are strictly ascending (hence pairwise distinct), some entry starts at
`gs` and every start key lies between `gs` and `ge`, and every key `k` of `[gs, ge)` has
exactly one entry in effect (the entry with the largest start key `≤ k`). -/
theorem tsMap_coverage (gs ge : Key) (t0 : Nat) (calls : List SetCall) (hg : gs < ge)
    (hc : ∀ c ∈ calls, gs ≤ c.startKey ∧ c.startKey < c.endKey ∧ c.endKey ≤ ge) :
    (applySets (NewRangeTsMap gs ge t0) calls).m.Pairwise
      (fun a b => a.startKey < b.startKey) ∧
    ((applySets (NewRangeTsMap gs ge t0) calls).m.map rangeTsEntry.startKey).Nodup ∧
    (∃ x ∈ (applySets (NewRangeTsMap gs ge t0) calls).m, x.startKey = gs) ∧
    (∀ x ∈ (applySets (NewRangeTsMap gs ge t0) calls).m, gs ≤ x.startKey ∧ x.startKey ≤ ge) ∧
    ∀ k, gs ≤ k → k < ge →
      ∃! x, InEffect (applySets (NewRangeTsMap gs ge t0) calls).m k x := by
  have hcov := Covers_applySets gs ge _ (Covers_NewRangeTsMap gs ge t0 hg) calls hc
  refine ⟨hcov.1, ?_, hcov.2.1, hcov.2.2, fun k hk _ => hcov.inEffect_unique k hk⟩
  rw [List.Nodup, List.pairwise_map]
  exact List.Pairwise.imp (fun hab => ne_of_lt hab) hcov.1

theorem tsMap_coverage_witness :
    (applySets (NewRangeTsMap [0] [9] 7) [⟨[2], [4], 5⟩, ⟨[3], [6], 8⟩]).m =
      [⟨[0], 7⟩, ⟨[2], 5⟩, ⟨[3], 8⟩, ⟨[6], 7⟩, ⟨[9], MaxUint64⟩] ∧
    ((applySets (NewRangeTsMap [0] [9] 7) [⟨[2], [4], 5⟩, ⟨[3], [6], 8⟩]).m.Pairwise
      (fun a b => a.startKey < b.startKey) ∧
    ((applySets (NewRangeTsMap [0] [9] 7) [⟨[2], [4], 5⟩, ⟨[3], [6], 8⟩]).m.map
      rangeTsEntry.startKey).Nodup ∧
    (∃ x ∈ (applySets (NewRangeTsMap [0] [9] 7) [⟨[2], [4], 5⟩, ⟨[3], [6], 8⟩]).m,
      x.startKey = [0]) ∧
    (∀ x ∈ (applySets (NewRangeTsMap [0] [9] 7) [⟨[2], [4], 5⟩, ⟨[3], [6], 8⟩]).m,
      [0] ≤ x.startKey ∧ x.startKey ≤ [9]) ∧
    ∀ k : Key, [0] ≤ k → k < [9] →
      ∃! x, InEffect (applySets (NewRangeTsMap [0] [9] 7) [⟨[2], [4], 5⟩, ⟨[3], [6], 8⟩]).m
        k x) :=
  ⟨by decide,
    tsMap_coverage [0] [9] 7 [⟨[2], [4], 5⟩, ⟨[3], [6], 8⟩] (by decide) (by decide)⟩

/-! ## Calls outside the preconditions of the timestamp map -/

theorem valueAt_empty (k : Key) : (⟨[]⟩ : RangeTsMap).valueAt k = MaxUint64 :=
  firstTs_of_none (fun y hy => by simp at hy) _

theorem NewRangeTsMap_valueAt_all (gs ge : Key) (t0 : Nat) (hg : gs < ge) (k : Key) :
    (NewRangeTsMap gs ge t0).valueAt k = if gs ≤ k ∧ k < ge then t0 else MaxUint64 := by
  unfold NewRangeTsMap
  rw [Set_valueAt ⟨[]⟩ List.Pairwise.nil gs ge t0 hg, valueAt_empty]

/-- Claim C14, as stated, fails: on the map `NewRangeTsMap(0x00, 0x09, 7)` the call
`GetMin(0x05, 0x03)`, whose end key is below its start key, returns the timestamp 7. -/
theorem GetMin_inverted_range_returns :
    ([3] : Key) ≤ [5] ∧ (NewRangeTsMap [0] [9] 7).GetMin [5] [3] = 7 := by
  decide

/-- Claim C14, amended. `GetMin` checks nothing: for every map state and all keys with
`end ≤ start`, `GetMin(start, end)` returns the value in effect at `start` (the ts of the
entry with the largest start key `≤ start`, or `2^64-1` if there is none). -/
theorem GetMin_of_end_le_start (m : RangeTsMap) (s e : Key) (h : e ≤ s) :
    m.GetMin s e = m.valueAt s := by
  have hnil : BTree.AscendRange rangeTsEntry.startKey m.m s e = [] := by
    unfold BTree.AscendRange
    rw [List.filter_eq_nil_iff]
    intro x _ hx
    simp only [decide_eq_true_eq] at hx
    exact absurd (lt_of_le_of_lt (le_trans h hx.1) hx.2) (lt_irrefl _)
  unfold RangeTsMap.GetMin RangeTsMap.valueAt
  simp only [hnil, List.foldl_nil]

theorem GetMin_of_end_le_start_witness :
    (NewRangeTsMap [0] [9] 7).valueAt [5] = 7 ∧
    (NewRangeTsMap [0] [9] 7).GetMin [5] [5] = (NewRangeTsMap [0] [9] 7).valueAt [5] :=
  ⟨by decide, GetMin_of_end_le_start (NewRangeTsMap [0] [9] 7) [5] [5] (by decide)⟩

/-- Claim C18, as stated, fails: on the map `NewRangeTsMap(0x02, 0x05, 7)` the calls
`Set(0x00, 0x09, 3)` and `GetMin(0x00, 0x09)`, whose keys lie outside `[0x02, 0x05]`, both
complete: the first leaves the entries `(0x00, 3)` and `(0x09, 2^64-1)`, the second
returns 7. -/
theorem out_of_range_keys_accepted :
    ¬ (([2] : Key) ≤ [0]) ∧ ¬ (([9] : Key) ≤ [5]) ∧
    ((NewRangeTsMap [2] [5] 7).Set [0] [9] 3).m = [⟨[0], 3⟩, ⟨[9], MaxUint64⟩] ∧
    (NewRangeTsMap [2] [5] 7).GetMin [0] [9] = 7 := by
  decide

/-- Claim C18, amended. The timestamp map does not reject out-of-range keys: for a map
created by `NewRangeTsMap(gs, ge, t0)` with `gs < ge` and every `s < e`, inside `[gs, ge]`
or not, `Set(s, e, ts)` completes and leaves `ts` in effect on `[s, e)`, `t0` on the rest of
`[gs, ge)` and `2^64-1` elsewhere, and `GetMin(s, e)` completes and returns the least value
in effect on `[s, e)`, where the value in effect is `t0` on `[gs, ge)` and `2^64-1`
elsewhere. -/
theorem out_of_range_keys_effect (gs ge : Key) (t0 : Nat) (hg : gs < ge) (s e : Key)
    (ts : Nat) (hse : s < e) :
    (∀ k, ((NewRangeTsMap gs ge t0).Set s e ts).valueAt k =
      if s ≤ k ∧ k < e then ts else if gs ≤ k ∧ k < ge then t0 else MaxUint64) ∧
    (∃ k, s ≤ k ∧ k < e ∧ (NewRangeTsMap gs ge t0).GetMin s e =
      if gs ≤ k ∧ k < ge then t0 else MaxUint64) ∧
    (∀ k, s ≤ k → k < e → (NewRangeTsMap gs ge t0).GetMin s e ≤
      if gs ≤ k ∧ k < ge then t0 else MaxUint64) := by
  have hord := NewRangeTsMap_ordered gs ge t0
  obtain ⟨⟨k, h1, h2, h3⟩, h4⟩ := GetMin_valueAt _ hord s e hse
  refine ⟨?_, ⟨k, h1, h2, ?_⟩, ?_⟩
  · intro k1
    rw [Set_valueAt _ hord s e ts hse, NewRangeTsMap_valueAt_all gs ge t0 hg]
  · rw [h3, NewRangeTsMap_valueAt_all gs ge t0 hg]
  · intro k1 hk1 hk2
    rw [← NewRangeTsMap_valueAt_all gs ge t0 hg]
    exact h4 k1 hk1 hk2

theorem out_of_range_keys_effect_witness :
    ((NewRangeTsMap [2] [5] 7).Set [0] [9] 3).valueAt [8] = 3 ∧
    ((∀ k : Key, ((NewRangeTsMap [2] [5] 7).Set [0] [9] 3).valueAt k =
      if [0] ≤ k ∧ k < [9] then 3 else if [2] ≤ k ∧ k < [5] then 7 else MaxUint64) ∧
    (∃ k : Key, [0] ≤ k ∧ k < [9] ∧ (NewRangeTsMap [2] [5] 7).GetMin [0] [9] =
      if [2] ≤ k ∧ k < [5] then 7 else MaxUint64) ∧
    (∀ k : Key, [0] ≤ k → k < [9] → (NewRangeTsMap [2] [5] 7).GetMin [0] [9] ≤
      if [2] ≤ k ∧ k < [5] then 7 else MaxUint64)) :=
  ⟨by decide, out_of_range_keys_effect [2] [5] 7 (by decide) [0] [9] 3 (by decide)⟩

/-! ## Stale requests -/

theorem mem_getOverlappedEntries_of_meets {l : RegionRangeLock} (h : Inv l) {s e : Key}
    (hse : s < e) (r : Nat) {p : Nat} (hp : p ∈ l.rangeLock)
    (h1 : (l.heap p).startKey < e) (h2 : s < (l.heap p).endKey) :
    p ∈ l.getOverlappedEntries s e r := by
  have hf : p ∈ l.rangeLock.filter
      (fun p => decide ((l.heap p).startKey < e ∧ s < (l.heap p).endKey)) :=
    List.mem_filter.mpr ⟨hp, by simpa using ⟨h1, h2⟩⟩
  rcases getOverlappedEntries_shape h hse r with heq | ⟨x, heq, _⟩
  · rw [heq]; exact hf
  · rw [heq]; exact List.mem_append_left _ hf

theorem mem_getOverlappedEntries_cases {l : RegionRangeLock} (h : Inv l) {s e : Key}
    (hse : s < e) (r : Nat) {p : Nat} (hp : p ∈ l.getOverlappedEntries s e r) :
    p ∈ l.rangeLock ∧
      (((l.heap p).startKey < e ∧ s < (l.heap p).endKey) ∨ (l.heap p).regionID = r) := by
  have hf : ∀ q, q ∈ l.rangeLock.filter
      (fun p => decide ((l.heap p).startKey < e ∧ s < (l.heap p).endKey)) →
      q ∈ l.rangeLock ∧ ((l.heap q).startKey < e ∧ s < (l.heap q).endKey) := by
    intro q hq
    obtain ⟨hq1, hq2⟩ := List.mem_filter.mp hq
    exact ⟨hq1, by simpa using hq2⟩
  rcases getOverlappedEntries_shape h hse r with heq | ⟨x, heq, hx, hxr, _⟩
  · rw [heq] at hp
    exact ⟨(hf p hp).1, Or.inl (hf p hp).2⟩
  · rw [heq] at hp
    rcases List.mem_append.mp hp with hp1 | hp1
    · exact ⟨(hf p hp1).1, Or.inl (hf p hp1).2⟩
    · rw [List.mem_singleton.mp hp1]
      exact ⟨hx, Or.inr hxr⟩

/-- In a state that satisfies the invariant, the keys of the gaps computed for `[s, e)` are
the keys of `[s, e)` that no entry of the tree covers. -/
theorem gaps_mem_of_inv {l : RegionRangeLock} (h : Inv l) {s e : Key} (k : Key) :
    (∃ sp ∈ gapsFrom e s ((l.rangeLock.filter
        (fun p => decide ((l.heap p).startKey < e ∧ s < (l.heap p).endKey))).map l.heap),
      sp.Start ≤ k ∧ k < sp.End) ↔
    (s ≤ k ∧ k < e ∧ ∀ p ∈ l.rangeLock, ¬ (l.heap p).covers k) := by
  have hmemI : ∀ x ∈ (l.rangeLock.filter
      (fun p => decide ((l.heap p).startKey < e ∧ s < (l.heap p).endKey))).map l.heap,
      ∃ p ∈ l.rangeLock, l.heap p = x ∧ (l.heap p).startKey < e ∧ s < (l.heap p).endKey := by
    intro x hx
    obtain ⟨p, hp, hpx⟩ := List.mem_map.mp hx
    obtain ⟨hpt, hpI⟩ := List.mem_filter.mp hp
    exact ⟨p, hpt, hpx, by simpa using hpI⟩
  have hne : ∀ x ∈ (l.rangeLock.filter
      (fun p => decide ((l.heap p).startKey < e ∧ s < (l.heap p).endKey))).map l.heap,
      x.startKey < x.endKey := by
    intro x hx
    obtain ⟨p, hp, rfl, _⟩ := hmemI x hx
    exact h.nonempty p hp
  have hsep : ((l.rangeLock.filter
      (fun p => decide ((l.heap p).startKey < e ∧ s < (l.heap p).endKey))).map l.heap).Pairwise
      (fun a b => a.endKey ≤ b.startKey) := by
    rw [List.pairwise_map]
    exact h.disjoint.filter _
  rw [gapsFrom_mem e _ hne hsep
    (fun x hx => by obtain ⟨p, _, rfl, h1, _⟩ := hmemI x hx; exact h1) s
    (fun x hx => by obtain ⟨p, _, rfl, _, h2⟩ := hmemI x hx; exact le_of_lt h2) k]
  constructor
  · rintro ⟨h1, h2, h3⟩
    refine ⟨h1, h2, ?_⟩
    intro p hp hc
    apply h3 (l.heap p) _ hc
    refine List.mem_map.mpr ⟨p, List.mem_filter.mpr ⟨hp, ?_⟩, rfl⟩
    simpa using ⟨lt_of_le_of_lt hc.1 h2, lt_of_le_of_lt h1 hc.2⟩
  · rintro ⟨h1, h2, h3⟩
    refine ⟨h1, h2, ?_⟩
    intro x hx
    obtain ⟨p, hp, rfl, _⟩ := hmemI x hx
    exact h3 p hp

/-- Claim C15, as stated, fails, in two ways. In the state where region 1 holds
`[0x01, 0x05)` at version 5, `tryLockRange(0x06, 0x08, 1, 3)` returns Stale although no
entry of `rangeLock` has a key in common with `[0x06, 0x08)`: the entry that the region id
map holds for the requested region counts as a conflict. And `tryLockRange` compares
`startKey` with `endKey` nowhere: after it has granted the empty range `[0x07, 0x07)` to
region 3 at version 1, `tryLockRange(0x06, 0x08, 2, 1)` returns Stale although no entry has
a key in common with `[0x06, 0x08)` and none belongs to region 2. -/
theorem stale_without_overlap :
    (Reachable exLock1 ∧ ([6] : Key) < [8] ∧
      (exLock1.tryLockRange [6] [8] 1 3).1.Status = LockRangeStatusStale ∧
      ∀ p ∈ exLock1.rangeLock,
        ¬ ∃ k : Key, (exLock1.heap p).covers k ∧ [6] ≤ k ∧ k < [8]) ∧
    (ReachableAny exLockPoint ∧
      (exLockPoint.tryLockRange [6] [8] 2 1).1.Status = LockRangeStatusStale ∧
      ∀ p ∈ exLockPoint.rangeLock,
        (¬ ∃ k : Key, (exLockPoint.heap p).covers k ∧ [6] ≤ k ∧ k < [8]) ∧
        (exLockPoint.heap p).regionID ≠ 2) := by
  refine ⟨⟨exLock1_reachable, by decide, by decide, ?_⟩,
    exLockPoint_reachableAny, by decide, ?_⟩
  · intro p hp
    have hp1 : p = 1 := by
      have : exLock1.rangeLock = [1] := by decide
      rw [this] at hp
      exact List.mem_singleton.mp hp
    subst hp1
    rintro ⟨k, hc, h6, _⟩
    have hend : (exLock1.heap 1).endKey = [5] := by decide
    have h65 : ([6] : Key) < [5] := lt_of_le_of_lt h6 (hend ▸ hc.2)
    exact absurd h65 (by decide)
  · intro p hp
    refine ⟨exLockPoint_free p hp, ?_⟩
    have htree := exLockPoint_granted.2.1
    rw [htree] at hp
    rcases List.mem_cons.mp hp with rfl | hp2
    · decide
    · have hp3 : p = 2 := by simpa using hp2
      subst hp3
      decide

/-- Claim C15, amended. In every state reached from `NewRegionRangeLock` by `tryLockRange`
calls on non-empty ranges (`start < end`) and by `UnlockRange` calls that complete, and for
every request with `start < end`, if `tryLockRange(start, end, regionID, version)` returns
Stale then some entry of `rangeLock` has a version `≥` the requested one and either its
interval has a key in common with `[start, end)` or its region id is the requested one. -/
theorem stale_has_newer_owner (l : RegionRangeLock) (h : Reachable l) (s e : Key)
    (r v : Nat) (hse : s < e)
    (hst : (l.tryLockRange s e r v).1.Status = LockRangeStatusStale) :
    ∃ p ∈ l.rangeLock, (l.heap p).version ≥ v ∧
      ((∃ k, (l.heap p).covers k ∧ s ≤ k ∧ k < e) ∨ (l.heap p).regionID = r) := by
  have hinv := Inv_of_reachable h
  rcases tryLockRange_cases l s e r v with ⟨_, heq⟩ | ⟨_, ⟨p, hp, hpv⟩, _⟩ | ⟨_, _, heq⟩
  · rw [heq] at hst
    simp [LockRangeStatusSuccess, LockRangeStatusStale] at hst
  · obtain ⟨hpt, hcase⟩ := mem_getOverlappedEntries_cases hinv hse r hp
    refine ⟨p, hpt, hpv, ?_⟩
    rcases hcase with ⟨h1, h2⟩ | hr
    · left
      refine ⟨max s (l.heap p).startKey, ⟨le_max_right _ _, ?_⟩, le_max_left _ _, ?_⟩
      · exact max_lt h2 (hinv.nonempty p hpt)
      · exact max_lt hse h1
    · exact Or.inr hr
  · rw [heq] at hst
    simp [LockRangeStatusWait, LockRangeStatusStale] at hst

theorem stale_has_newer_owner_witness :
    (exLock1.tryLockRange [6] [8] 1 3).1.RetryRanges = [⟨[6], [8]⟩] ∧
    ∃ p ∈ exLock1.rangeLock, (exLock1.heap p).version ≥ 3 ∧
      ((∃ k : Key, (exLock1.heap p).covers k ∧ [6] ≤ k ∧ k < [8]) ∨
        (exLock1.heap p).regionID = 1) :=
  ⟨by decide,
    stale_has_newer_owner exLock1 exLock1_reachable [6] [8] 1 3 (by decide) (by decide)⟩

/-- Claim C16. Idempotent re-acquisition rejection: in every reachable state, for every
entry of `rangeLock` (its interval is non-empty there), `tryLockRange` with the start key,
end key, region id and version of that entry returns Stale with an empty `RetryRanges`
list and no channel, and leaves the lock state unchanged. -/
theorem reacquire_is_stale (l : RegionRangeLock) (h : Reachable l) (p : Nat)
    (hp : p ∈ l.rangeLock) :
    (l.heap p).startKey < (l.heap p).endKey ∧
    l.tryLockRange (l.heap p).startKey (l.heap p).endKey (l.heap p).regionID
        (l.heap p).version =
      (⟨LockRangeStatusStale, 0, []⟩, [], l) := by
  have hinv := Inv_of_reachable h
  have hse := hinv.nonempty p hp
  refine ⟨hse, ?_⟩
  have hpC := mem_getOverlappedEntries_of_meets hinv hse (l.heap p).regionID hp hse hse
  rcases tryLockRange_cases l (l.heap p).startKey (l.heap p).endKey (l.heap p).regionID
    (l.heap p).version with ⟨hnil, _⟩ | ⟨_, _, heq⟩ | ⟨_, hw, _⟩
  · rw [hnil] at hpC
    simp at hpC
  · rw [heq, retryRanges_eq_gaps hinv hse]
    have hnilg : gapsFrom (l.heap p).endKey (l.heap p).startKey
        ((l.rangeLock.filter (fun q => decide ((l.heap q).startKey < (l.heap p).endKey ∧
          (l.heap p).startKey < (l.heap q).endKey))).map l.heap) = [] := by
      rw [List.eq_nil_iff_forall_not_mem]
      intro sp hsp
      have hlt := gapsFrom_nonempty _ _ _ sp hsp
      obtain ⟨h1, h2, h3⟩ := (gaps_mem_of_inv hinv sp.Start).mp ⟨sp, hsp, le_refl _, hlt⟩
      exact h3 p hp ⟨h1, h2⟩
    rw [hnilg]
  · exact absurd (hw p hpC) (lt_irrefl _)

theorem reacquire_is_stale_witness :
    (exLock2.heap 2).startKey = [5] ∧
    ((exLock2.heap 2).startKey < (exLock2.heap 2).endKey ∧
    exLock2.tryLockRange (exLock2.heap 2).startKey (exLock2.heap 2).endKey
        (exLock2.heap 2).regionID (exLock2.heap 2).version =
      (⟨LockRangeStatusStale, 0, []⟩, [], exLock2)) :=
  ⟨by decide, reacquire_is_stale exLock2 exLock2_reachable 2 (by decide)⟩

/-! ## Scenarios on a fresh lock -/

theorem getOverlappedEntries_of_empty {l : RegionRangeLock} (h1 : l.rangeLock = [])
    (h2 : l.regionIDLock = []) (s e : Key) (r : Nat) : l.getOverlappedEntries s e r = [] := by
  unfold RegionRangeLock.getOverlappedEntries
  rw [h1, h2]
  rfl

/-- The first acquisition on a lock that holds nothing succeeds and installs one entry. -/
theorem tryLockRange_of_empty {l : RegionRangeLock} (h1 : l.rangeLock = [])
    (h2 : l.regionIDLock = []) (s e : Key) (r v : Nat) :
    l.tryLockRange s e r v =
      (⟨LockRangeStatusSuccess, l.rangeCheckpointTs.GetMin s e, []⟩, [],
        { l with
          heap := Function.update l.heap 1 ⟨s, e, r, v, []⟩
          rangeLock := [1]
          regionIDLock := [(r, 1)] }) := by
  have halloc : allocEntry l = 1 := by
    unfold allocEntry
    rw [h1, h2]
    rfl
  rcases tryLockRange_cases l s e r v with ⟨_, heq⟩ | ⟨hne, _⟩ | ⟨hne, _⟩
  · rw [heq, halloc, h1, h2]
    rfl
  · exact absurd (getOverlappedEntries_of_empty h1 h2 s e r) hne
  · exact absurd (getOverlappedEntries_of_empty h1 h2 s e r) hne

/-- With one entry `[a, d)` of another region in the lock, a request whose start key lies
strictly inside `[a, d)` conflicts with exactly that entry. -/
theorem getOverlappedEntries_of_single {l : RegionRangeLock} {p r0 w : Nat} {a d : Key}
    {ws : List Nat} (h1 : l.rangeLock = [p]) (h2 : l.regionIDLock = [(r0, p)])
    (h3 : l.heap p = ⟨a, d, r0, w, ws⟩) {b c : Key} {r : Nat} (hab : a < b) (hbd : b < d)
    (hr : r ≠ r0) : l.getOverlappedEntries b c r = [p] := by
  have hr0 : ¬ r0 = r := fun hc => hr hc.symm
  have hba : ¬ b ≤ a := not_le.mpr hab
  unfold RegionRangeLock.getOverlappedEntries
  simp [h1, h2, h3, BTree.DescendLessOrEqual, BTree.AscendRange, entryKey, mapGet,
    le_of_lt hab, hab, hbd, hba, hr0]

theorem UnlockRange_of_single {l : RegionRangeLock} {p r0 w : Nat} {a d : Key}
    {ws : List Nat} (h1 : l.rangeLock = [p]) (h2 : l.regionIDLock = [(r0, p)])
    (h3 : l.heap p = ⟨a, d, r0, w, ws⟩) (ts : Nat) :
    l.UnlockRange a d r0 w ts =
      some ({ l with
              regionIDLock := []
              rangeLock := []
              rangeCheckpointTs := l.rangeCheckpointTs.Set a d ts }, ws) := by
  unfold RegionRangeLock.UnlockRange
  simp [h1, h2, h3, BTree.Get, BTree.Delete, entryKey, mapGet, mapDelete]

theorem GetMin_Set_inside (m : RangeTsMap) (hm : m.Ordered) {a b c d : Key} (ts : Nat)
    (hab : a ≤ b) (hbc : b < c) (hcd : c ≤ d) : (m.Set a d ts).GetMin b c = ts := by
  have had : a < d := lt_of_le_of_lt hab (lt_of_lt_of_le hbc hcd)
  obtain ⟨⟨k, h1, h2, h3⟩, _⟩ := GetMin_valueAt _ (Set_ordered m hm a d ts) b c hbc
  rw [h3, Set_valueAt m hm a d ts had, if_pos ⟨le_trans hab h1, lt_of_lt_of_le h2 hcd⟩]

/-- Claim C13, as stated, fails: on a fresh lock over `[0x00, 0x09)`, after
`tryLockRange(0x01, 0x05, 1, 5)` has returned Success, `tryLockRange(0x02, 0x03, 2, 3)`
returns Stale, not Wait: the installed entry has version 5, which is `≥ 3`. -/
theorem lower_epoch_request_not_wait :
    (exLock0.tryLockRange [1] [5] 1 5).1.Status = LockRangeStatusSuccess ∧
    ((exLock0.tryLockRange [1] [5] 1 5).2.2.tryLockRange [2] [3] 2 3).1.Status =
      LockRangeStatusStale ∧
    ((exLock0.tryLockRange [1] [5] 1 5).2.2.tryLockRange [2] [3] 2 3).1.Status ≠
      LockRangeStatusWait := by
  decide

/-- Claim C13, amended. For all keys `a < b < c < d` and a fresh lock (over any key space):
`tryLockRange(a, d, 1, 5)` returns Success; then `tryLockRange(b, c, 2, 3)` returns Stale
with no retry range and no channel and leaves the state as it was; then
`UnlockRange(a, d, 1, 5, 100)` completes, and after it `tryLockRange(b, c, 2, 3)` returns
Success with `CheckpointTs = 100`. -/
theorem scenario_lower_epoch (gs ge a b c d : Key) (t0 : Nat) (hab : a < b) (hbc : b < c)
    (hcd : c < d) :
    ((NewRegionRangeLock gs ge t0).tryLockRange a d 1 5).1.Status = LockRangeStatusSuccess ∧
    ((NewRegionRangeLock gs ge t0).tryLockRange a d 1 5).2.2.tryLockRange b c 2 3 =
      (⟨LockRangeStatusStale, 0, []⟩, [],
        ((NewRegionRangeLock gs ge t0).tryLockRange a d 1 5).2.2) ∧
    ∃ l2, ((NewRegionRangeLock gs ge t0).tryLockRange a d 1 5).2.2.UnlockRange a d 1 5 100 =
        some (l2, []) ∧
      (l2.tryLockRange b c 2 3).1 = ⟨LockRangeStatusSuccess, 100, []⟩ := by
  have e1 := tryLockRange_of_empty (l := NewRegionRangeLock gs ge t0) rfl rfl a d 1 5
  have hSt : ((NewRegionRangeLock gs ge t0).tryLockRange a d 1 5).1.Status =
      LockRangeStatusSuccess := by rw [e1]
  have hLr : ((NewRegionRangeLock gs ge t0).tryLockRange a d 1 5).2.2.rangeLock = [1] := by
    rw [e1]
  have hLm : ((NewRegionRangeLock gs ge t0).tryLockRange a d 1 5).2.2.regionIDLock =
      [(1, 1)] := by rw [e1]
  have hLh : ((NewRegionRangeLock gs ge t0).tryLockRange a d 1 5).2.2.heap 1 =
      ⟨a, d, 1, 5, []⟩ := by
    rw [e1]
    exact Function.update_same (1 : Nat) _ (NewRegionRangeLock gs ge t0).heap
  have hLt : ((NewRegionRangeLock gs ge t0).tryLockRange a d 1 5).2.2.rangeCheckpointTs =
      NewRangeTsMap gs ge t0 := by rw [e1]; rfl
  refine ⟨hSt, ?_, ?_⟩
  · have hC := getOverlappedEntries_of_single hLr hLm hLh (c := c) (r := 2) hab
      (lt_trans hbc hcd) (by decide)
    rcases tryLockRange_cases ((NewRegionRangeLock gs ge t0).tryLockRange a d 1 5).2.2 b c 2 3
      with ⟨hnil, _⟩ | ⟨_, _, heq⟩ | ⟨_, hw, _⟩
    · rw [hC] at hnil
      simp at hnil
    · rw [heq, hC]
      have hdb : ¬ d ≤ b := not_le.mpr (lt_trans hbc hcd)
      have hca : ¬ c ≤ a := not_le.mpr (lt_trans hab hbc)
      have hba : ¬ b < a := not_lt.mpr (le_of_lt hab)
      have hdc : ¬ d < c := not_lt.mpr (le_of_lt hcd)
      simp [retryRanges, retryStep, hLh, hdb, hca, hba, hdc]
    · rw [hC] at hw
      have := hw 1 (by simp)
      rw [hLh] at this
      simp at this
  · refine ⟨_, UnlockRange_of_single hLr hLm hLh 100, ?_⟩
    rw [tryLockRange_of_empty rfl rfl b c 2 3]
    show (⟨LockRangeStatusSuccess,
      (((NewRegionRangeLock gs ge t0).tryLockRange a d 1 5).2.2.rangeCheckpointTs.Set
        a d 100).GetMin b c, []⟩ : LockRangeResult) = _
    rw [hLt, GetMin_Set_inside _ (NewRangeTsMap_ordered gs ge t0) 100 (le_of_lt hab) hbc
      (le_of_lt hcd)]

theorem scenario_lower_epoch_witness :
    (exLock0.tryLockRange [1] [5] 1 5).1.Status = LockRangeStatusSuccess ∧
    (exLock0.tryLockRange [1] [5] 1 5).2.2.tryLockRange [2] [3] 2 3 =
      (⟨LockRangeStatusStale, 0, []⟩, [], (exLock0.tryLockRange [1] [5] 1 5).2.2) ∧
    ∃ l2, (exLock0.tryLockRange [1] [5] 1 5).2.2.UnlockRange [1] [5] 1 5 100 =
        some (l2, []) ∧
      (l2.tryLockRange [2] [3] 2 3).1 = ⟨LockRangeStatusSuccess, 100, []⟩ :=
  scenario_lower_epoch [0] [9] [1] [2] [3] [5] 7 (by decide) (by decide) (by decide)

/-- Claim C17. Partial coverage by a newer owner: for all keys `a < b < d < e`, all
versions `v ≤ w` and a fresh lock (over any key space), `tryLockRange(a, d, 1, w)` returns
Success and then `tryLockRange(b, e, 2, v)` returns Stale with `RetryRanges` exactly the
one-element list `[[d, e)]`. -/
theorem scenario_partial_coverage (gs ge a b d e : Key) (t0 v w : Nat) (hab : a < b)
    (hbd : b < d) (hde : d < e) (hvw : v ≤ w) :
    ((NewRegionRangeLock gs ge t0).tryLockRange a d 1 w).1.Status = LockRangeStatusSuccess ∧
    (((NewRegionRangeLock gs ge t0).tryLockRange a d 1 w).2.2.tryLockRange b e 2 v).1 =
      ⟨LockRangeStatusStale, 0, [⟨d, e⟩]⟩ := by
  have e1 := tryLockRange_of_empty (l := NewRegionRangeLock gs ge t0) rfl rfl a d 1 w
  have hSt : ((NewRegionRangeLock gs ge t0).tryLockRange a d 1 w).1.Status =
      LockRangeStatusSuccess := by rw [e1]
  have hLr : ((NewRegionRangeLock gs ge t0).tryLockRange a d 1 w).2.2.rangeLock = [1] := by
    rw [e1]
  have hLm : ((NewRegionRangeLock gs ge t0).tryLockRange a d 1 w).2.2.regionIDLock =
      [(1, 1)] := by rw [e1]
  have hLh : ((NewRegionRangeLock gs ge t0).tryLockRange a d 1 w).2.2.heap 1 =
      ⟨a, d, 1, w, []⟩ := by
    rw [e1]
    exact Function.update_same (1 : Nat) _ (NewRegionRangeLock gs ge t0).heap
  refine ⟨hSt, ?_⟩
  have hC := getOverlappedEntries_of_single hLr hLm hLh (c := e) (r := 2) hab hbd (by decide)
  rcases tryLockRange_cases ((NewRegionRangeLock gs ge t0).tryLockRange a d 1 w).2.2 b e 2 v
    with ⟨hnil, _⟩ | ⟨_, _, heq⟩ | ⟨_, hw, _⟩
  · rw [hC] at hnil
    simp at hnil
  · rw [heq, hC]
    have hdb : ¬ d ≤ b := not_le.mpr hbd
    have hea : ¬ e ≤ a := not_le.mpr (lt_trans hab (lt_trans hbd hde))
    have hba : ¬ b < a := not_lt.mpr (le_of_lt hab)
    simp [retryRanges, retryStep, hLh, hdb, hea, hba, hde]
  · rw [hC] at hw
    have := hw 1 (by simp)
    rw [hLh] at this
    exact absurd this (not_lt.mpr hvw)

theorem scenario_partial_coverage_witness :
    (exLock0.tryLockRange [1] [5] 1 5).1.Status = LockRangeStatusSuccess ∧
    ((exLock0.tryLockRange [1] [5] 1 5).2.2.tryLockRange [2] [7] 2 2).1 =
      ⟨LockRangeStatusStale, 0, [⟨[5], [7]⟩]⟩ :=
  scenario_partial_coverage [0] [9] [1] [2] [5] [7] 7 2 5 (by decide) (by decide) (by decide)
    (by decide)

/-! ## Facts about WaitFn -/

theorem tryLockRange_status (l : RegionRangeLock) (s e : Key) (r v : Nat) :
    (l.tryLockRange s e r v).1.Status = LockRangeStatusSuccess ∨
    (l.tryLockRange s e r v).1.Status = LockRangeStatusStale ∨
    (l.tryLockRange s e r v).1.Status = LockRangeStatusWait := by
  rcases tryLockRange_cases l s e r v with ⟨_, heq⟩ | ⟨_, _, heq⟩ | ⟨_, _, heq⟩
  · left; rw [heq]
  · right; left; rw [heq]
  · right; right; rw [heq]

/-- A `WaitFn` that has returned takes no further step: later events change neither its
result nor its actions. -/
theorem WaitFn.run_of_returned (s e : Key) (r v : Nat) (evs : List Event) (c c1 : Config)
    (res : LockRangeResult) (hloc : c.loc = .returned res)
    (hrun : WaitFn.run s e r v c evs = some c1) :
    c1.loc = .returned res ∧ c1.log = c.log := by
  induction evs generalizing c with
  | nil =>
    simp only [WaitFn.run, Option.some.injEq] at hrun
    rw [← hrun]
    exact ⟨hloc, rfl⟩
  | cons ev evs ih =>
    simp only [WaitFn.run] at hrun
    split at hrun
    · exact absurd hrun (by simp)
    · rename_i c2 hstep
      have h2 : c2.loc = .returned res ∧ c2.log = c.log := by
        cases ev with
        | ctxCancel =>
          simp only [WaitFn.step, Option.some.injEq] at hstep
          rw [← hstep]; exact ⟨hloc, rfl⟩
        | otherTryLock s1 e1 r1 v1 =>
          simp only [WaitFn.step, Option.some.injEq] at hstep
          rw [← hstep]; exact ⟨hloc, rfl⟩
        | otherUnlock s1 e1 r1 v1 ts =>
          simp only [WaitFn.step] at hstep
          split at hstep
          · exact absurd hstep (by simp)
          · simp only [Option.some.injEq] at hstep
            rw [← hstep]; exact ⟨hloc, rfl⟩
        | selectDone => simp [WaitFn.step, hloc] at hstep
        | selectRecv => simp [WaitFn.step, hloc] at hstep
        | callTryLock => simp [WaitFn.step, hloc] at hstep
      obtain ⟨h3, h4⟩ := ih c2 h2.1 hrun
      exact ⟨h3, h4.trans h2.2⟩

/-- The actions of a `WaitFn` that returns, from any point of its inner loop: `cur` is the
current wait set, of which the channels `pre` have been received from. -/
theorem WaitFn.run_of_selecting (s e : Key) (r v : Nat) (evs : List Event) (c c1 : Config)
    (res : LockRangeResult) (pre pending : List Nat) (done : List WaitFnAction)
    (hloc : c.loc = .selecting pending) (hlog : c.log = done ++ pre.map .received)
    (hrun : WaitFn.run s e r v c evs = some c1) (hret : c1.loc = .returned res) :
    ∃ tail, c1.log = done ++ tail ∧ WaitFnTrace s e r v (pre ++ pending) tail res := by
  induction evs generalizing c pre pending done with
  | nil =>
    simp only [WaitFn.run, Option.some.injEq] at hrun
    rw [← hrun, hloc] at hret
    exact absurd hret (by simp)
  | cons ev evs ih =>
    simp only [WaitFn.run] at hrun
    split at hrun
    · exact absurd hrun (by simp)
    · rename_i c2 hstep
      cases ev with
      | ctxCancel =>
        simp only [WaitFn.step, Option.some.injEq] at hstep
        exact ih c2 pre pending done (by rw [← hstep]; exact hloc)
          (by rw [← hstep]; exact hlog) hrun
      | otherTryLock s1 e1 r1 v1 =>
        simp only [WaitFn.step, Option.some.injEq] at hstep
        exact ih c2 pre pending done (by rw [← hstep]; exact hloc)
          (by rw [← hstep]; exact hlog) hrun
      | otherUnlock s1 e1 r1 v1 ts =>
        simp only [WaitFn.step] at hstep
        split at hstep
        · exact absurd hstep (by simp)
        · simp only [Option.some.injEq] at hstep
          exact ih c2 pre pending done (by rw [← hstep]; exact hloc)
            (by rw [← hstep]; exact hlog) hrun
      | selectDone =>
        cases pending with
        | nil => simp [WaitFn.step, hloc] at hstep
        | cons ch rest =>
          simp only [WaitFn.step, hloc] at hstep
          split_ifs at hstep
          simp only [Option.some.injEq] at hstep
          obtain ⟨h3, h4⟩ := WaitFn.run_of_returned s e r v evs c2 c1
            ⟨LockRangeStatusCancel, 0, []⟩ (by rw [← hstep]) hrun
          rw [h3] at hret
          have hres : res = ⟨LockRangeStatusCancel, 0, []⟩ := by
            injection hret with hret
            exact hret.symm
          refine ⟨pre.map .received ++ [.cancelled], ?_, ?_⟩
          · rw [h4, ← hstep]
            simp only [hlog, List.append_assoc]
          · rw [hres]
            exact WaitFnTrace.cancel pre ch rest
      | selectRecv =>
        cases pending with
        | nil => simp [WaitFn.step, hloc] at hstep
        | cons ch rest =>
          simp only [WaitFn.step, hloc] at hstep
          split_ifs at hstep
          simp only [Option.some.injEq] at hstep
          have := ih c2 (pre ++ [ch]) rest done (by rw [← hstep])
            (by rw [← hstep]; simp [hlog]) hrun
          simpa using this
      | callTryLock =>
        cases pending with
        | cons ch rest => simp [WaitFn.step, hloc] at hstep
        | nil =>
          simp only [WaitFn.step, hloc, Option.some.injEq] at hstep
          by_cases hw : (c.world.lock.tryLockRange s e r v).1.Status ≠ LockRangeStatusWait
          · obtain ⟨h3, h4⟩ := WaitFn.run_of_returned s e r v evs c2 c1
              (c.world.lock.tryLockRange s e r v).1 (by rw [← hstep]; simp [hw]) hrun
            rw [h3] at hret
            have hres : res = (c.world.lock.tryLockRange s e r v).1 := by
              injection hret with hret
              exact hret.symm
            refine ⟨pre.map .received ++ [.tried c.world.lock], ?_, ?_⟩
            · rw [h4, ← hstep]
              simp only [hlog, List.append_assoc]
            · rw [hres, List.append_nil]
              exact WaitFnTrace.done pre c.world.lock hw
          · have hw1 := not_not.mp hw
            obtain ⟨tail, h5, h6⟩ := ih c2 [] (c.world.lock.tryLockRange s e r v).2.1
              (done ++ pre.map .received ++ [.tried c.world.lock])
              (by rw [← hstep]; simp [hw1]) (by rw [← hstep]; simp [hlog]) hrun
            refine ⟨pre.map .received ++ .tried c.world.lock :: tail, ?_, ?_⟩
            · rw [h5]
              simp only [List.append_assoc, List.singleton_append]
            · rw [List.append_nil]
              rw [List.nil_append] at h6
              exact WaitFnTrace.again pre c.world.lock tail res hw1 h6

/-- What a well-shaped sequence of actions tells about the result. -/
theorem WaitFnTrace.result {s e : Key} {r v : Nat} {chs : List Nat}
    {log : List WaitFnAction} {res : LockRangeResult} (h : WaitFnTrace s e r v chs log res) :
    res.Status ≠ LockRangeStatusWait ∧
    (res = ⟨LockRangeStatusCancel, 0, []⟩ ∨
      ∃ before l, log = before ++ [.tried l] ∧ res = (l.tryLockRange s e r v).1) := by
  induction h with
  | cancel pre ch post => exact ⟨by decide, Or.inl rfl⟩
  | done chs l hw => exact ⟨hw, Or.inr ⟨_, l, rfl, rfl⟩⟩
  | again chs l rest res _ _ ih =>
    refine ⟨ih.1, ?_⟩
    rcases ih.2 with h1 | ⟨before, l2, h1, h2⟩
    · exact Or.inl h1
    · refine Or.inr ⟨chs.map .received ++ .tried l :: before, l2, ?_, h2⟩
      rw [h1]
      simp

theorem waitStep_waiters_grow (acc : List Nat × (Nat → rangeLockEntry) × Nat) (p q : Nat) :
    (acc.2.1 q).waiters <+: ((waitStep acc p).2.1 q).waiters := by
  unfold waitStep
  by_cases hq : q = p
  · subst hq
    simp only [Function.update_same]
    exact List.prefix_append _ _
  · simp only [Function.update_noteq hq]
    exact List.prefix_refl _

/-- The wait loop appends one new channel per conflicting entry, to the returned channels
and to the waiters of that entry, and removes no waiter. -/
theorem foldl_waitStep_registered (C : List Nat)
    (acc : List Nat × (Nat → rangeLockEntry) × Nat) :
    (∀ q, (acc.2.1 q).waiters <+: ((C.foldl waitStep acc).2.1 q).waiters) ∧
    ∃ hs, (C.foldl waitStep acc).1 = acc.1 ++ hs ∧
      List.Forall₂ (fun p h => h ∈ ((C.foldl waitStep acc).2.1 p).waiters) C hs := by
  induction C generalizing acc with
  | nil => exact ⟨fun q => List.prefix_refl _, [], by simp, List.Forall₂.nil⟩
  | cons p C ih =>
    obtain ⟨hpre, hs, hhs, hall⟩ := ih (waitStep acc p)
    rw [List.foldl_cons]
    refine ⟨fun q => (waitStep_waiters_grow acc p q).trans (hpre q), acc.2.2 :: hs, ?_, ?_⟩
    · rw [hhs]
      simp [waitStep]
    · refine List.Forall₂.cons ?_ hall
      apply (hpre p).subset
      simp [waitStep, Function.update_same]

theorem WaitFn.start_some {l : RegionRangeLock} {s e : Key} {r v : Nat}
    {buffered : Nat → Nat} {ctxDone : Bool} {c0 : Config}
    (h0 : WaitFn.start l s e r v buffered ctxDone = some c0) :
    (l.tryLockRange s e r v).1.Status = LockRangeStatusWait ∧
    c0 = { world := { lock := (l.tryLockRange s e r v).2.2
                      buffered := buffered
                      ctxDone := ctxDone }
           loc := .selecting (l.tryLockRange s e r v).2.1
           log := [] } := by
  unfold WaitFn.start RegionRangeLock.LockRange at h0
  by_cases hw : (l.tryLockRange s e r v).1.Status ≠ LockRangeStatusWait
  · simp [hw] at h0
  · have hw1 := not_not.mp hw
    simp only [hw1, ne_eq, not_true_eq_false, if_false, Option.some.injEq] at h0
    exact ⟨hw1, h0.symm⟩

/-- Claim C19. The waiting acquisition ends only in Success, Stale or Cancelled: for every
execution of the `WaitFn` returned by `LockRange` (any schedule of the other goroutines
and of the `select` cases) that returns `res`, the actions of `WaitFn` have the shape
`WaitFnTrace` (receive from every channel of the current wait set, then call
`tryLockRange` on the lock state of that moment, and go on with the new channels while
that returns Wait; or return on `ctx.Done()` during the receives); `res` never has status
Wait; its status is Cancel, Success or Stale; when it is Success or Stale, the last action
of `WaitFn` is a call of `tryLockRange` and `res` is exactly the result of that call; and
when it is Success, that call found an empty conflict list. -/
theorem WaitFn_result (l : RegionRangeLock) (s e : Key) (r v : Nat) (buffered : Nat → Nat)
    (ctxDone : Bool) (c0 c : Config) (evs : List Event) (res : LockRangeResult)
    (h0 : WaitFn.start l s e r v buffered ctxDone = some c0)
    (hrun : WaitFn.run s e r v c0 evs = some c) (hret : c.loc = .returned res) :
    WaitFnTrace s e r v (l.tryLockRange s e r v).2.1 c.log res ∧
    res.Status ≠ LockRangeStatusWait ∧
    (res.Status = LockRangeStatusCancel ∨ res.Status = LockRangeStatusSuccess ∨
      res.Status = LockRangeStatusStale) ∧
    (res.Status = LockRangeStatusSuccess ∨ res.Status = LockRangeStatusStale →
      ∃ before l2, c.log = before ++ [.tried l2] ∧ res = (l2.tryLockRange s e r v).1) ∧
    (res.Status = LockRangeStatusSuccess →
      ∃ before l2, c.log = before ++ [.tried l2] ∧ l2.getOverlappedEntries s e r = []) := by
  obtain ⟨_, hc0⟩ := WaitFn.start_some h0
  obtain ⟨tail, h1, h2⟩ := WaitFn.run_of_selecting s e r v evs c0 c res []
    (l.tryLockRange s e r v).2.1 [] (by rw [hc0]) (by rw [hc0]; rfl) hrun hret
  rw [List.nil_append] at h1 h2
  rw [h1]
  obtain ⟨h3, h4⟩ := h2.result
  refine ⟨h2, h3, ?_, ?_, ?_⟩
  · rcases h4 with h4 | ⟨before, l2, _, h5⟩
    · left; rw [h4]
    · rcases tryLockRange_status l2 s e r v with h6 | h6 | h6
      · right; left; rw [h5]; exact h6
      · right; right; rw [h5]; exact h6
      · exact absurd (h5 ▸ h6) h3
  · intro hst
    rcases h4 with h4 | h4
    · rw [h4] at hst
      simp [LockRangeStatusCancel, LockRangeStatusSuccess, LockRangeStatusStale] at hst
    · exact h4
  · intro hst
    rcases h4 with h4 | ⟨before, l2, h5, h6⟩
    · rw [h4] at hst
      simp [LockRangeStatusCancel, LockRangeStatusSuccess] at hst
    · refine ⟨before, l2, h5, ?_⟩
      rw [h6] at hst
      rcases tryLockRange_cases l2 s e r v with ⟨hnil, _⟩ | ⟨_, _, heq⟩ | ⟨_, _, heq⟩
      · exact hnil
      · rw [heq] at hst
        simp [LockRangeStatusSuccess, LockRangeStatusStale] at hst
      · rw [heq] at hst
        simp [LockRangeStatusSuccess, LockRangeStatusWait] at hst

theorem exWaitStart_eq :
    WaitFn.start exLock1 [2] [3] 2 6 (fun _ => 0) false = some exWaitStart := rfl

theorem exWaitEnd_eq :
    WaitFn.run [2] [3] 2 6 exWaitStart exWaitSchedule = some exWaitEnd := rfl

theorem WaitFn_result_witness :
    exWaitEnd.loc = .returned ⟨LockRangeStatusSuccess, 100, []⟩ ∧
    (WaitFnTrace [2] [3] 2 6 (exLock1.tryLockRange [2] [3] 2 6).2.1 exWaitEnd.log
      ⟨LockRangeStatusSuccess, 100, []⟩ ∧
    (⟨LockRangeStatusSuccess, 100, []⟩ : LockRangeResult).Status ≠ LockRangeStatusWait ∧
    ((⟨LockRangeStatusSuccess, 100, []⟩ : LockRangeResult).Status = LockRangeStatusCancel ∨
      (⟨LockRangeStatusSuccess, 100, []⟩ : LockRangeResult).Status = LockRangeStatusSuccess ∨
      (⟨LockRangeStatusSuccess, 100, []⟩ : LockRangeResult).Status = LockRangeStatusStale) ∧
    ((⟨LockRangeStatusSuccess, 100, []⟩ : LockRangeResult).Status = LockRangeStatusSuccess ∨
      (⟨LockRangeStatusSuccess, 100, []⟩ : LockRangeResult).Status = LockRangeStatusStale →
      ∃ before l2, exWaitEnd.log = before ++ [.tried l2] ∧
        (⟨LockRangeStatusSuccess, 100, []⟩ : LockRangeResult) =
          (l2.tryLockRange [2] [3] 2 6).1) ∧
    ((⟨LockRangeStatusSuccess, 100, []⟩ : LockRangeResult).Status = LockRangeStatusSuccess →
      ∃ before l2, exWaitEnd.log = before ++ [.tried l2] ∧
        l2.getOverlappedEntries [2] [3] 2 = [])) :=
  ⟨by decide,
    WaitFn_result exLock1 [2] [3] 2 6 (fun _ => 0) false exWaitStart exWaitEnd exWaitSchedule
      ⟨LockRangeStatusSuccess, 100, []⟩ exWaitStart_eq exWaitEnd_eq (by decide)⟩

/-- Claim C20. Cancellation returns Cancelled and cleans nothing up: when `WaitFn` (made by
a `LockRange` on lock state `l` that returned Wait) stands at the `select` for a channel
that holds no value while the context is done, it can neither receive nor call
`tryLockRange`; its only step returns a result with status `LockRangeStatusCancel` and
leaves the world, hence the lock state and every waiters list, as it was; and when the
lock is still as `LockRange` left it, each channel made for this request is still among
the waiters of the conflicting entry it was registered on. -/
theorem WaitFn_cancel (l : RegionRangeLock) (s e : Key) (r v : Nat)
    (hW : (l.tryLockRange s e r v).1.Status = LockRangeStatusWait) (c : Config) (ch : Nat)
    (rest : List Nat) (hloc : c.loc = .selecting (ch :: rest))
    (hdone : c.world.ctxDone = true) (hbuf : c.world.buffered ch = 0) :
    WaitFn.step s e r v c .selectRecv = none ∧
    WaitFn.step s e r v c .callTryLock = none ∧
    WaitFn.step s e r v c .selectDone =
      some { world := c.world
             loc := .returned ⟨LockRangeStatusCancel, 0, []⟩
             log := c.log ++ [.cancelled] } ∧
    (c.world.lock = (l.tryLockRange s e r v).2.2 →
      List.Forall₂ (fun p h => h ∈ (c.world.lock.heap p).waiters)
        (l.getOverlappedEntries s e r) (l.tryLockRange s e r v).2.1) := by
  refine ⟨?_, ?_, ?_, ?_⟩
  · simp [WaitFn.step, hloc, hbuf]
  · simp [WaitFn.step, hloc]
  · simp [WaitFn.step, hloc, hdone]
  · intro hlock
    rw [hlock]
    rcases tryLockRange_cases l s e r v with ⟨_, heq⟩ | ⟨_, _, heq⟩ | ⟨_, _, heq⟩
    · rw [heq] at hW
      simp [LockRangeStatusSuccess, LockRangeStatusWait] at hW
    · rw [heq] at hW
      simp [LockRangeStatusStale, LockRangeStatusWait] at hW
    · rw [heq]
      obtain ⟨_, hs, hhs, hall⟩ := foldl_waitStep_registered (l.getOverlappedEntries s e r)
        ([], l.heap, l.chanCount)
      rw [List.nil_append] at hhs
      rw [hhs]
      exact hall

theorem WaitFn_cancel_witness :
    WaitFn.start exLock1 [2] [3] 2 6 (fun _ => 0) true = some exCancelStart ∧
    (exLock1.tryLockRange [2] [3] 2 6).2.1 = [0] ∧
    exLock1.getOverlappedEntries [2] [3] 2 = [1] ∧
    (WaitFn.step [2] [3] 2 6 exCancelStart .selectRecv = none ∧
    WaitFn.step [2] [3] 2 6 exCancelStart .callTryLock = none ∧
    WaitFn.step [2] [3] 2 6 exCancelStart .selectDone =
      some { world := exCancelStart.world
             loc := .returned ⟨LockRangeStatusCancel, 0, []⟩
             log := exCancelStart.log ++ [.cancelled] } ∧
    (exCancelStart.world.lock = (exLock1.tryLockRange [2] [3] 2 6).2.2 →
      List.Forall₂ (fun p h => h ∈ (exCancelStart.world.lock.heap p).waiters)
        (exLock1.getOverlappedEntries [2] [3] 2) (exLock1.tryLockRange [2] [3] 2 6).2.1)) :=
  ⟨rfl, by decide, by decide,
    WaitFn_cancel exLock1 [2] [3] 2 6 (by decide) exCancelStart 0 [] rfl rfl rfl⟩

/-! ## Construction and empty ranges of the timestamp map -/

theorem NewRangeTsMap_m (s e : Key) (t0 : Nat) (hse : s < e) :
    (NewRangeTsMap s e t0).m = [⟨s, t0⟩, ⟨e, MaxUint64⟩] := by
  have hes : ¬ e < s := not_lt.mpr (le_of_lt hse)
  simp [NewRangeTsMap, RangeTsMap.Set, BTree.Get, firstTsLessOrEqual,
    BTree.DescendLessOrEqual, BTree.ReplaceOrInsert, BTree.AscendRange, hse, hes]

/-- Claim C21, as stated, fails: the map `NewRangeTsMap(0x00, 0x09, 7)` holds two entries,
`(0x00, 7)` and the closing entry `(0x09, 2^64-1)`. -/
theorem NewRangeTsMap_two_entries :
    (NewRangeTsMap [0] [9] 7).m = [⟨[0], 7⟩, ⟨[9], MaxUint64⟩] ∧
    (NewRangeTsMap [0] [9] 7).m.length = 2 := by
  decide

/-- Claim C21, amended. For all keys `start < end` and every `ts0`, the map returned by
`NewRangeTsMap(start, end, ts0)` contains exactly two entries: one with start key `start`
and ts `ts0`, followed by a closing entry with start key `end` and ts `2^64-1`; the value in
effect at every key of `[start, end)` is `ts0`. -/
theorem NewRangeTsMap_entries (s e : Key) (t0 : Nat) (hse : s < e) :
    (NewRangeTsMap s e t0).m = [⟨s, t0⟩, ⟨e, MaxUint64⟩] ∧
    (NewRangeTsMap s e t0).m.length = 2 ∧
    ∀ k, s ≤ k → k < e → (NewRangeTsMap s e t0).valueAt k = t0 := by
  refine ⟨NewRangeTsMap_m s e t0 hse, by rw [NewRangeTsMap_m s e t0 hse]; rfl, ?_⟩
  intro k h1 h2
  exact NewRangeTsMap_valueAt s e t0 hse k h1 h2

theorem NewRangeTsMap_entries_witness :
    (NewRangeTsMap [2] [5] 7).m = [⟨[2], 7⟩, ⟨[5], MaxUint64⟩] ∧
    (NewRangeTsMap [2] [5] 7).m.length = 2 ∧
    ∀ k : Key, [2] ≤ k → k < [5] → (NewRangeTsMap [2] [5] 7).valueAt k = 7 :=
  NewRangeTsMap_entries [2] [5] 7 (by decide)

theorem mem_Set_empty (m : RangeTsMap) (hm : m.Ordered) (k : Key) (ts : Nat)
    (y : rangeTsEntry) :
    y ∈ (m.Set k k ts).m ↔ y = ⟨k, ts⟩ ∨ (y ∈ m.m ∧ y.startKey ≠ k) := by
  have hfilter : (splitAt m.m k).filter
      (fun i => decide (¬ (k ≤ i.startKey ∧ i.startKey < k))) = splitAt m.m k := by
    rw [List.filter_eq_self]
    intro a _
    simp only [decide_eq_true_eq, not_and, not_lt]
    exact id
  rw [Set_m_eq m hm, hfilter, BTree.mem_ReplaceOrInsert (splitAt_ordered hm k)]
  constructor
  · rintro (h | ⟨h1, h2⟩)
    · exact Or.inl h
    · rcases (mem_splitAt hm k y).1 h1 with h3 | h3
      · exact Or.inr ⟨h3, h2⟩
      · exact absurd h3 h2
  · rintro (h | ⟨h1, h2⟩)
    · exact Or.inl h
    · exact Or.inr ⟨(mem_splitAt hm k y).2 h1, h2⟩

/-- Claim C26, as stated, fails: on the map `NewRangeTsMap(0x00, 0x09, 7)` the call
`Set(0x05, 0x05, 3)` changes the value in effect at key `0x06` from 7 to 3. -/
theorem Set_empty_range_changes :
    (NewRangeTsMap [0] [9] 7).valueAt [6] = 7 ∧
    ((NewRangeTsMap [0] [9] 7).Set [5] [5] 3).valueAt [6] = 3 := by
  decide

/-- Claim C26, amended. `Set` on an empty range is not a no-op: for every map whose tree is
ordered, every key `k` and every `ts`, after `Set(k, k, ts)` the value in effect is `ts` at
every key `x ≥ k` that lies below every start key greater than `k` of the map before the
call, and is the same as before the call at every other key. -/
theorem Set_empty_range_effect (m : RangeTsMap) (hm : m.Ordered) (k : Key) (ts : Nat)
    (x : Key) :
    (k ≤ x → (∀ y ∈ m.m, k < y.startKey → x < y.startKey) →
      (m.Set k k ts).valueAt x = ts) ∧
    (¬ (k ≤ x ∧ ∀ y ∈ m.m, k < y.startKey → x < y.startKey) →
      (m.Set k k ts).valueAt x = m.valueAt x) := by
  have hord := Set_ordered m hm k k ts
  have hmem := mem_Set_empty m hm k ts
  constructor
  · intro hkx hnext
    apply firstTs_of_inEffect hord (x := ⟨k, ts⟩)
    refine ⟨(hmem _).mpr (Or.inl rfl), hkx, ?_⟩
    intro y hy hyx
    rcases (hmem y).mp hy with rfl | ⟨hy1, _⟩
    · exact le_refl _
    · by_contra hc
      exact absurd (hnext y hy1 (not_le.mp hc)) (not_lt.mpr hyx)
  · intro hnot
    have hcase : x < k ∨ ∃ y0 ∈ m.m, k < y0.startKey ∧ y0.startKey ≤ x := by
      by_cases hxk : x < k
      · exact Or.inl hxk
      · right
        by_contra hc
        apply hnot
        refine ⟨not_lt.mp hxk, ?_⟩
        intro y hy hky
        by_contra hxy
        exact hc ⟨y, hy, hky, not_lt.mp hxy⟩
    unfold RangeTsMap.valueAt
    rcases firstTs_cases hm x MaxUint64 with ⟨z, hz, hv⟩ | ⟨hall, hv⟩
    · rw [hv]
      have hzk : z.startKey ≠ k ∧ (k ≤ x → k ≤ z.startKey) := by
        rcases hcase with hxk | ⟨y0, hy0, hky0, hy0x⟩
        · exact ⟨ne_of_lt (lt_of_le_of_lt hz.2.1 hxk),
            fun hkx => absurd hxk (not_lt.mpr hkx)⟩
        · have := hz.2.2 y0 hy0 hy0x
          exact ⟨(ne_of_lt (lt_of_lt_of_le hky0 this)).symm,
            fun _ => le_of_lt (lt_of_lt_of_le hky0 this)⟩
      apply firstTs_of_inEffect hord
      refine ⟨(hmem z).mpr (Or.inr ⟨hz.1, hzk.1⟩), hz.2.1, ?_⟩
      intro y hy hyx
      rcases (hmem y).mp hy with rfl | ⟨hy1, _⟩
      · exact hzk.2 hyx
      · exact hz.2.2 y hy1 hyx
    · rw [hv]
      have hxk : x < k := by
        rcases hcase with hxk | ⟨y0, hy0, _, hy0x⟩
        · exact hxk
        · exact absurd (hall y0 hy0) (not_lt.mpr hy0x)
      apply firstTs_of_none
      intro y hy
      rcases (hmem y).mp hy with rfl | ⟨hy1, _⟩
      · exact hxk
      · exact hall y hy1

theorem Set_empty_range_effect_witness :
    (([5] : Key) ≤ [6] → (∀ y ∈ (NewRangeTsMap [0] [9] 7).m, [5] < y.startKey →
        [6] < y.startKey) →
      ((NewRangeTsMap [0] [9] 7).Set [5] [5] 3).valueAt [6] = 3) ∧
    (¬ (([5] : Key) ≤ [6] ∧ ∀ y ∈ (NewRangeTsMap [0] [9] 7).m, [5] < y.startKey →
        [6] < y.startKey) →
      ((NewRangeTsMap [0] [9] 7).Set [5] [5] 3).valueAt [6] =
        (NewRangeTsMap [0] [9] 7).valueAt [6]) :=
  Set_empty_range_effect (NewRangeTsMap [0] [9] 7) (NewRangeTsMap_ordered _ _ _) [5] 3 [6]

/-! ## Releases that complete, and what an acquire leaves alone -/

/-- In a state that satisfies the invariant, the release of an entry of the tree with its
own keys, region id and version completes. -/
theorem UnlockRange_of_mem {l : RegionRangeLock} (h : Inv l) {p : Nat} (hp : p ∈ l.rangeLock)
    (ts : Nat) :
    l.UnlockRange (l.heap p).startKey (l.heap p).endKey (l.heap p).regionID
        (l.heap p).version ts =
      some ({ l with
              regionIDLock := mapDelete l.regionIDLock (l.heap p).regionID
              rangeLock :=
                (BTree.Delete (entryKey l.heap) l.rangeLock (entryKey l.heap p)).2
              rangeCheckpointTs :=
                l.rangeCheckpointTs.Set (l.heap p).startKey (l.heap p).endKey ts },
            (l.heap p).waiters) := by
  have hget : BTree.Get (entryKey l.heap) l.rangeLock (l.heap p).startKey = some p :=
    BTree.Get_of_mem h.ordered hp
  have hidx : mapGet l.regionIDLock (l.heap p).regionID = some p :=
    (h.index _ p).mpr ⟨hp, rfl⟩
  have hdel : (BTree.Delete (entryKey l.heap) l.rangeLock (entryKey l.heap p)).1 = some p := by
    rw [BTree.Delete_fst]
    exact hget
  unfold RegionRangeLock.UnlockRange
  rw [hget]
  simp only [ne_eq, not_true_eq_false, if_false, hidx, or_self]
  split
  · rename_i hd
    rw [hd] at hdel
    exact absurd hdel (by simp)
  · rename_i x t1 hd
    rw [hd]

/-- Claim C29. A matched release never aborts: in every reachable state, for every entry
of `rangeLock` and every checkpoint ts, `UnlockRange` called with the start key, end key,
region id and version of that entry completes; and in every lock state at all, the item
found by `rangeLock.Get` at a start key is found again by `rangeLock.Delete`, so the branch
`panic("unreachable")` is never taken. -/
theorem matched_release_completes (l : RegionRangeLock) (h : Reachable l) (p : Nat)
    (hp : p ∈ l.rangeLock) (ts : Nat) :
    (l.UnlockRange (l.heap p).startKey (l.heap p).endKey (l.heap p).regionID
        (l.heap p).version ts).isSome = true ∧
    ∀ (l0 : RegionRangeLock) (s : Key) (q : Nat),
      BTree.Get (entryKey l0.heap) l0.rangeLock s = some q →
      (BTree.Delete (entryKey l0.heap) l0.rangeLock (entryKey l0.heap q)).1 = some q := by
  constructor
  · rw [UnlockRange_of_mem (Inv_of_reachable h) hp ts]
    rfl
  · intro l0 s q hq
    rw [BTree.Delete_fst, (BTree.Get_some hq).2]
    exact hq

theorem matched_release_completes_witness :
    ((exLock2.UnlockRange (exLock2.heap 2).startKey (exLock2.heap 2).endKey
        (exLock2.heap 2).regionID (exLock2.heap 2).version 50).isSome = true ∧
    ∀ (l0 : RegionRangeLock) (s : Key) (q : Nat),
      BTree.Get (entryKey l0.heap) l0.rangeLock s = some q →
      (BTree.Delete (entryKey l0.heap) l0.rangeLock (entryKey l0.heap q)).1 = some q) :=
  matched_release_completes exLock2 exLock2_reachable 2 (by decide) 50

/-- Claim C30. Acquire never touches the checkpoint map, and Stale touches nothing: for
every lock state and every request, `tryLockRange` leaves `rangeCheckpointTs` as it was
whatever status it returns, and when the status is Stale the whole lock state after the
call is the lock state before it. -/
theorem tryLockRange_frame (l : RegionRangeLock) (s e : Key) (r v : Nat) :
    (l.tryLockRange s e r v).2.2.rangeCheckpointTs = l.rangeCheckpointTs ∧
    ((l.tryLockRange s e r v).1.Status = LockRangeStatusStale →
      (l.tryLockRange s e r v).2.2 = l) := by
  rcases tryLockRange_cases l s e r v with ⟨_, heq⟩ | ⟨_, _, heq⟩ | ⟨_, _, heq⟩
  · rw [heq]
    refine ⟨rfl, ?_⟩
    intro hst
    simp [LockRangeStatusSuccess, LockRangeStatusStale] at hst
  · rw [heq]
    exact ⟨rfl, fun _ => rfl⟩
  · rw [heq]
    refine ⟨rfl, ?_⟩
    intro hst
    simp [LockRangeStatusWait, LockRangeStatusStale] at hst

/-! ## Completeness of the conflict scan -/

/-- The invariant, from the shape of the tree and the index alone: the checkpoint map plays
no part in the conflict scan. -/
theorem Inv_of_tree {l : RegionRangeLock} (ho : BTree.Ordered (entryKey l.heap) l.rangeLock)
    (hne : ∀ p ∈ l.rangeLock, (l.heap p).startKey < (l.heap p).endKey)
    (hdis : l.rangeLock.Pairwise (fun p q => ¬ Intersects (l.heap p) (l.heap q)))
    (hidx : ∀ r p, mapGet l.regionIDLock r = some p ↔
      p ∈ l.rangeLock ∧ (l.heap p).regionID = r) :
    Inv { l with rangeCheckpointTs := ⟨[]⟩ } where
  ordered := ho
  nonempty := hne
  disjoint := by
    refine List.Pairwise.imp_of_mem ?_ (ho.and hdis)
    intro a b ha hb hab
    show (l.heap a).endKey ≤ (l.heap b).startKey
    by_contra hc
    apply hab.2
    exact ⟨(l.heap b).startKey, ⟨le_of_lt hab.1, not_le.mp hc⟩, ⟨le_refl _, hne b hb⟩⟩
  index := hidx
  tsOrdered := List.Pairwise.nil

/-- The conflict list in a state that satisfies the invariant: the entries that meet
`[s, e)` in tree order, then the entry indexed under the region id unless it is one of
them. -/
theorem getOverlappedEntries_exact {l : RegionRangeLock} (h : Inv l) {s e : Key}
    (hse : s < e) (r : Nat) :
    l.getOverlappedEntries s e r =
      l.rangeLock.filter (fun p => decide ((l.heap p).startKey < e ∧ s < (l.heap p).endKey)) ++
      (match mapGet l.regionIDLock r with
        | some p =>
          if p ∈ l.rangeLock.filter
            (fun p => decide ((l.heap p).startKey < e ∧ s < (l.heap p).endKey))
          then [] else [p]
        | none => []) := by
  rw [getOverlappedEntries_eq, scanPart_eq h hse]
  split_ifs with hany
  · rw [List.any_eq_true] at hany
    obtain ⟨q, hq, hqr⟩ := hany
    have hqr1 : (l.heap q).regionID = r := by simpa using hqr
    have hqt : q ∈ l.rangeLock := (List.mem_filter.mp hq).1
    rw [(h.index r q).mpr ⟨hqt, hqr1⟩]
    simp only [if_pos hq, List.append_nil]
  · cases hm : mapGet l.regionIDLock r with
    | none => simp
    | some x =>
      have hxr := ((h.index r x).mp hm).2
      have hx : x ∉ l.rangeLock.filter
          (fun p => decide ((l.heap p).startKey < e ∧ s < (l.heap p).endKey)) := by
        intro hc
        apply hany
        rw [List.any_eq_true]
        exact ⟨x, hc, by simpa using hxr⟩
      simp only [if_neg hx]

theorem getOverlappedEntries_nodup {l : RegionRangeLock} (h : Inv l) {s e : Key}
    (hse : s < e) (r : Nat) : (l.getOverlappedEntries s e r).Nodup := by
  have hF : (l.rangeLock.filter
      (fun p => decide ((l.heap p).startKey < e ∧ s < (l.heap p).endKey))).Nodup :=
    h.ordered.nodup.filter _
  rw [getOverlappedEntries_exact h hse r]
  cases mapGet l.regionIDLock r with
  | none => simpa using hF
  | some x =>
    simp only
    split_ifs with hx
    · simpa using hF
    · rw [List.nodup_append]
      refine ⟨hF, List.nodup_singleton x, ?_⟩
      intro a ha hb
      rw [List.mem_singleton] at hb
      exact hx (hb ▸ ha)

/-- Claim C22. Conflict scan completeness: in every state whose tree is ordered, whose
entries are non-empty and pairwise disjoint and whose index is consistent with the tree,
for every `start < end` and region id, `getOverlappedEntries(start, end, regionID)` is the
list of the entries of `rangeLock` with `startKey < end` and `start < endKey`, in tree order
(ascending start keys), followed by `regionIDLock[regionID]` if that entry exists and is
not among them; the list has no duplicates. -/
theorem getOverlappedEntries_complete (l : RegionRangeLock)
    (ho : BTree.Ordered (entryKey l.heap) l.rangeLock)
    (hne : ∀ p ∈ l.rangeLock, (l.heap p).startKey < (l.heap p).endKey)
    (hdis : l.rangeLock.Pairwise (fun p q => ¬ Intersects (l.heap p) (l.heap q)))
    (hidx : ∀ r p, mapGet l.regionIDLock r = some p ↔
      p ∈ l.rangeLock ∧ (l.heap p).regionID = r)
    (s e : Key) (hse : s < e) (r : Nat) :
    l.getOverlappedEntries s e r =
      l.rangeLock.filter (fun p => decide ((l.heap p).startKey < e ∧ s < (l.heap p).endKey)) ++
      (match mapGet l.regionIDLock r with
        | some p =>
          if p ∈ l.rangeLock.filter
            (fun p => decide ((l.heap p).startKey < e ∧ s < (l.heap p).endKey))
          then [] else [p]
        | none => []) ∧
    (l.rangeLock.filter
      (fun p => decide ((l.heap p).startKey < e ∧ s < (l.heap p).endKey))).Pairwise
      (fun p q => (l.heap p).startKey < (l.heap q).startKey) ∧
    (∀ p, p ∈ l.rangeLock.filter
        (fun p => decide ((l.heap p).startKey < e ∧ s < (l.heap p).endKey)) ↔
      p ∈ l.rangeLock ∧ (l.heap p).startKey < e ∧ s < (l.heap p).endKey) ∧
    (l.getOverlappedEntries s e r).Nodup := by
  have hinv := Inv_of_tree ho hne hdis hidx
  refine ⟨getOverlappedEntries_exact hinv hse r, ho.filter _, ?_,
    getOverlappedEntries_nodup hinv hse r⟩
  intro p
  rw [List.mem_filter, decide_eq_true_eq]

theorem getOverlappedEntries_complete_witness :
    exLock2.getOverlappedEntries [2] [7] 1 = [1, 2] ∧
    (exLock2.getOverlappedEntries [2] [7] 1 =
      exLock2.rangeLock.filter
        (fun p => decide ((exLock2.heap p).startKey < [7] ∧ [2] < (exLock2.heap p).endKey)) ++
      (match mapGet exLock2.regionIDLock 1 with
        | some p =>
          if p ∈ exLock2.rangeLock.filter
            (fun p => decide ((exLock2.heap p).startKey < [7] ∧ [2] < (exLock2.heap p).endKey))
          then [] else [p]
        | none => []) ∧
    (exLock2.rangeLock.filter
      (fun p => decide ((exLock2.heap p).startKey < [7] ∧ [2] < (exLock2.heap p).endKey))).Pairwise
      (fun p q => (exLock2.heap p).startKey < (exLock2.heap q).startKey) ∧
    (∀ p, p ∈ exLock2.rangeLock.filter
        (fun p => decide ((exLock2.heap p).startKey < [7] ∧ [2] < (exLock2.heap p).endKey)) ↔
      p ∈ exLock2.rangeLock ∧ (exLock2.heap p).startKey < [7] ∧ [2] < (exLock2.heap p).endKey) ∧
    (exLock2.getOverlappedEntries [2] [7] 1).Nodup) :=
  ⟨by decide,
    getOverlappedEntries_complete exLock2 (Inv_of_reachable exLock2_reachable).ordered
      (Inv_of_reachable exLock2_reachable).nonempty
      (List.Pairwise.imp (fun {a b} (hab : (exLock2.heap a).endKey ≤ (exLock2.heap b).startKey)
        (hi : Intersects (exLock2.heap a) (exLock2.heap b)) =>
          hi.elim (fun k hk => absurd (lt_of_le_of_lt (le_trans hab hk.2.1) hk.1.2)
            (lt_irrefl _)))
        (Inv_of_reachable exLock2_reachable).disjoint)
      (Inv_of_reachable exLock2_reachable).index [2] [7] (by decide) 1⟩

/-! ## Requests that meet no entry -/

theorem scan_nil_of_free {l : RegionRangeLock} (h : Inv l) {s e : Key}
    (hfree : ∀ p ∈ l.rangeLock, ¬ ∃ k, (l.heap p).covers k ∧ s ≤ k ∧ k < e) (hse : s < e) :
    l.rangeLock.filter
      (fun p => decide ((l.heap p).startKey < e ∧ s < (l.heap p).endKey)) = [] := by
  rw [List.filter_eq_nil_iff]
  intro q hq hI
  simp only [decide_eq_true_eq] at hI
  apply hfree q hq
  exact ⟨max s (l.heap q).startKey, ⟨le_max_right _ _, max_lt hI.2 (h.nonempty q hq)⟩,
    le_max_left _ _, max_lt hse hI.1⟩

/-- Claim C23, as stated, fails: `tryLockRange` compares `startKey` with `endKey` nowhere,
so the states the code reaches include those with an empty entry. After region 1 has
acquired `[0x01, 0x05)` at version 5 and region 3 the empty range `[0x07, 0x07)` at version
1, region 1 holds entry 1, and no entry has a key in common with `[0x06, 0x08)`; yet
`tryLockRange(0x06, 0x08, 1, 9)` returns Wait with two channels, channel 0 registered on the
empty entry and channel 1 on entry 1, and `tryLockRange(0x06, 0x08, 1, 3)` returns Stale
with the two retry ranges `[0x06, 0x07)` and `[0x07, 0x08)`. -/
theorem own_claim_elsewhere_two_conflicts :
    ReachableAny exLockPoint ∧ ([6] : Key) < [8] ∧
    1 ∈ exLockPoint.rangeLock ∧ (exLockPoint.heap 1).regionID = 1 ∧
    (exLockPoint.heap 1).version = 5 ∧
    (∀ p ∈ exLockPoint.rangeLock,
      ¬ ∃ k : Key, (exLockPoint.heap p).covers k ∧ [6] ≤ k ∧ k < [8]) ∧
    (exLockPoint.tryLockRange [6] [8] 1 9).1.Status = LockRangeStatusWait ∧
    (exLockPoint.tryLockRange [6] [8] 1 9).2.1 = [0, 1] ∧
    ((exLockPoint.tryLockRange [6] [8] 1 9).2.2.heap 2).waiters = [0] ∧
    ((exLockPoint.tryLockRange [6] [8] 1 9).2.2.heap 1).waiters = [1] ∧
    (exLockPoint.tryLockRange [6] [8] 1 3).1.Status = LockRangeStatusStale ∧
    (exLockPoint.tryLockRange [6] [8] 1 3).1.RetryRanges = [⟨[6], [7]⟩, ⟨[7], [8]⟩] :=
  ⟨exLockPoint_reachableAny, by decide, by decide, by decide, by decide, exLockPoint_free,
    by decide, by decide, by decide, by decide, by decide, by decide⟩

/-- Claim C23, amended. A shard's own claim elsewhere blocks it: in every state reached from
`NewRegionRangeLock` by `tryLockRange` calls on non-empty ranges (`start < end`) and by
`UnlockRange` calls that complete, where the entry `E` of `rangeLock` belongs to region `r`
and no entry of `rangeLock` (so not `E` either) has a key in common with `[start, end)`,
`start < end`, `tryLockRange(start, end, r, v)` does not return Success: when
`v > E.version` it returns Wait with exactly one channel, the new channel, which it appends
to the waiters of `E`, and when `v ≤ E.version` it returns Stale with `RetryRanges` equal
to the one-element list `[[start, end)]` and leaves the state as it was. -/
theorem own_claim_elsewhere_blocks (l : RegionRangeLock) (h : Reachable l) (s e : Key)
    (hse : s < e) (r v E : Nat) (hE : E ∈ l.rangeLock) (hEr : (l.heap E).regionID = r)
    (hfree : ∀ p ∈ l.rangeLock, ¬ ∃ k, (l.heap p).covers k ∧ s ≤ k ∧ k < e) :
    (l.tryLockRange s e r v).1.Status ≠ LockRangeStatusSuccess ∧
    ((l.heap E).version < v →
      l.tryLockRange s e r v =
        (⟨LockRangeStatusWait, 0, []⟩, [l.chanCount],
          { l with
            heap := Function.update l.heap E
              { l.heap E with waiters := (l.heap E).waiters ++ [l.chanCount] }
            chanCount := l.chanCount + 1 })) ∧
    (v ≤ (l.heap E).version →
      l.tryLockRange s e r v = (⟨LockRangeStatusStale, 0, [⟨s, e⟩]⟩, [], l)) := by
  have hinv := Inv_of_reachable h
  have hF := scan_nil_of_free hinv hfree hse
  have hC : l.getOverlappedEntries s e r = [E] := by
    rw [getOverlappedEntries_exact hinv hse r, hF, (hinv.index r E).mpr ⟨hE, hEr⟩]
    simp
  have hskip : (l.heap E).endKey ≤ s ∨ e ≤ (l.heap E).startKey := by
    have hEF : E ∉ l.rangeLock.filter
        (fun p => decide ((l.heap p).startKey < e ∧ s < (l.heap p).endKey)) := by
      rw [hF]; simp
    rw [List.mem_filter] at hEF
    simp only [decide_eq_true_eq, not_and, not_lt] at hEF
    by_cases hc : (l.heap E).startKey < e
    · exact Or.inl (hEF hE hc)
    · exact Or.inr (not_lt.mp hc)
  rcases tryLockRange_cases l s e r v with ⟨hnil, _⟩ | ⟨_, ⟨p, hp, hpv⟩, heq⟩ | ⟨_, hw, heq⟩
  · rw [hC] at hnil
    simp at hnil
  · rw [hC, List.mem_singleton] at hp
    subst hp
    rw [heq, hC]
    refine ⟨by simp [LockRangeStatusSuccess, LockRangeStatusStale], ?_, ?_⟩
    · intro hlt
      exact absurd hlt (not_lt.mpr hpv)
    · intro _
      simp [retryRanges, retryStep, hskip, hse]
  · have hlt := hw E (by rw [hC]; simp)
    rw [heq, hC]
    refine ⟨by simp [LockRangeStatusSuccess, LockRangeStatusWait], ?_, ?_⟩
    · intro _
      rfl
    · intro hle
      exact absurd hlt (not_lt.mpr hle)

theorem own_claim_elsewhere_blocks_witness :
    (exLock1.tryLockRange [6] [8] 1 9).1.Status ≠ LockRangeStatusSuccess ∧
    ((exLock1.heap 1).version < 9 →
      exLock1.tryLockRange [6] [8] 1 9 =
        (⟨LockRangeStatusWait, 0, []⟩, [exLock1.chanCount],
          { exLock1 with
            heap := Function.update exLock1.heap 1
              { exLock1.heap 1 with waiters := (exLock1.heap 1).waiters ++ [exLock1.chanCount] }
            chanCount := exLock1.chanCount + 1 })) ∧
    (9 ≤ (exLock1.heap 1).version →
      exLock1.tryLockRange [6] [8] 1 9 = (⟨LockRangeStatusStale, 0, [⟨[6], [8]⟩]⟩, [], exLock1)) :=
  own_claim_elsewhere_blocks exLock1 exLock1_reachable [6] [8] (by decide) 1 9 1 (by decide)
    (by decide)
    (by
      intro p hp
      have hp1 : p = 1 := by
        have : exLock1.rangeLock = [1] := by decide
        rw [this] at hp
        exact List.mem_singleton.mp hp
      subst hp1
      rintro ⟨k, hc, h6, _⟩
      have hend : (exLock1.heap 1).endKey = [5] := by decide
      have h65 : ([6] : Key) < [5] := lt_of_le_of_lt h6 (hend ▸ hc.2)
      exact absurd h65 (by decide))

/-! ## Grants -/

theorem scan_nil_of_conflict_nil {l : RegionRangeLock} {s e : Key} {r : Nat}
    (hnil : l.getOverlappedEntries s e r = []) :
    scanPart l s e = [] ∧ mapGet l.regionIDLock r = none := by
  rw [getOverlappedEntries_eq] at hnil
  split_ifs at hnil with hany
  · rw [hnil] at hany
    simp at hany
  · split at hnil
    · simp at hnil
    · rename_i hnone
      exact ⟨hnil, hnone⟩

/-- Claim C27, as stated, fails: in the state where region 1 holds `[0x01, 0x05)`,
`tryLockRange(0x01, 0x01, 2, 9)` (an empty range at the start key of that entry) returns
Success and replaces the entry in the tree: entry 1 is no longer in `rangeLock`, while
`regionIDLock[1]` still points to it. -/
theorem grant_displaces_on_empty_range :
    (exLock1.tryLockRange [1] [1] 2 9).1.Status = LockRangeStatusSuccess ∧
    1 ∈ exLock1.rangeLock ∧
    1 ∉ (exLock1.tryLockRange [1] [1] 2 9).2.2.rangeLock ∧
    mapGet exLock1.regionIDLock 1 = some 1 ∧
    mapGet (exLock1.tryLockRange [1] [1] 2 9).2.2.regionIDLock 1 = some 1 := by
  decide

/-- Claim C27, amended. A grant on a non-empty range never displaces an existing claim: for
every lock state whose tree is ordered and every request with `start < end`, if
`tryLockRange` returns Success then every entry that was in `rangeLock` before the call is
still in `rangeLock` afterwards, unchanged, and every binding of `regionIDLock` that
existed before the call is still present, with the same unchanged entry, which is still in
`rangeLock` if it was. -/
theorem grant_keeps_claims (l : RegionRangeLock)
    (ho : BTree.Ordered (entryKey l.heap) l.rangeLock) (s e : Key) (hse : s < e) (r v : Nat)
    (hst : (l.tryLockRange s e r v).1.Status = LockRangeStatusSuccess) :
    (∀ p ∈ l.rangeLock, p ∈ (l.tryLockRange s e r v).2.2.rangeLock ∧
      (l.tryLockRange s e r v).2.2.heap p = l.heap p) ∧
    (∀ r1 p, mapGet l.regionIDLock r1 = some p →
      mapGet (l.tryLockRange s e r v).2.2.regionIDLock r1 = some p ∧
      (l.tryLockRange s e r v).2.2.heap p = l.heap p ∧
      (p ∈ l.rangeLock → p ∈ (l.tryLockRange s e r v).2.2.rangeLock)) := by
  rcases tryLockRange_cases l s e r v with ⟨hnil, heq⟩ | ⟨_, _, heq⟩ | ⟨_, _, heq⟩
  · obtain ⟨hscan, hnone⟩ := scan_nil_of_conflict_nil hnil
    have hfresh := allocEntry_not_mem l
    have hold : ∀ q ∈ l.rangeLock,
        Function.update l.heap (allocEntry l) ⟨s, e, r, v, []⟩ q = l.heap q :=
      fun q hq => Function.update_noteq (fun hc => hfresh (by rw [← hc]; exact hq)) _ _
    have hord1 : BTree.Ordered
        (entryKey (Function.update l.heap (allocEntry l) ⟨s, e, r, v, []⟩)) l.rangeLock :=
      ho.congr (fun x hx => by unfold entryKey; rw [hold x hx])
    have hkeep : ∀ p ∈ l.rangeLock, p ∈ BTree.ReplaceOrInsert
        (entryKey (Function.update l.heap (allocEntry l) ⟨s, e, r, v, []⟩))
        l.rangeLock (allocEntry l) := by
      intro p hp
      rw [BTree.mem_ReplaceOrInsert hord1]
      refine Or.inr ⟨hp, ?_⟩
      unfold entryKey
      rw [hold p hp, Function.update_same]
      intro hc
      have hin : p ∈ scanPart l s e := by
        unfold scanPart
        refine List.mem_append_right _ (BTree.mem_AscendRange.mpr ⟨hp, ?_, ?_⟩)
        · unfold entryKey; rw [hc]
        · unfold entryKey; rw [hc]; exact hse
      rw [hscan] at hin
      simp at hin
    rw [heq]
    refine ⟨fun p hp => ⟨hkeep p hp, hold p hp⟩, ?_⟩
    intro r1 p hp
    have hr1 : r1 ≠ r := by
      intro hc
      rw [hc, hnone] at hp
      simp at hp
    have hpa : p ≠ allocEntry l := by
      intro hc
      exact allocEntry_not_indexed l r1 (hc ▸ hp)
    refine ⟨?_, Function.update_noteq hpa _ _, hkeep p⟩
    show mapGet (mapSet l.regionIDLock r (allocEntry l)) r1 = some p
    rw [mapGet_mapSet, if_neg hr1, hp]
  · rw [heq] at hst
    simp [LockRangeStatusSuccess, LockRangeStatusStale] at hst
  · rw [heq] at hst
    simp [LockRangeStatusSuccess, LockRangeStatusWait] at hst

theorem grant_keeps_claims_witness :
    (exLock1.tryLockRange [5] [8] 2 6).2.2.rangeLock = [1, 2] ∧
    ((∀ p ∈ exLock1.rangeLock, p ∈ (exLock1.tryLockRange [5] [8] 2 6).2.2.rangeLock ∧
      (exLock1.tryLockRange [5] [8] 2 6).2.2.heap p = exLock1.heap p) ∧
    (∀ r1 p, mapGet exLock1.regionIDLock r1 = some p →
      mapGet (exLock1.tryLockRange [5] [8] 2 6).2.2.regionIDLock r1 = some p ∧
      (exLock1.tryLockRange [5] [8] 2 6).2.2.heap p = exLock1.heap p ∧
      (p ∈ exLock1.rangeLock → p ∈ (exLock1.tryLockRange [5] [8] 2 6).2.2.rangeLock))) :=
  ⟨by decide,
    grant_keeps_claims exLock1 (Inv_of_reachable exLock1_reachable).ordered [5] [8]
      (by decide) 2 6 (by decide)⟩

/-! ## Retry ranges can be acquired -/

theorem foldl_retryStep_inverted (s e : Key) (hes : e ≤ s) (es : List rangeLockEntry)
    (cur : Key) (hcur : e ≤ cur) :
    ∃ cur1, es.foldl (retryStep s e) ([], cur) = ([], cur1) ∧ e ≤ cur1 := by
  induction es generalizing cur with
  | nil => exact ⟨cur, rfl, hcur⟩
  | cons x es ih =>
    rw [List.foldl_cons]
    by_cases hskip : x.endKey ≤ s ∨ e ≤ x.startKey
    · have : retryStep s e ([], cur) x = ([], cur) := by
        unfold retryStep
        rw [if_pos hskip]
      rw [this]
      exact ih cur hcur
    · have h1 : ¬ cur < x.startKey := by
        intro hc
        exact hskip (Or.inr (le_trans hcur (le_of_lt hc)))
      have h2 : e ≤ x.endKey := by
        by_contra hc
        exact hskip (Or.inl (le_trans (le_of_lt (not_le.mp hc)) hes))
      have : retryStep s e ([], cur) x = ([], x.endKey) := by
        unfold retryStep
        rw [if_neg hskip]
        simp only [if_neg h1]
      rw [this]
      exact ih x.endKey h2

/-- For an empty or inverted range the retry loop leaves no retry range. -/
theorem retryRanges_of_inverted (s e : Key) (hes : e ≤ s) (es : List rangeLockEntry) :
    retryRanges s e es = [] := by
  obtain ⟨cur1, h1, h2⟩ := foldl_retryStep_inverted s e hes es s hes
  unfold retryRanges
  simp only [h1, if_neg (not_lt.mpr h2)]

/-- Claim C28, as stated, fails: `tryLockRange` compares `startKey` with `endKey` nowhere,
so the states the code reaches include those with an empty entry. After region 1 has
acquired `[0x01, 0x05)` at version 5 and region 3 the empty range `[0x07, 0x07)` at version
1, `tryLockRange(0x02, 0x09, 2, 3)` returns Stale with the retry ranges `[0x05, 0x07)` and
`[0x07, 0x09)`; no entry belongs to region 4, yet `tryLockRange(0x07, 0x09, 4, 1)` returns
Stale and `tryLockRange(0x07, 0x09, 4, 5)` returns Wait: the empty entry at `0x07` is in
the scan of `[0x07, 0x09)`. -/
theorem retry_range_not_acquirable :
    ReachableAny exLockPoint ∧
    (exLockPoint.tryLockRange [2] [9] 2 3).1.Status = LockRangeStatusStale ∧
    (exLockPoint.tryLockRange [2] [9] 2 3).1.RetryRanges = [⟨[5], [7]⟩, ⟨[7], [9]⟩] ∧
    (∀ p ∈ exLockPoint.rangeLock, (exLockPoint.heap p).regionID ≠ 4) ∧
    (exLockPoint.tryLockRange [7] [9] 4 1).1.Status = LockRangeStatusStale ∧
    (exLockPoint.tryLockRange [7] [9] 4 5).1.Status = LockRangeStatusWait :=
  ⟨exLockPoint_reachableAny, by decide, by decide, by decide, by decide, by decide⟩

/-- Claim C28, amended. Retry ranges are immediately acquirable: in every state reached from
`NewRegionRangeLock` by `tryLockRange` calls on non-empty ranges (`start < end`) and by
`UnlockRange` calls that complete, if `tryLockRange(start, end, regionID, version)` returns
Stale, then in that same state, for every span `[x, y)` of its `RetryRanges`, every region
id that no entry of `rangeLock` carries and every version, `tryLockRange(x, y, r1, v1)`
returns Success. -/
theorem retry_ranges_acquirable (l : RegionRangeLock) (h : Reachable l) (s e : Key)
    (r v : Nat) (hst : (l.tryLockRange s e r v).1.Status = LockRangeStatusStale)
    (sp : ComparableSpan) (hsp : sp ∈ (l.tryLockRange s e r v).1.RetryRanges) (r1 v1 : Nat)
    (hr1 : ∀ p ∈ l.rangeLock, (l.heap p).regionID ≠ r1) :
    (l.tryLockRange sp.Start sp.End r1 v1).1.Status = LockRangeStatusSuccess := by
  have hinv := Inv_of_reachable h
  have hR : (l.tryLockRange s e r v).1.RetryRanges =
      retryRanges s e ((l.getOverlappedEntries s e r).map l.heap) := by
    rcases tryLockRange_cases l s e r v with ⟨_, heq⟩ | ⟨_, _, heq⟩ | ⟨_, _, heq⟩
    · rw [heq] at hst
      simp [LockRangeStatusSuccess, LockRangeStatusStale] at hst
    · rw [heq]
    · rw [heq] at hst
      simp [LockRangeStatusWait, LockRangeStatusStale] at hst
  rw [hR] at hsp
  by_cases hse : s < e
  · rw [retryRanges_eq_gaps hinv hse r] at hsp
    have hxy := gapsFrom_nonempty _ _ _ sp hsp
    have hfree : ∀ p ∈ l.rangeLock,
        ¬ ∃ k, (l.heap p).covers k ∧ sp.Start ≤ k ∧ k < sp.End := by
      rintro p hp ⟨k, hc, hk1, hk2⟩
      exact ((gaps_mem_of_inv hinv k).mp ⟨sp, hsp, hk1, hk2⟩).2.2 p hp hc
    have hnone : mapGet l.regionIDLock r1 = none := by
      cases hm : mapGet l.regionIDLock r1 with
      | none => rfl
      | some p =>
        obtain ⟨hp, hpr⟩ := (hinv.index r1 p).mp hm
        exact absurd hpr (hr1 p hp)
    have hC : l.getOverlappedEntries sp.Start sp.End r1 = [] := by
      rw [getOverlappedEntries_exact hinv hxy r1, scan_nil_of_free hinv hfree hxy, hnone]
      rfl
    rcases tryLockRange_cases l sp.Start sp.End r1 v1 with ⟨_, heq⟩ | ⟨hne, _⟩ | ⟨hne, _⟩
    · rw [heq]
    · exact absurd hC hne
    · exact absurd hC hne
  · rw [retryRanges_of_inverted s e (not_lt.mp hse)] at hsp
    simp at hsp

theorem retry_ranges_acquirable_witness :
    (exLock1.tryLockRange [2] [7] 2 3).1.RetryRanges = [⟨[5], [7]⟩] ∧
    (exLock1.tryLockRange [5] [7] 4 1).1.Status = LockRangeStatusSuccess :=
  ⟨by decide,
    retry_ranges_acquirable exLock1 exLock1_reachable [2] [7] 2 3 (by decide) ⟨[5], [7]⟩
      (by decide) 4 1 (by decide)⟩

/-! ## Facts about the channels made by the wait loop -/

theorem handlesFor_nil (q n : Nat) : handlesFor q [] n = [] := rfl

theorem handlesFor_cons (q p : Nat) (C : List Nat) (n : Nat) :
    handlesFor q (p :: C) n =
      if p = q then n :: handlesFor q C (n + 1) else handlesFor q C (n + 1) := rfl

theorem handlesFor_bounds (q : Nat) (C : List Nat) (n h : Nat)
    (hh : h ∈ handlesFor q C n) : n ≤ h ∧ h < n + C.length ∧ q ∈ C := by
  induction C generalizing n with
  | nil => simp [handlesFor_nil] at hh
  | cons p C ih =>
    rw [handlesFor_cons] at hh
    simp only [List.length_cons, List.mem_cons]
    split_ifs at hh with hp
    · rcases List.mem_cons.mp hh with rfl | h1
      · exact ⟨le_refl _, by omega, Or.inl hp.symm⟩
      · obtain ⟨h2, h3, h4⟩ := ih (n + 1) h1
        exact ⟨by omega, by omega, Or.inr h4⟩
    · obtain ⟨h2, h3, h4⟩ := ih (n + 1) hh
      exact ⟨by omega, by omega, Or.inr h4⟩

theorem handlesFor_of_not_mem (q : Nat) (C : List Nat) (n : Nat) (hq : q ∉ C) :
    handlesFor q C n = [] := by
  rw [List.eq_nil_iff_forall_not_mem]
  intro h hh
  exact hq (handlesFor_bounds q C n h hh).2.2

theorem handlesFor_nodup (q : Nat) (C : List Nat) (n : Nat) : (handlesFor q C n).Nodup := by
  induction C generalizing n with
  | nil => simp [handlesFor_nil]
  | cons p C ih =>
    rw [handlesFor_cons]
    split_ifs
    · rw [List.nodup_cons]
      refine ⟨?_, ih (n + 1)⟩
      intro hc
      have := (handlesFor_bounds q C (n + 1) n hc).1
      omega
    · exact ih (n + 1)

theorem handlesFor_inj (p q : Nat) (C : List Nat) (n h : Nat)
    (hp : h ∈ handlesFor p C n) (hq : h ∈ handlesFor q C n) : p = q := by
  induction C generalizing n with
  | nil => simp [handlesFor_nil] at hp
  | cons c C ih =>
    rw [handlesFor_cons] at hp hq
    have tailp : h ∈ handlesFor p C (n + 1) → n + 1 ≤ h :=
      fun hc => (handlesFor_bounds p C (n + 1) h hc).1
    have tailq : h ∈ handlesFor q C (n + 1) → n + 1 ≤ h :=
      fun hc => (handlesFor_bounds q C (n + 1) h hc).1
    split_ifs at hp hq with h1 h2 h2
    · rw [← h1, ← h2]
    · rcases List.mem_cons.mp hp with rfl | hp1
      · have := tailq hq
        omega
      · exact ih (n + 1) hp1 hq
    · rcases List.mem_cons.mp hq with rfl | hq1
      · have := tailp hp
        omega
      · exact ih (n + 1) hp hq1
    · exact ih (n + 1) hp hq

theorem handlesFor_of_nodup (C : List Nat) (hC : C.Nodup) (n i : Nat) (hi : i < C.length) :
    handlesFor (C.get ⟨i, hi⟩) C n = [n + i] := by
  induction C generalizing n i with
  | nil => simp at hi
  | cons c C ih =>
    obtain ⟨hc, hC1⟩ := List.nodup_cons.mp hC
    rw [handlesFor_cons]
    cases i with
    | zero =>
      simp only [List.get_eq_getElem, List.getElem_cons_zero, if_true, Nat.add_zero]
      rw [handlesFor_of_not_mem c C (n + 1) hc]
    | succ j =>
      have hj : j < C.length := by simpa using hi
      have hne : ¬ c = (c :: C).get ⟨j + 1, hi⟩ := by
        intro heq
        apply hc
        rw [heq]
        exact List.get_mem C j hj
      rw [if_neg hne]
      have := ih hC1 (n + 1) j hj
      simp only [List.get_eq_getElem, List.getElem_cons_succ] at this ⊢
      rw [this]
      congr 1
      omega

theorem foldl_waitStep_waiters (C : List Nat)
    (acc : List Nat × (Nat → rangeLockEntry) × Nat) (q : Nat) :
    ((C.foldl waitStep acc).2.1 q).waiters =
      (acc.2.1 q).waiters ++ handlesFor q C acc.2.2 := by
  induction C generalizing acc with
  | nil => simp [handlesFor_nil]
  | cons p C ih =>
    rw [List.foldl_cons, ih (waitStep acc p), handlesFor_cons]
    by_cases hp : p = q
    · subst hp
      simp [waitStep, Function.update_same]
    · have hq : q ≠ p := fun hc => hp hc.symm
      simp [waitStep, Function.update_noteq hq, hp]

theorem foldl_waitStep_handles (C : List Nat)
    (acc : List Nat × (Nat → rangeLockEntry) × Nat) :
    (C.foldl waitStep acc).1 = acc.1 ++ List.range' acc.2.2 C.length ∧
    (C.foldl waitStep acc).2.2 = acc.2.2 + C.length := by
  induction C generalizing acc with
  | nil => simp
  | cons p C ih =>
    obtain ⟨h1, h2⟩ := ih (waitStep acc p)
    rw [List.foldl_cons, h1, h2]
    constructor
    · simp [waitStep, List.range'_succ]
    · simp only [waitStep, List.length_cons]
      omega

theorem foldl_waitStep_other (C : List Nat)
    (acc : List Nat × (Nat → rangeLockEntry) × Nat) (q : Nat) (hq : q ∉ C) :
    (C.foldl waitStep acc).2.1 q = acc.2.1 q := by
  induction C generalizing acc with
  | nil => rfl
  | cons p C ih =>
    have hqp : q ≠ p := fun hc => hq (by simp [hc])
    rw [List.foldl_cons, ih (waitStep acc p) (fun hc => hq (by simp [hc]))]
    simp [waitStep, Function.update_noteq hqp]

theorem mem_descendPart {l : RegionRangeLock} {s : Key} {x : Nat} (hx : x ∈ descendPart l s) :
    (l.heap x).startKey < s := by
  unfold descendPart at hx
  split at hx
  · split_ifs at hx with hc
    · rw [List.mem_singleton.mp hx]
      exact hc.1
    · simp at hx
  · simp at hx

theorem descendPart_nodup (l : RegionRangeLock) (s : Key) : (descendPart l s).Nodup := by
  unfold descendPart
  split
  · split_ifs <;> simp
  · simp

theorem scanPart_nodup {l : RegionRangeLock}
    (ho : BTree.Ordered (entryKey l.heap) l.rangeLock) (s e : Key) :
    (scanPart l s e).Nodup := by
  unfold scanPart
  rw [List.nodup_append]
  refine ⟨descendPart_nodup l s, ho.nodup.filter _, ?_⟩
  intro a ha hb
  have h1 := mem_descendPart ha
  have h2 := (BTree.mem_AscendRange.mp hb).2.1
  exact absurd (lt_of_le_of_lt h2 h1) (lt_irrefl _)

/-- With an ordered tree and an index that files entries under their own region id, the
conflict list repeats no entry. -/
theorem getOverlappedEntries_nodup_of_tree {l : RegionRangeLock}
    (ho : BTree.Ordered (entryKey l.heap) l.rangeLock)
    (hreg : ∀ r p, mapGet l.regionIDLock r = some p → (l.heap p).regionID = r)
    (s e : Key) (r : Nat) : (l.getOverlappedEntries s e r).Nodup := by
  rw [getOverlappedEntries_eq]
  split_ifs with hany
  · exact scanPart_nodup ho s e
  · split
    · rename_i x hx
      rw [List.nodup_append]
      refine ⟨scanPart_nodup ho s e, List.nodup_singleton x, ?_⟩
      intro a ha hb
      rw [List.mem_singleton] at hb
      subst hb
      apply hany
      rw [List.any_eq_true]
      exact ⟨a, ha, by simpa using hreg r a hx⟩
    · exact scanPart_nodup ho s e

/-- Claim C24. Wait registers one handle per conflict and changes nothing else: in every
lock state whose tree is ordered and whose index files entries under their own region id,
whenever `tryLockRange` returns Wait with conflict list `C`: the returned channels are the
`length C` newly made ones, in order; `C` repeats no entry; the waiters of the `i`-th entry
of `C` are its waiters before the call followed by the `i`-th channel; entries outside `C`
are unchanged; no entry changes its keys, region id or version; and `rangeLock`,
`regionIDLock` and the checkpoint map are unchanged. -/
theorem wait_registers_handles (l : RegionRangeLock)
    (ho : BTree.Ordered (entryKey l.heap) l.rangeLock)
    (hreg : ∀ r p, mapGet l.regionIDLock r = some p → (l.heap p).regionID = r)
    (s e : Key) (r v : Nat)
    (hW : (l.tryLockRange s e r v).1.Status = LockRangeStatusWait) :
    (l.tryLockRange s e r v).2.1 =
      List.range' l.chanCount (l.getOverlappedEntries s e r).length ∧
    (l.tryLockRange s e r v).2.1.length = (l.getOverlappedEntries s e r).length ∧
    (l.getOverlappedEntries s e r).Nodup ∧
    (∀ i (hi : i < (l.getOverlappedEntries s e r).length),
      ((l.tryLockRange s e r v).2.2.heap ((l.getOverlappedEntries s e r).get ⟨i, hi⟩)).waiters =
        (l.heap ((l.getOverlappedEntries s e r).get ⟨i, hi⟩)).waiters ++ [l.chanCount + i]) ∧
    (∀ q, q ∉ l.getOverlappedEntries s e r →
      (l.tryLockRange s e r v).2.2.heap q = l.heap q) ∧
    SameFields l.heap (l.tryLockRange s e r v).2.2.heap ∧
    (l.tryLockRange s e r v).2.2.rangeLock = l.rangeLock ∧
    (l.tryLockRange s e r v).2.2.regionIDLock = l.regionIDLock ∧
    (l.tryLockRange s e r v).2.2.rangeCheckpointTs = l.rangeCheckpointTs := by
  have hnd := getOverlappedEntries_nodup_of_tree ho hreg s e r
  rcases tryLockRange_cases l s e r v with ⟨_, heq⟩ | ⟨_, _, heq⟩ | ⟨_, _, heq⟩
  · rw [heq] at hW
    simp [LockRangeStatusSuccess, LockRangeStatusWait] at hW
  · rw [heq] at hW
    simp [LockRangeStatusStale, LockRangeStatusWait] at hW
  · have hh := (foldl_waitStep_handles (l.getOverlappedEntries s e r)
      ([], l.heap, l.chanCount)).1
    rw [List.nil_append] at hh
    rw [heq]
    refine ⟨hh, by rw [hh, List.length_range'], hnd, ?_, ?_, ?_, rfl, rfl, rfl⟩
    · intro i hi
      show (((l.getOverlappedEntries s e r).foldl waitStep ([], l.heap, l.chanCount)).2.1
        ((l.getOverlappedEntries s e r).get ⟨i, hi⟩)).waiters = _
      rw [foldl_waitStep_waiters, handlesFor_of_nodup _ hnd]
    · intro q hq
      exact foldl_waitStep_other _ _ q hq
    · exact foldl_waitStep_sameFields _ _

theorem wait_registers_handles_witness :
    exLock1.getOverlappedEntries [2] [3] 2 = [1] ∧
    ((exLock1.tryLockRange [2] [3] 2 6).2.1 =
      List.range' exLock1.chanCount (exLock1.getOverlappedEntries [2] [3] 2).length ∧
    (exLock1.tryLockRange [2] [3] 2 6).2.1.length =
      (exLock1.getOverlappedEntries [2] [3] 2).length ∧
    (exLock1.getOverlappedEntries [2] [3] 2).Nodup ∧
    (∀ i (hi : i < (exLock1.getOverlappedEntries [2] [3] 2).length),
      ((exLock1.tryLockRange [2] [3] 2 6).2.2.heap
          ((exLock1.getOverlappedEntries [2] [3] 2).get ⟨i, hi⟩)).waiters =
        (exLock1.heap ((exLock1.getOverlappedEntries [2] [3] 2).get ⟨i, hi⟩)).waiters ++
          [exLock1.chanCount + i]) ∧
    (∀ q, q ∉ exLock1.getOverlappedEntries [2] [3] 2 →
      (exLock1.tryLockRange [2] [3] 2 6).2.2.heap q = exLock1.heap q) ∧
    SameFields exLock1.heap (exLock1.tryLockRange [2] [3] 2 6).2.2.heap ∧
    (exLock1.tryLockRange [2] [3] 2 6).2.2.rangeLock = exLock1.rangeLock ∧
    (exLock1.tryLockRange [2] [3] 2 6).2.2.regionIDLock = exLock1.regionIDLock ∧
    (exLock1.tryLockRange [2] [3] 2 6).2.2.rangeCheckpointTs = exLock1.rangeCheckpointTs) :=
  ⟨by decide,
    wait_registers_handles exLock1 (Inv_of_reachable exLock1_reachable).ordered
      (fun r p hp => (((Inv_of_reachable exLock1_reachable).index r p).mp hp).2)
      [2] [3] 2 6 (by decide)⟩

/-! ## Signals -/

theorem BTree.mem_ReplaceOrInsert_imp {α : Type} (key : α → Key) (t : List α) (e x : α)
    (hx : x ∈ BTree.ReplaceOrInsert key t e) : x = e ∨ x ∈ t := by
  induction t with
  | nil =>
    simp only [BTree.ReplaceOrInsert, List.mem_singleton] at hx
    exact Or.inl hx
  | cons a t ih =>
    unfold BTree.ReplaceOrInsert at hx
    split_ifs at hx
    · rcases List.mem_cons.mp hx with h1 | h1
      · exact Or.inl h1
      · exact Or.inr h1
    · rcases List.mem_cons.mp hx with h1 | h1
      · exact Or.inr (by rw [h1]; simp)
      · rcases ih h1 with h2 | h2
        · exact Or.inl h2
        · exact Or.inr (List.mem_cons_of_mem _ h2)
    · rcases List.mem_cons.mp hx with h1 | h1
      · exact Or.inl h1
      · exact Or.inr (List.mem_cons_of_mem _ h1)

theorem ReachableSig.reachable {l : RegionRangeLock} {sent : List Nat}
    (h : ReachableSig l sent) : Reachable l := by
  induction h with
  | init gs ge t0 => exact Reachable.init gs ge t0
  | acquire l sent s e r v _ hse ih => exact Reachable.acquire l s e r v ih hse
  | release l l1 sent s e r v ts sig _ hu ih => exact Reachable.release l l1 s e r v ts sig ih hu

theorem WaitersInv_NewRegionRangeLock (gs ge : Key) (t0 : Nat) :
    WaitersInv (NewRegionRangeLock gs ge t0) [] where
  made := fun p hp => by simp [NewRegionRangeLock] at hp
  once := fun p hp => by simp [NewRegionRangeLock] at hp
  own := fun p hp => by simp [NewRegionRangeLock] at hp
  sentOnce := List.nodup_nil
  sentMade := fun h hh => by simp at hh
  sentGone := fun h hh => by simp at hh

theorem WaitersInv_tryLockRange {l : RegionRangeLock} {sent : List Nat}
    (hw : WaitersInv l sent) (s e : Key) (r v : Nat) :
    WaitersInv (l.tryLockRange s e r v).2.2 sent := by
  rcases tryLockRange_cases l s e r v with ⟨_, heq⟩ | ⟨_, _, heq⟩ | ⟨_, _, heq⟩
  · have hfresh := allocEntry_not_mem l
    have hold : ∀ q ∈ l.rangeLock, (l.tryLockRange s e r v).2.2.heap q = l.heap q := by
      intro q hq
      rw [heq]
      exact Function.update_noteq (fun hc => hfresh (by rw [← hc]; exact hq)) _ _
    have hnew : ((l.tryLockRange s e r v).2.2.heap (allocEntry l)).waiters = [] := by
      rw [heq]
      show (Function.update l.heap (allocEntry l) ⟨s, e, r, v, []⟩ (allocEntry l)).waiters = []
      rw [Function.update_same]
    have hmem : ∀ q, q ∈ (l.tryLockRange s e r v).2.2.rangeLock →
        q = allocEntry l ∨ q ∈ l.rangeLock := by
      intro q hq
      rw [heq] at hq
      exact BTree.mem_ReplaceOrInsert_imp _ _ _ q hq
    have hcnt : (l.tryLockRange s e r v).2.2.chanCount = l.chanCount := by
      rw [heq]
    refine ⟨?_, ?_, ?_, hw.sentOnce, ?_, ?_⟩
    · intro p hp h hh
      rw [hcnt]
      rcases hmem p hp with rfl | hp1
      · rw [hnew] at hh
        simp at hh
      · rw [hold p hp1] at hh
        exact hw.made p hp1 h hh
    · intro p hp
      rcases hmem p hp with rfl | hp1
      · rw [hnew]
        exact List.nodup_nil
      · rw [hold p hp1]
        exact hw.once p hp1
    · intro p hp q hq h hhp hhq
      rcases hmem p hp with rfl | hp1
      · rw [hnew] at hhp
        simp at hhp
      · rcases hmem q hq with rfl | hq1
        · rw [hnew] at hhq
          simp at hhq
        · rw [hold p hp1] at hhp
          rw [hold q hq1] at hhq
          exact hw.own p hp1 q hq1 h hhp hhq
    · intro h hh
      rw [hcnt]
      exact hw.sentMade h hh
    · intro h hh p hp
      rcases hmem p hp with rfl | hp1
      · rw [hnew]
        simp
      · rw [hold p hp1]
        exact hw.sentGone h hh p hp1
  · rw [heq]
    exact hw
  · have hws : ∀ q, ((l.tryLockRange s e r v).2.2.heap q).waiters =
        (l.heap q).waiters ++ handlesFor q (l.getOverlappedEntries s e r) l.chanCount := by
      intro q
      rw [heq]
      exact foldl_waitStep_waiters (l.getOverlappedEntries s e r) ([], l.heap, l.chanCount) q
    have hcnt : (l.tryLockRange s e r v).2.2.chanCount =
        l.chanCount + (l.getOverlappedEntries s e r).length := by
      rw [heq]
      exact (foldl_waitStep_handles (l.getOverlappedEntries s e r)
        ([], l.heap, l.chanCount)).2
    have htree : (l.tryLockRange s e r v).2.2.rangeLock = l.rangeLock := by
      rw [heq]
    refine ⟨?_, ?_, ?_, hw.sentOnce, ?_, ?_⟩
    · intro p hp h hh
      rw [htree] at hp
      rw [hcnt]
      rw [hws p] at hh
      rcases List.mem_append.mp hh with h1 | h1
      · have := hw.made p hp h h1
        omega
      · exact (handlesFor_bounds _ _ _ _ h1).2.1
    · intro p hp
      rw [htree] at hp
      rw [hws p, List.nodup_append]
      refine ⟨hw.once p hp, handlesFor_nodup _ _ _, ?_⟩
      intro a ha hb
      have h1 := hw.made p hp a ha
      have h2 := (handlesFor_bounds _ _ _ _ hb).1
      omega
    · intro p hp q hq h hhp hhq
      rw [htree] at hp hq
      rw [hws p] at hhp
      rw [hws q] at hhq
      rcases List.mem_append.mp hhp with h1 | h1 <;>
        rcases List.mem_append.mp hhq with h2 | h2
      · exact hw.own p hp q hq h h1 h2
      · have h3 := hw.made p hp h h1
        have h4 := (handlesFor_bounds _ _ _ _ h2).1
        omega
      · have h3 := hw.made q hq h h2
        have h4 := (handlesFor_bounds _ _ _ _ h1).1
        omega
      · exact handlesFor_inj p q _ _ h h1 h2
    · intro h hh
      rw [hcnt]
      have := hw.sentMade h hh
      omega
    · intro h hh p hp hc
      rw [htree] at hp
      rw [hws p] at hc
      rcases List.mem_append.mp hc with h1 | h1
      · exact hw.sentGone h hh p hp h1
      · have h3 := hw.sentMade h hh
        have h4 := (handlesFor_bounds _ _ _ _ h1).1
        omega

theorem WaitersInv_UnlockRange {l l1 : RegionRangeLock} {sent : List Nat} (h : Inv l)
    (hw : WaitersInv l sent) {s e : Key} {r v ts : Nat} {signalled : List Nat}
    (hu : l.UnlockRange s e r v ts = some (l1, signalled)) :
    WaitersInv l1 (sent ++ signalled) := by
  obtain ⟨p, hget, _, _, _, _, hsig, rfl⟩ := UnlockRange_some hu
  obtain ⟨hp, hkey⟩ := BTree.Get_some hget
  have hmem : ∀ q, q ∈ (BTree.Delete (entryKey l.heap) l.rangeLock (entryKey l.heap p)).2 →
      q ∈ l.rangeLock ∧ q ≠ p := by
    intro q hq
    rw [BTree.Delete_snd_eq h.ordered, List.mem_filter, decide_eq_true_eq] at hq
    exact ⟨hq.1, fun hc => hq.2 (by rw [hc])⟩
  rw [hsig]
  refine ⟨?_, ?_, ?_, ?_, ?_, ?_⟩
  · intro q hq a ha
    exact hw.made q (hmem q hq).1 a ha
  · intro q hq
    exact hw.once q (hmem q hq).1
  · intro q hq q1 hq1 a ha ha1
    exact hw.own q (hmem q hq).1 q1 (hmem q1 hq1).1 a ha ha1
  · rw [List.nodup_append]
    refine ⟨hw.sentOnce, hw.once p hp, ?_⟩
    intro a ha hb
    exact hw.sentGone a ha p hp hb
  · intro a ha
    show a < l.chanCount
    rcases List.mem_append.mp ha with h1 | h1
    · exact hw.sentMade a h1
    · exact hw.made p hp a h1
  · intro a ha q hq hc
    have hc1 : a ∈ (l.heap q).waiters := hc
    rcases List.mem_append.mp ha with h1 | h1
    · exact hw.sentGone a h1 q (hmem q hq).1 hc1
    · exact (hmem q hq).2 (hw.own q (hmem q hq).1 p hp a hc1 h1)

theorem WaitersInv_of_reachable {l : RegionRangeLock} {sent : List Nat}
    (h : ReachableSig l sent) : WaitersInv l sent := by
  induction h with
  | init gs ge t0 => exact WaitersInv_NewRegionRangeLock gs ge t0
  | acquire l sent s e r v _ _ ih => exact WaitersInv_tryLockRange ih s e r v
  | release l l1 sent s e r v ts sig hr hu ih =>
    exact WaitersInv_UnlockRange (Inv_of_reachable hr.reachable) ih hu

theorem exLockWaited_reachableSig : ReachableSig exLockWaited [] :=
  ReachableSig.acquire _ _ _ _ _ _
    (ReachableSig.acquire _ _ _ _ _ _ (ReachableSig.init [0] [9] 7) (by decide)) (by decide)

theorem exLockWaited_release_eq :
    exLockWaited.UnlockRange [1] [5] 1 5 100 = some (exLockWaitedReleased, [0]) := rfl

/-- Claim C25. Release wakes exactly the released entry's waiters. In a state reached from
`NewRegionRangeLock` by `tryLockRange` calls on non-empty ranges and completed `UnlockRange`
calls, with `sent` the handles signalled so far in order, a completed
`UnlockRange(start, end, ...)` signals the waiters list of the entry at `start`, each of its
handles once; no handle registered on another entry is signalled; every other entry stays
in the tree with its waiters list as it was, and the released entry is gone from the tree;
the signals sent so far together with the new ones name no handle twice. -/
theorem release_wakes_own_waiters (l : RegionRangeLock) (sent : List Nat)
    (h : ReachableSig l sent) (s e : Key) (r v ts : Nat) (l1 : RegionRangeLock)
    (signalled : List Nat) (hu : l.UnlockRange s e r v ts = some (l1, signalled)) :
    ∃ p ∈ l.rangeLock, (l.heap p).startKey = s ∧
      signalled = (l.heap p).waiters ∧ signalled.Nodup ∧
      (∀ q ∈ l.rangeLock, q ≠ p →
        (∀ c ∈ (l.heap q).waiters, c ∉ signalled) ∧
        q ∈ l1.rangeLock ∧ (l1.heap q).waiters = (l.heap q).waiters) ∧
      p ∉ l1.rangeLock ∧
      (sent ++ signalled).Nodup := by
  have hinv := Inv_of_reachable h.reachable
  have hw := WaitersInv_of_reachable h
  have hw1 := WaitersInv_UnlockRange hinv hw hu
  obtain ⟨p, hget, _, _, _, _, hsig, rfl⟩ := UnlockRange_some hu
  obtain ⟨hp, hkey⟩ := BTree.Get_some hget
  refine ⟨p, hp, hkey, hsig, ?_, ?_, ?_, hw1.sentOnce⟩
  · rw [hsig]
    exact hw.once p hp
  · intro q hq hqp
    refine ⟨?_, ?_, rfl⟩
    · intro c hc hcs
      rw [hsig] at hcs
      exact hqp (hw.own q hq p hp c hc hcs)
    · show q ∈ (BTree.Delete (entryKey l.heap) l.rangeLock (entryKey l.heap p)).2
      rw [BTree.Delete_snd_eq hinv.ordered, List.mem_filter, decide_eq_true_eq]
      exact ⟨hq, fun hk => hqp (hinv.ordered.key_inj hq hp hk)⟩
  · intro hc
    have hc1 : p ∈ (BTree.Delete (entryKey l.heap) l.rangeLock (entryKey l.heap p)).2 := hc
    rw [BTree.Delete_snd_eq hinv.ordered, List.mem_filter, decide_eq_true_eq] at hc1
    exact hc1.2 rfl

theorem release_wakes_own_waiters_witness :
    ∃ p ∈ exLockWaited.rangeLock, (exLockWaited.heap p).startKey = [1] ∧
      [0] = (exLockWaited.heap p).waiters ∧ [0].Nodup ∧
      (∀ q ∈ exLockWaited.rangeLock, q ≠ p →
        (∀ c ∈ (exLockWaited.heap q).waiters, c ∉ [0]) ∧
        q ∈ exLockWaitedReleased.rangeLock ∧
        (exLockWaitedReleased.heap q).waiters = (exLockWaited.heap q).waiters) ∧
      p ∉ exLockWaitedReleased.rangeLock ∧
      (([] : List Nat) ++ [0]).Nodup :=
  release_wakes_own_waiters exLockWaited [] exLockWaited_reachableSig [1] [5] 1 5 100
    exLockWaitedReleased [0] exLockWaited_release_eq

end RegionSpan
